import Mathlib

/-! The C-- lexer (`src/Lexer.cpp`, `src/Token.h`, `src/Token.cpp`)

A shallow embedding of the scanner and a verification development over it.

Modelling conventions
* `std::string` is the list of its characters (`List Char`).  The C `char` is
  modelled by `Char`; the `<cctype>` classifiers are the ones of the "C" locale.
* `int` counters (`current_char_idx`, `line`, `column`, ...) only ever count
  upwards from 0 or 1 and are bounded by the length of the source plus one, so
  they are natural numbers; sources of `2^31` characters or more are outside
  the model.  The literal of a `NUMBER` token is a 32-bit `int`, an `Int` here,
  and the range check of `std::stoi` is explicit.
* `std::any` holding either nothing or an `int` is `Option Int`.
* The global `had_lexer_error` and the text written to `std::cerr` are part of
  the state record: `cerr` is the list of the diagnostics reported so far.
* `while` loops are recursive functions with a fuel argument and return `none`
  when the fuel runs out; that this never happens is a theorem.
-/

namespace CMinus

/-! ## Token.h -/

/-- The enumeration `TokenType` of `Token.h`. -/
inductive TokenType
  | KEYWORD_INT | KEYWORD_VOID | KEYWORD_IF | KEYWORD_ELSE
  | KEYWORD_WHILE | KEYWORD_RETURN | KEYWORD_INPUT | KEYWORD_OUTPUT
  | OP_PLUS | OP_MINUS | OP_MULTIPLY | OP_DIVIDE | OP_ASSIGN
  | OP_EQUAL | OP_NOT_EQUAL | OP_LESS | OP_LESS_EQUAL
  | OP_GREATER | OP_GREATER_EQUAL
  | DELIM_LPAREN | DELIM_RPAREN | DELIM_LBRACE | DELIM_RBRACE
  | DELIM_LBRACKET | DELIM_RBRACKET | DELIM_SEMICOLON | DELIM_COMMA
  | IDENTIFIER
  | NUMBER
  | EOF_TOKEN
  deriving DecidableEq, Repr

/-- The struct `Token` of `Token.h`: kind, lexeme (`value`), literal, line and
column of the first character. -/
structure Token where
  type : TokenType
  value : List Char
  literal_value : Option Int
  line : Nat
  column : Nat
  deriving DecidableEq, Repr

/-- One line written by `reportLexerError`: the line, the column and the
message. -/
structure Diagnostic where
  line : Nat
  column : Nat
  message : List Char
  deriving DecidableEq, Repr

/-! ## Lexer.h: the scanner state -/

/-- The fields of the class `Lexer`, followed by the two pieces of process
state its methods write: the global flag `had_lexer_error` and the stream
`cerr`. -/
structure Lexer where
  source_code : List Char
  tokens : List Token
  current_char_idx : Nat
  start_lexeme_idx : Nat
  line : Nat
  column : Nat
  current_token_start_column : Nat
  had_lexer_error : Bool
  cerr : List Diagnostic
  deriving DecidableEq, Repr

/-! ## Library functions used by Lexer.cpp -/

/-- The expression `str[i]` of `std::string`: the character at index `i`, and
the terminating NUL at `i = str.size()`. -/
def charAt (str : List Char) (i : Nat) : Char := str.getD i '\x00'

/-- The call `str.substr(pos, len)`. -/
def substr (str : List Char) (pos len : Nat) : List Char := (str.drop pos).take len

/-- The classifier `isdigit` of the "C" locale. -/
def isdigit (c : Char) : Bool := c.isDigit

/-- The classifier `isalpha` of the "C" locale. -/
def isalpha (c : Char) : Bool := c.isAlpha

/-- The classifier `isalnum` of the "C" locale. -/
def isalnum (c : Char) : Bool := c.isAlphanum

/-- The classifier `isspace` of the "C" locale (used by `std::stoi` only). -/
def isspace (c : Char) : Bool :=
  c = ' ' ∨ c = '\t' ∨ c = '\n' ∨ c = '\x0b' ∨ c = '\x0c' ∨ c = '\r'

/-- The three outcomes of `std::stoi`: a value, or one of its two exceptions. -/
inductive StoiResult
  | ok (v : Int)
  | out_of_range
  | invalid_argument
  deriving DecidableEq, Repr

/-- Base-10 value of a string of digits. -/
def decimalValue (ds : List Char) : Nat :=
  ds.foldl (fun acc d => acc * 10 + (d.toNat - '0'.toNat)) 0

/-- The library call `std::stoi(str)` with a 32-bit `int`: leading white space
is skipped, an optional sign is read, then the longest run of decimal digits.
No digit at all is `invalid_argument`; a value outside
`[-2147483648, 2147483647]` is `out_of_range`. -/
def stoi (str : List Char) : StoiResult :=
  let s1 := str.dropWhile isspace
  let neg : Bool := s1.head? = some '-'
  let s2 := if s1.head? = some '-' ∨ s1.head? = some '+' then s1.tail else s1
  let ds := s2.takeWhile isdigit
  if ds = [] then StoiResult.invalid_argument
  else
    let v : Int := if neg then -(decimalValue ds : Int) else (decimalValue ds : Int)
    if v < -2147483648 ∨ 2147483647 < v then StoiResult.out_of_range
    else StoiResult.ok v

/-! ## Lexer.cpp -/

/-- The function `reportLexerError`: writes one line to `cerr` and sets the
global flag. -/
def reportLexerError (line column : Nat) (message : List Char) (s : Lexer) : Lexer :=
  { s with cerr := s.cerr ++ [⟨line, column, message⟩], had_lexer_error := true }

/-- The table `Lexer::keywords` built by `createKeywordsMap`. -/
def keywords : List (List Char × TokenType) :=
  [ ("int".toList, TokenType.KEYWORD_INT),
    ("void".toList, TokenType.KEYWORD_VOID),
    ("if".toList, TokenType.KEYWORD_IF),
    ("else".toList, TokenType.KEYWORD_ELSE),
    ("while".toList, TokenType.KEYWORD_WHILE),
    ("return".toList, TokenType.KEYWORD_RETURN),
    ("input".toList, TokenType.KEYWORD_INPUT),
    ("output".toList, TokenType.KEYWORD_OUTPUT) ]

/-- The constructor `Lexer::Lexer(source)` together with the member
initialisers of `Lexer.h`; the flag is whatever the process holds at that
moment and nothing has been written to `cerr` yet. -/
def Lexer.new (source : List Char) (flag : Bool) : Lexer :=
  { source_code := source, tokens := [], current_char_idx := 0, start_lexeme_idx := 0,
    line := 1, column := 0, current_token_start_column := 1,
    had_lexer_error := flag, cerr := [] }

/-- The method `Lexer::isAtEnd`. -/
def isAtEnd (s : Lexer) : Bool := decide (s.source_code.length ≤ s.current_char_idx)

/-- The method `Lexer::advance`: the character under the cursor, and the state
with the cursor moved by one. -/
def advance (s : Lexer) : Char × Lexer :=
  (charAt s.source_code s.current_char_idx,
    { s with current_char_idx := s.current_char_idx + 1 })

/-- The method `Lexer::peek`. -/
def peek (s : Lexer) : Char :=
  if isAtEnd s then '\x00' else charAt s.source_code s.current_char_idx

/-- The method `Lexer::peekNext`. -/
def peekNext (s : Lexer) : Char :=
  if s.source_code.length ≤ s.current_char_idx + 1 then '\x00'
  else charAt s.source_code (s.current_char_idx + 1)

/-- The method `Lexer::addToken(type, literal_value)`; `addToken(type)` is the
call with `none`. -/
def addToken (type : TokenType) (literal_value : Option Int) (s : Lexer) : Lexer :=
  let lexeme := substr s.source_code s.start_lexeme_idx (s.current_char_idx - s.start_lexeme_idx)
  { s with tokens := s.tokens ++ [⟨type, lexeme, literal_value, s.line, s.current_token_start_column⟩] }

/-- The inner `while` of `skipWhitespaceAndComments`: the body of a line
comment, up to but not including the newline. -/
def skipCommentBody : Nat → Lexer → Option Lexer
  | 0, _ => none
  | fuel + 1, s =>
    if s.current_char_idx < s.source_code.length ∧
        charAt s.source_code s.current_char_idx ≠ '\n' then
      skipCommentBody fuel
        { s with current_char_idx := s.current_char_idx + 1, column := s.column + 1 }
    else some s

/-- The outer `while (true)` of `skipWhitespaceAndComments`. -/
def skipLoop : Nat → Lexer → Option Lexer
  | 0, _ => none
  | fuel + 1, s =>
    if isAtEnd s then some s
    else
      let c := charAt s.source_code s.current_char_idx
      if c = ' ' ∨ c = '\r' ∨ c = '\t' then
        skipLoop fuel { s with current_char_idx := s.current_char_idx + 1, column := s.column + 1 }
      else if c = '\n' then
        skipLoop fuel
          { s with current_char_idx := s.current_char_idx + 1, line := s.line + 1, column := 0 }
      else if c = '/' then
        if s.current_char_idx + 1 < s.source_code.length ∧
            charAt s.source_code (s.current_char_idx + 1) = '/' then
          (skipCommentBody (s.source_code.length + 1)
            { s with current_char_idx := s.current_char_idx + 2, column := s.column + 2 }).bind
            (skipLoop fuel)
        else some s
      else some s

/-- The method `Lexer::skipWhitespaceAndComments`. -/
def skipWhitespaceAndComments (s : Lexer) : Option Lexer :=
  skipLoop (s.source_code.length + 1) s

/-- The `while (isdigit(peek()))` loop of `readNumber`. -/
def readNumberLoop : Nat → Lexer → Option Lexer
  | 0, _ => none
  | fuel + 1, s =>
    if isdigit (peek s) then
      readNumberLoop fuel { (advance s).2 with column := s.column + 1 }
    else some s

/-- The method `Lexer::readNumber`. -/
def readNumber (s : Lexer) : Option Lexer :=
  (readNumberLoop (s.source_code.length + 1) s).map fun s1 =>
    let num_str := substr s1.source_code s1.start_lexeme_idx
      (s1.current_char_idx - s1.start_lexeme_idx)
    match stoi num_str with
    | StoiResult.ok num_val => addToken TokenType.NUMBER (some num_val) s1
    | StoiResult.out_of_range =>
      addToken TokenType.NUMBER (some 0)
        (reportLexerError s1.line s1.current_token_start_column
          ("Number literal '".toList ++ num_str ++ "' is too large.".toList) s1)
    | StoiResult.invalid_argument =>
      addToken TokenType.NUMBER (some 0)
        (reportLexerError s1.line s1.current_token_start_column
          ("Invalid number literal: '".toList ++ num_str ++ "'".toList) s1)

/-- The `while (isalnum(peek()) || peek() == '_')` loop of
`readIdentifierOrKeyword`. -/
def readIdentifierLoop : Nat → Lexer → Option Lexer
  | 0, _ => none
  | fuel + 1, s =>
    if isalnum (peek s) ∨ peek s = '_' then
      readIdentifierLoop fuel { (advance s).2 with column := s.column + 1 }
    else some s

/-- The method `Lexer::readIdentifierOrKeyword`. -/
def readIdentifierOrKeyword (s : Lexer) : Option Lexer :=
  (readIdentifierLoop (s.source_code.length + 1) s).map fun s1 =>
    let text := substr s1.source_code s1.start_lexeme_idx
      (s1.current_char_idx - s1.start_lexeme_idx)
    match keywords.lookup text with
    | some ty => addToken ty none s1
    | none => addToken TokenType.IDENTIFIER none s1

/-- The method `Lexer::match`: whether the character under the cursor is
`expected`, and the state, advanced by one when it is. -/
def matchChar (expected : Char) (s : Lexer) : Bool × Lexer :=
  if isAtEnd s then (false, s)
  else if charAt s.source_code s.current_char_idx ≠ expected then (false, s)
  else (true, { s with current_char_idx := s.current_char_idx + 1, column := s.column + 1 })

/-- The method `Lexer::scanToken`. -/
def scanToken (s : Lexer) : Option Lexer :=
  let c := (advance s).1
  let s1 : Lexer := { (advance s).2 with column := s.column + 1 }
  if c = '(' then some (addToken TokenType.DELIM_LPAREN none s1)
  else if c = ')' then some (addToken TokenType.DELIM_RPAREN none s1)
  else if c = '{' then some (addToken TokenType.DELIM_LBRACE none s1)
  else if c = '}' then some (addToken TokenType.DELIM_RBRACE none s1)
  else if c = '[' then some (addToken TokenType.DELIM_LBRACKET none s1)
  else if c = ']' then some (addToken TokenType.DELIM_RBRACKET none s1)
  else if c = ';' then some (addToken TokenType.DELIM_SEMICOLON none s1)
  else if c = ',' then some (addToken TokenType.DELIM_COMMA none s1)
  else if c = '+' then some (addToken TokenType.OP_PLUS none s1)
  else if c = '-' then some (addToken TokenType.OP_MINUS none s1)
  else if c = '*' then some (addToken TokenType.OP_MULTIPLY none s1)
  else if c = '/' then some (addToken TokenType.OP_DIVIDE none s1)
  else if c = '!' then
    if (matchChar '=' s1).1 then some (addToken TokenType.OP_NOT_EQUAL none (matchChar '=' s1).2)
    else
      some (reportLexerError (matchChar '=' s1).2.line (matchChar '=' s1).2.current_token_start_column
        "Unexpected character '!' (expected '!=')".toList (matchChar '=' s1).2)
  else if c = '=' then
    some (addToken (if (matchChar '=' s1).1 then TokenType.OP_EQUAL else TokenType.OP_ASSIGN) none
      (matchChar '=' s1).2)
  else if c = '<' then
    some (addToken (if (matchChar '=' s1).1 then TokenType.OP_LESS_EQUAL else TokenType.OP_LESS) none
      (matchChar '=' s1).2)
  else if c = '>' then
    some (addToken
      (if (matchChar '=' s1).1 then TokenType.OP_GREATER_EQUAL else TokenType.OP_GREATER) none
      (matchChar '=' s1).2)
  else if isdigit c then readNumber s1
  else if isalpha c ∨ c = '_' then readIdentifierOrKeyword s1
  else
    some (reportLexerError s1.line s1.current_token_start_column
      ("Unexpected character '".toList ++ [c] ++ "'".toList) s1)

/-- The `while (true)` loop of `Lexer::tokenize`. -/
def tokenizeLoop : Nat → Lexer → Option Lexer
  | 0, _ => none
  | fuel + 1, s =>
    (skipWhitespaceAndComments s).bind fun s1 =>
      if isAtEnd s1 then some s1
      else
        (scanToken { s1 with start_lexeme_idx := s1.current_char_idx,
                             current_token_start_column := s1.column + 1 }).bind
          (tokenizeLoop fuel)

/-- The method `Lexer::tokenize`.  The returned vector is the field `tokens`
of the resulting state. -/
def tokenize (s : Lexer) : Option Lexer :=
  let s0 : Lexer := { s with tokens := [], current_char_idx := 0, line := 1, column := 0,
                             current_token_start_column := 1 }
  (tokenizeLoop (s0.source_code.length + 1) s0).bind fun s1 =>
    (if s1.tokens ≠ [] ∨ 0 < s1.source_code.length then skipWhitespaceAndComments s1
     else some s1).map fun s2 =>
      { s2 with tokens := s2.tokens ++ [⟨TokenType.EOF_TOKEN, [], none, s2.line, s2.column + 1⟩] }

/-! ## Positions in a source text -/

/-- Line of the character at offset `o`: one plus the number of newlines in
`source[0, o)`. -/
def lineAt (source : List Char) (o : Nat) : Nat := 1 + (source.take o).count '\n'

/-- Number of characters between the last newline before offset `o` (or the
start of the text) and `o`. -/
def col0 (source : List Char) (o : Nat) : Nat :=
  ((source.take o).reverse.takeWhile (fun c => decide (c ≠ '\n'))).length

/-- Column of the character at offset `o`, counted from 1; every character
counts as one column. -/
def colAt (source : List Char) (o : Nat) : Nat := 1 + col0 source o

/-! ## A functional description of the scan

The scan cuts the source into blanks, line comments and items; an item is a
token or a character that is reported as unexpected.  `lexFrom` computes the
items from the text alone; `tokenize_spec` below shows that `tokenize` returns
exactly their rendering. -/

/-- An item of the scan: the offset of its first character, its length, and
its kind (`none` for an unexpected character). -/
structure Item where
  off : Nat
  len : Nat
  kind : Option TokenType
  deriving DecidableEq, Repr

/-- The characters consumed one by one by `skipWhitespaceAndComments`. -/
def isBlank (c : Char) : Bool := c = ' ' ∨ c = '\r' ∨ c = '\t' ∨ c = '\n'

/-- The characters that extend an identifier. -/
def isIdChar (c : Char) : Bool := isalnum c ∨ c = '_'

/-- Length of the body of a line comment that starts a text. -/
def commentLen (cs : List Char) : Nat := (cs.takeWhile (fun c => decide (c ≠ '\n'))).length

/-- Kind of a complete identifier text. -/
def keywordOrIdentifier (text : List Char) : TokenType :=
  (keywords.lookup text).getD TokenType.IDENTIFIER

/-- Kind of a one-character token. -/
def punctKind (c : Char) : Option TokenType :=
  if c = '(' then some TokenType.DELIM_LPAREN
  else if c = ')' then some TokenType.DELIM_RPAREN
  else if c = '{' then some TokenType.DELIM_LBRACE
  else if c = '}' then some TokenType.DELIM_RBRACE
  else if c = '[' then some TokenType.DELIM_LBRACKET
  else if c = ']' then some TokenType.DELIM_RBRACKET
  else if c = ';' then some TokenType.DELIM_SEMICOLON
  else if c = ',' then some TokenType.DELIM_COMMA
  else if c = '+' then some TokenType.OP_PLUS
  else if c = '-' then some TokenType.OP_MINUS
  else if c = '*' then some TokenType.OP_MULTIPLY
  else if c = '/' then some TokenType.OP_DIVIDE
  else none

/-- For a character that may be followed by `=`: the kind with the `=` and the
kind without it (`none` for the bare `!`). -/
def compoundKind (c : Char) : Option (TokenType × Option TokenType) :=
  if c = '!' then some (TokenType.OP_NOT_EQUAL, none)
  else if c = '=' then some (TokenType.OP_EQUAL, some TokenType.OP_ASSIGN)
  else if c = '<' then some (TokenType.OP_LESS_EQUAL, some TokenType.OP_LESS)
  else if c = '>' then some (TokenType.OP_GREATER_EQUAL, some TokenType.OP_GREATER)
  else none

/-- Length and kind of the item that starts with the character `c`, followed
by the text `r`. -/
def scanHead (c : Char) (r : List Char) : Nat × Option TokenType :=
  match punctKind c with
  | some ty => (1, some ty)
  | none =>
    match compoundKind c with
    | some (two, one) => if r.head? = some '=' then (2, some two) else (1, one)
    | none =>
      if isdigit c then (1 + (r.takeWhile isdigit).length, some TokenType.NUMBER)
      else if isalpha c ∨ c = '_' then
        (1 + (r.takeWhile isIdChar).length,
          some (keywordOrIdentifier (c :: r.takeWhile isIdChar)))
      else (1, none)

/-- The items of the text `cs`, which starts at offset `off` of the source. -/
def lexI : Nat → Nat → List Char → List Item
  | 0, _, _ => []
  | _ + 1, _, [] => []
  | fuel + 1, off, c :: r =>
    if isBlank c then lexI fuel (off + 1) r
    else if c = '/' ∧ r.head? = some '/' then
      lexI fuel (off + 2 + commentLen r.tail) (r.tail.drop (commentLen r.tail))
    else
      ⟨off, (scanHead c r).1, (scanHead c r).2⟩ ::
        lexI fuel (off + (scanHead c r).1) (r.drop ((scanHead c r).1 - 1))

/-- The items of a text that starts at offset `off`. -/
def lexFrom (off : Nat) (cs : List Char) : List Item := lexI cs.length off cs

/-- The items of a source text. -/
def items (source : List Char) : List Item := lexFrom 0 source

/-- The literal that `scanToken` attaches to a token of kind `ty` with lexeme
`text`. -/
def literalOf (ty : TokenType) (text : List Char) : Option Int :=
  if ty = TokenType.NUMBER then
    some (match stoi text with
      | StoiResult.ok v => v
      | _ => 0)
  else none

/-- The token of an item, if it has one. -/
def itemToken (source : List Char) (it : Item) : Option Token :=
  it.kind.map fun ty =>
    ⟨ty, substr source it.off it.len, literalOf ty (substr source it.off it.len),
      lineAt source it.off, colAt source it.off⟩

/-- The message for an unexpected character. -/
def unexpectedMessage (c : Char) : List Char :=
  if c = '!' then "Unexpected character '!' (expected '!=')".toList
  else "Unexpected character '".toList ++ [c] ++ "'".toList

/-- The message that `readNumber` reports for the digits `text`, if any. -/
def numberMessage (text : List Char) : Option (List Char) :=
  match stoi text with
  | StoiResult.ok _ => none
  | StoiResult.out_of_range =>
    some ("Number literal '".toList ++ text ++ "' is too large.".toList)
  | StoiResult.invalid_argument =>
    some ("Invalid number literal: '".toList ++ text ++ "'".toList)

/-- The diagnostic of an item, if it has one. -/
def itemDiag (source : List Char) (it : Item) : Option Diagnostic :=
  match it.kind with
  | none => some ⟨lineAt source it.off, colAt source it.off, unexpectedMessage (charAt source it.off)⟩
  | some ty =>
    if ty = TokenType.NUMBER then
      (numberMessage (substr source it.off it.len)).map fun m =>
        ⟨lineAt source it.off, colAt source it.off, m⟩
    else none

/-- The tokens of a list of items. -/
def tokensOf (source : List Char) (its : List Item) : List Token :=
  its.filterMap (itemToken source)

/-- The diagnostics of a list of items. -/
def diagsOf (source : List Char) (its : List Item) : List Diagnostic :=
  its.filterMap (itemDiag source)

/-- The end-of-input token of a source text. -/
def eofToken (source : List Char) : Token :=
  ⟨TokenType.EOF_TOKEN, [], none, lineAt source source.length, colAt source source.length⟩

/-! ## Predicates used in the statements and in the proofs -/

/-- The state record agrees with the text read so far: `line` and `column` are
the line and the 0-based column of the cursor. -/
def PosOK (s : Lexer) : Prop :=
  s.line = lineAt s.source_code s.current_char_idx ∧
    s.column = col0 s.source_code s.current_char_idx

/-- The recognised alphabet: letters, digits, underscore, space, tab, carriage
return, newline and the punctuation `( ) { } [ ] ; , + - * / = < > !`. -/
def inAlphabet (c : Char) : Bool :=
  isalpha c ∨ isdigit c ∨ c = '_' ∨ c = ' ' ∨ c = '\t' ∨ c = '\r' ∨ c = '\n' ∨
    c ∈ ['(', ')', '{', '}', '[', ']', ';', ',', '+', '-', '*', '/', '=', '<', '>', '!']

/-- Offset `i` holds an invalid character: one outside the recognised alphabet,
or a `!` that is not immediately followed by `=`. -/
def isBadAt (src : List Char) (i : Nat) : Bool :=
  !inAlphabet (charAt src i) || (charAt src i = '!' && (src.drop (i + 1)).head? ≠ some '=')

/-- The characters `[i, i + n)` of the source are a maximal run of digits. -/
def IsMaximalDigitRun (src : List Char) (i n : Nat) : Prop :=
  1 ≤ n ∧ i + n ≤ src.length ∧ (∀ k, k < n → isdigit (charAt src (i + k)) = true) ∧
    (i = 0 ∨ isdigit (charAt src (i - 1)) = false) ∧
    (i + n = src.length ∨ isdigit (charAt src (i + n)) = false)

/-- Offset `j` of the text lies in a line comment: a `//` starts at some
earlier offset `k` and there is no newline in `[k, j)`. -/
def InComment (cs : List Char) (j : Nat) : Prop :=
  ∃ k, k < j ∧ (charAt cs k = '/' ∧ charAt cs (k + 1) = '/' ∧
    ∀ m, m < j → k ≤ m → charAt cs m ≠ '\n')

instance (cs : List Char) (j : Nat) : Decidable (InComment cs j) := by
  unfold InComment; infer_instance

/-- Offset `i` is the second character of a two-character operator: it holds
`=`, the character before it is one of `= < > !`, and that character is not
itself the second character of a two-character operator. -/
def secondOfCompound (src : List Char) : Nat → Bool
  | 0 => false
  | i + 1 =>
    decide (charAt src (i + 1) = '=') && decide (charAt src i ∈ ['=', '<', '>', '!']) &&
      !secondOfCompound src i

/-- The two-character kind that starts with each of `= < > !`. -/
def compoundTokenType (c : Char) : TokenType :=
  if c = '=' then TokenType.OP_EQUAL
  else if c = '<' then TokenType.OP_LESS_EQUAL
  else if c = '>' then TokenType.OP_GREATER_EQUAL
  else TokenType.OP_NOT_EQUAL

/-- The characters `[i, i + n)` of the source are a maximal run of
alphanumeric characters and underscores. -/
def IsMaximalIdRun (src : List Char) (i n : Nat) : Prop :=
  1 ≤ n ∧ i + n ≤ src.length ∧ (∀ k, k < n → isIdChar (charAt src (i + k)) = true) ∧
    (i = 0 ∨ isIdChar (charAt src (i - 1)) = false) ∧
    (i + n = src.length ∨ isIdChar (charAt src (i + n)) = false)

instance (src : List Char) (i n : Nat) : Decidable (IsMaximalIdRun src i n) := by
  unfold IsMaximalIdRun; infer_instance

/-- The kind that the keyword/identifier law gives to a word: the keyword's
kind for each of the eight reserved words, `IDENTIFIER` for any other word. -/
def kindOfWord (w : List Char) : TokenType :=
  if w = "int".toList then TokenType.KEYWORD_INT
  else if w = "void".toList then TokenType.KEYWORD_VOID
  else if w = "if".toList then TokenType.KEYWORD_IF
  else if w = "else".toList then TokenType.KEYWORD_ELSE
  else if w = "while".toList then TokenType.KEYWORD_WHILE
  else if w = "return".toList then TokenType.KEYWORD_RETURN
  else if w = "input".toList then TokenType.KEYWORD_INPUT
  else if w = "output".toList then TokenType.KEYWORD_OUTPUT
  else TokenType.IDENTIFIER

/-- The diagnostics that report an unexpected character. -/
def isUnexpectedCharacter (d : Diagnostic) : Bool :=
  "Unexpected character '".toList.isPrefixOf d.message

/-- A character that ends every item: it is not `=`, not a digit and not an
identifier character. -/
def IsSep (y : Char) : Prop := y ≠ '=' ∧ isdigit y = false ∧ isIdChar y = false

/-! ## Token.cpp and the test helper -/

/-- The library call `std::to_string` on an `int`: the decimal digits, after a
minus sign for a negative value. -/
def to_string (n : Int) : List Char := (toString n).toList

/-- The function `tokenTypeToString`.  Its `default` label (`UNKNOWN_TYPE`) is
for integers that are not one of the thirty enumerators, which a `TokenType`
here cannot hold. -/
def tokenTypeToString : TokenType → List Char
  | TokenType.KEYWORD_INT => "KEYWORD(int)".toList
  | TokenType.KEYWORD_VOID => "KEYWORD(void)".toList
  | TokenType.KEYWORD_IF => "KEYWORD(if)".toList
  | TokenType.KEYWORD_ELSE => "KEYWORD(else)".toList
  | TokenType.KEYWORD_WHILE => "KEYWORD(while)".toList
  | TokenType.KEYWORD_RETURN => "KEYWORD(return)".toList
  | TokenType.KEYWORD_INPUT => "KEYWORD(input)".toList
  | TokenType.KEYWORD_OUTPUT => "KEYWORD(output)".toList
  | TokenType.OP_PLUS => "OP(+)".toList
  | TokenType.OP_MINUS => "OP(-)".toList
  | TokenType.OP_MULTIPLY => "OP(*)".toList
  | TokenType.OP_DIVIDE => "OP(/)".toList
  | TokenType.OP_ASSIGN => "OP(=)".toList
  | TokenType.OP_EQUAL => "OP(==)".toList
  | TokenType.OP_NOT_EQUAL => "OP(!=)".toList
  | TokenType.OP_LESS => "OP(<)".toList
  | TokenType.OP_LESS_EQUAL => "OP(<=)".toList
  | TokenType.OP_GREATER => "OP(>)".toList
  | TokenType.OP_GREATER_EQUAL => "OP(>=)".toList
  | TokenType.DELIM_LPAREN => "DELIM(()".toList
  | TokenType.DELIM_RPAREN => "DELIM())".toList
  | TokenType.DELIM_LBRACE => "DELIM(\x7b)".toList
  | TokenType.DELIM_RBRACE => "DELIM(\x7d)".toList
  | TokenType.DELIM_LBRACKET => "DELIM([)".toList
  | TokenType.DELIM_RBRACKET => "DELIM(])".toList
  | TokenType.DELIM_SEMICOLON => "DELIM(;)".toList
  | TokenType.DELIM_COMMA => "DELIM(,)".toList
  | TokenType.IDENTIFIER => "IDENTIFIER".toList
  | TokenType.NUMBER => "NUMBER".toList
  | TokenType.EOF_TOKEN => "EOF".toList

/-- The method `Token::toString`: the returned text, and whether the handler
of `bad_any_cast` ran (it writes a warning to `cerr` and gives the fallback
`CAST_ERROR`). -/
def Token.toString (t : Token) : List Char × Bool :=
  let type_str := tokenTypeToString t.type
  let literal_repr : List Char × Bool :=
    if t.type = TokenType.NUMBER then
      match t.literal_value with
      | some v => (" (literal: ".toList ++ to_string v ++ ")".toList, false)
      | none => (" (literal: CAST_ERROR)".toList, true)
    else ([], false)
  ("Token: ".toList ++ type_str ++ "(".toList ++ t.value ++ ")".toList ++ literal_repr.1 ++
      " at line ".toList ++ to_string t.line ++ ", col ".toList ++ to_string t.column,
    literal_repr.2)

/-- The helper `tokenize_string` of `tests/lexer_tests.cpp`: it resets the
global flag, whatever it held, builds a `Lexer` and runs `tokenize`. -/
def tokenize_string (source : List Char) (_had_lexer_error : Bool) : Option Lexer :=
  tokenize (Lexer.new source false)

/-- The eight keyword kinds. -/
def isKeywordKind (ty : TokenType) : Bool :=
  ty ∈ [TokenType.KEYWORD_INT, TokenType.KEYWORD_VOID, TokenType.KEYWORD_IF,
    TokenType.KEYWORD_ELSE, TokenType.KEYWORD_WHILE, TokenType.KEYWORD_RETURN,
    TokenType.KEYWORD_INPUT, TokenType.KEYWORD_OUTPUT]

/-- The eleven operator kinds. -/
def isOperatorKind (ty : TokenType) : Bool :=
  ty ∈ [TokenType.OP_PLUS, TokenType.OP_MINUS, TokenType.OP_MULTIPLY, TokenType.OP_DIVIDE,
    TokenType.OP_ASSIGN, TokenType.OP_EQUAL, TokenType.OP_NOT_EQUAL, TokenType.OP_LESS,
    TokenType.OP_LESS_EQUAL, TokenType.OP_GREATER, TokenType.OP_GREATER_EQUAL]

/-- The eight delimiter kinds. -/
def isDelimiterKind (ty : TokenType) : Bool :=
  ty ∈ [TokenType.DELIM_LPAREN, TokenType.DELIM_RPAREN, TokenType.DELIM_LBRACE,
    TokenType.DELIM_RBRACE, TokenType.DELIM_LBRACKET, TokenType.DELIM_RBRACKET,
    TokenType.DELIM_SEMICOLON, TokenType.DELIM_COMMA]

/-- The one-character kind that starts with each of `= < >`. -/
def simpleTokenType (c : Char) : TokenType :=
  if c = '=' then TokenType.OP_ASSIGN
  else if c = '<' then TokenType.OP_LESS
  else TokenType.OP_GREATER

/-- The token `t` starts at offset `o` of the source: `o` is the offset of a
character, and the line and column of the token are those of that offset. -/
def StartsAt (src : List Char) (t : Token) (o : Nat) : Prop :=
  o < src.length ∧ t.line = lineAt src o ∧ t.column = colAt src o

instance (src : List Char) (t : Token) (o : Nat) : Decidable (StartsAt src t o) := by
  unfold StartsAt; infer_instance

/-- The diagnostics of the `invalid_argument` handler of `readNumber`. -/
def isInvalidNumberLiteral (d : Diagnostic) : Bool :=
  "Invalid number literal".toList.isPrefixOf d.message

/-- The diagnostics of the `out_of_range` handler of `readNumber`. -/
def isNumberTooLarge (d : Diagnostic) : Bool :=
  "Number literal '".toList.isPrefixOf d.message

/-- The cursor invariant: lexeme-start offset ≤ current offset ≤ length of the
source. -/
def CursorOK (s : Lexer) : Prop :=
  s.start_lexeme_idx ≤ s.current_char_idx ∧ s.current_char_idx ≤ s.source_code.length

instance (s : Lexer) : Decidable (CursorOK s) := by
  unfold CursorOK; infer_instance

/-- The variant of `Lexer::tokenize` in which the guarded call of
`skipWhitespaceAndComments` after the main loop is removed. -/
def tokenizeNoPostSkip (s : Lexer) : Option Lexer :=
  let s0 : Lexer := { s with tokens := [], current_char_idx := 0, line := 1, column := 0,
                             current_token_start_column := 1 }
  (tokenizeLoop (s0.source_code.length + 1) s0).map fun s2 =>
    { s2 with tokens := s2.tokens ++ [⟨TokenType.EOF_TOKEN, [], none, s2.line, s2.column + 1⟩] }

/-- The tokens of a scan other than the end-of-input token. -/
def properTokens (ts : List Token) : List Token :=
  ts.filter (fun t => decide (t.type ≠ TokenType.EOF_TOKEN))

/-- The lexemes of a list of tokens joined by single spaces. -/
def joinLexemes (ts : List Token) : List Char :=
  List.intercalate [' '] (ts.map Token.value)

/-- The kind, the lexeme and the literal of a token. -/
def tripleOf (t : Token) : TokenType × List Char × Option Int :=
  (t.type, t.value, t.literal_value)

/-- Lexicographic order of positions: `a` lies before `b`. -/
def posLt (a b : Token) : Prop :=
  a.line < b.line ∨ (a.line = b.line ∧ a.column < b.column)

instance (a b : Token) : Decidable (posLt a b) := by
  unfold posLt; infer_instance

/-- The state `s'` is further in the same source than the state `s`: the
cursor has strictly increased and does not exceed the length of the source. -/
def Advances (s s' : Lexer) : Prop :=
  s'.source_code = s.source_code ∧ s.current_char_idx < s'.current_char_idx ∧
    s'.current_char_idx ≤ s'.source_code.length

/-- The tokens of a list of items, each with the offset of its item. -/
def tokensWithOffsets (source : List Char) (its : List Item) : List (Token × Nat) :=
  its.filterMap fun it => (itemToken source it).map fun t => (t, it.off)

/-- The word `w` scanned alone is one token of kind `ty`: it starts with a
character that is neither blank nor the start of a comment, and `scanHead`
consumes the whole of it. -/
def SelfScanning (w : List Char) (ty : TokenType) : Prop :=
  ∃ c w', w = c :: w' ∧ isBlank c = false ∧ ¬ (c = '/' ∧ w'.head? = some '/') ∧
    scanHead c w' = (w.length, some ty)

/-! ## Basic facts about the functional description -/

theorem length_takeWhile_le {α : Type} (p : α → Bool) (l : List α) :
    (l.takeWhile p).length ≤ l.length :=
  (List.takeWhile_sublist p).length_le

theorem head?_some_length {α : Type} {l : List α} {a : α} (h : l.head? = some a) :
    1 ≤ l.length := by
  cases l with
  | nil => simp at h
  | cons x xs => simp

theorem scanHead_len_pos (c : Char) (r : List Char) : 1 ≤ (scanHead c r).1 := by
  unfold scanHead
  split
  · simp
  · split
    · split_ifs <;> simp
    · split_ifs <;> simp

theorem scanHead_len_le (c : Char) (r : List Char) : (scanHead c r).1 ≤ 1 + r.length := by
  unfold scanHead
  split
  · simp
  · split
    · split_ifs with h
      · have := head?_some_length h
        simp only
        omega
      · simp
    · split_ifs
      · simp only [add_le_add_iff_left]; exact length_takeWhile_le _ _
      · simp only [add_le_add_iff_left]; exact length_takeWhile_le _ _
      · simp

theorem commentLen_le (cs : List Char) : commentLen cs ≤ cs.length :=
  length_takeWhile_le _ _

theorem lexI_fuel : ∀ (n m off : Nat) (cs : List Char), cs.length ≤ n → cs.length ≤ m →
    lexI n off cs = lexI m off cs := by
  intro n
  induction n with
  | zero =>
    intro m off cs hn hm
    have hcs : cs = [] := List.length_eq_zero.mp (Nat.le_zero.mp hn)
    subst hcs
    cases m <;> simp [lexI]
  | succ n ih =>
    intro m off cs hn hm
    cases cs with
    | nil => cases m <;> simp [lexI]
    | cons c r =>
      cases m with
      | zero => simp at hm
      | succ m =>
        simp only [List.length_cons, Nat.add_le_add_iff_right] at hn hm
        simp only [lexI]
        split_ifs with h1 h2
        · exact ih m _ r hn hm
        · have hl : (r.tail.drop (commentLen r.tail)).length ≤ r.length := by
            simp only [List.length_drop, List.length_tail]; omega
          exact ih m _ _ (by omega) (by omega)
        · have hl : (r.drop ((scanHead c r).1 - 1)).length ≤ r.length := by
            simp only [List.length_drop]; omega
          rw [ih m _ _ (by omega) (by omega)]

theorem lexFrom_nil (off : Nat) : lexFrom off [] = [] := by
  simp [lexFrom, lexI]

theorem lexFrom_blank (off : Nat) (c : Char) (r : List Char) (h : isBlank c = true) :
    lexFrom off (c :: r) = lexFrom (off + 1) r := by
  simp [lexFrom, lexI, h]

theorem lexFrom_comment (off : Nat) (r : List Char) :
    lexFrom off ('/' :: '/' :: r) =
      lexFrom (off + 2 + commentLen r) (r.drop (commentLen r)) := by
  have hb : isBlank '/' = false := by decide
  simp only [lexFrom, lexI, List.length_cons, hb, List.head?_cons, List.tail_cons, and_self,
    if_true, Bool.false_eq_true, if_false]
  exact lexI_fuel _ _ _ _ (by simp only [List.length_drop]; omega) (le_refl _)

theorem lexFrom_item (off : Nat) (c : Char) (r : List Char) (hb : isBlank c = false)
    (hc : ¬ (c = '/' ∧ r.head? = some '/')) :
    lexFrom off (c :: r) =
      ⟨off, (scanHead c r).1, (scanHead c r).2⟩ ::
        lexFrom (off + (scanHead c r).1) (r.drop ((scanHead c r).1 - 1)) := by
  simp only [lexFrom, lexI, List.length_cons, hb, hc, if_false, Bool.false_eq_true]
  rw [lexI_fuel _ _ _ _ (by simp only [List.length_drop]; omega) (le_refl _)]

/-- Induction along the scan: a property of `(off, cs)` that holds for the empty
text and is inherited along each of the three kinds of step holds always. -/
theorem lex_induction {P : Nat → List Char → Prop}
    (nil : ∀ off, P off [])
    (blank : ∀ off c r, isBlank c = true → P (off + 1) r → P off (c :: r))
    (comment : ∀ off r, P (off + 2 + commentLen r) (r.drop (commentLen r)) →
      P off ('/' :: '/' :: r))
    (item : ∀ off c r, isBlank c = false → ¬ (c = '/' ∧ r.head? = some '/') →
      P (off + (scanHead c r).1) (r.drop ((scanHead c r).1 - 1)) → P off (c :: r)) :
    ∀ off cs, P off cs := by
  intro off cs
  generalize h : cs.length = n
  induction n using Nat.strong_induction_on generalizing off cs with
  | _ n ih =>
    cases cs with
    | nil => exact nil off
    | cons c r =>
      simp only [List.length_cons] at h
      by_cases hb : isBlank c = true
      · exact blank off c r hb (ih r.length (by omega) _ r rfl)
      · simp only [Bool.not_eq_true] at hb
        by_cases hc : c = '/' ∧ r.head? = some '/'
        · obtain ⟨rfl, hr⟩ := hc
          cases r with
          | nil => simp at hr
          | cons d r' =>
            simp only [List.head?_cons, Option.some.injEq] at hr
            subst hr
            have hl := commentLen_le r'
            exact comment off r' (ih _ (by simp only [List.length_drop, List.length_cons] at *; omega) _ _ rfl)
        · have h1 := scanHead_len_pos c r
          exact item off c r hb hc (ih _ (by simp only [List.length_drop]; omega) _ _ rfl)

/-! ## Positions: how line and column move along the text -/

theorem drop_eq_charAt_cons (l : List Char) (i : Nat) (h : i < l.length) :
    l.drop i = charAt l i :: l.drop (i + 1) := by
  rw [charAt, List.getD_eq_getElem _ _ h]
  exact List.drop_eq_getElem_cons h

theorem take_succ_charAt (l : List Char) (i : Nat) (h : i < l.length) :
    l.take (i + 1) = l.take i ++ [charAt l i] := by
  rw [charAt, List.getD_eq_getElem _ _ h, List.take_succ, List.getElem?_eq_getElem h]
  rfl

theorem lineAt_zero (src : List Char) : lineAt src 0 = 1 := by simp [lineAt]

theorem col0_zero (src : List Char) : col0 src 0 = 0 := by simp [col0]

theorem lineAt_succ_newline (src : List Char) (i : Nat) (h : i < src.length)
    (hc : charAt src i = '\n') : lineAt src (i + 1) = lineAt src i + 1 := by
  simp [lineAt, take_succ_charAt src i h, hc, List.count_append]
  omega

theorem col0_succ_newline (src : List Char) (i : Nat) (h : i < src.length)
    (hc : charAt src i = '\n') : col0 src (i + 1) = 0 := by
  simp [col0, take_succ_charAt src i h, hc]

theorem lineAt_succ_other (src : List Char) (i : Nat) (h : i < src.length)
    (hc : charAt src i ≠ '\n') : lineAt src (i + 1) = lineAt src i := by
  simp [lineAt, take_succ_charAt src i h, List.count_append, List.count_singleton, hc]

theorem col0_succ_other (src : List Char) (i : Nat) (h : i < src.length)
    (hc : charAt src i ≠ '\n') : col0 src (i + 1) = col0 src i + 1 := by
  simp [col0, take_succ_charAt src i h, hc]

/-- Across a stretch of text without newline the line stays and the column
grows by the length of the stretch. -/
theorem pos_add_of_no_newline (src : List Char) (i : Nat) :
    ∀ k, i + k ≤ src.length → (∀ j, j < k → charAt src (i + j) ≠ '\n') →
      lineAt src (i + k) = lineAt src i ∧ col0 src (i + k) = col0 src i + k := by
  intro k
  induction k with
  | zero => intro _ _; simp
  | succ k ih =>
    intro hk hno
    obtain ⟨h1, h2⟩ := ih (by omega) (fun j hj => hno j (by omega))
    have hc := hno k (by omega)
    rw [← add_assoc, lineAt_succ_other src (i + k) (by omega) hc,
      col0_succ_other src (i + k) (by omega) hc, h1, h2]
    exact ⟨rfl, by omega⟩

/-! ## The loops of the scanner, summarised -/

theorem commentLen_cons (c : Char) (r : List Char) :
    commentLen (c :: r) = if c = '\n' then 0 else 1 + commentLen r := by
  by_cases h : c = '\n'
  · simp [commentLen, h]
  · simp [commentLen, h]; omega

theorem commentLen_drop_no_newline (src : List Char) (i : Nat) :
    ∀ j, j < commentLen (src.drop i) → charAt src (i + j) ≠ '\n' := by
  intro j hj
  have hle := commentLen_le (src.drop i)
  simp only [List.length_drop] at hle
  have hlt : i + j < src.length := by omega
  have h1 : charAt src (i + j) = (src.drop i).getD j '\x00' := by
    simp [charAt, List.getD_eq_getElem?_getD, List.getElem?_drop]
  have hj2 : j < ((src.drop i).takeWhile (fun c => decide (c ≠ '\n'))).length := hj
  have h2 : (src.drop i).getD j '\x00' =
      ((src.drop i).takeWhile (fun c => decide (c ≠ '\n')))[j] := by
    have hp : (src.drop i).takeWhile (fun c => decide (c ≠ '\n')) <+: src.drop i :=
      List.takeWhile_prefix _
    obtain ⟨t, ht⟩ := hp
    conv_lhs => rw [← ht]
    rw [List.getD_eq_getElem?_getD, List.getElem?_append_left hj2, List.getElem?_eq_getElem hj2]
    rfl
  have h3 := List.mem_takeWhile_imp (List.getElem_mem hj2)
  rw [h1, h2]
  simpa using h3

theorem skipCommentBody_spec : ∀ (fuel : Nat) (s : Lexer),
    s.current_char_idx ≤ s.source_code.length →
    s.source_code.length < s.current_char_idx + fuel →
    skipCommentBody fuel s = some
      { s with
        current_char_idx := s.current_char_idx + commentLen (s.source_code.drop s.current_char_idx),
        column := s.column + commentLen (s.source_code.drop s.current_char_idx) } := by
  intro fuel
  induction fuel with
  | zero => intro s hle h; omega
  | succ fuel ih =>
    intro s hle h
    obtain ⟨src, toks, idx, st, ln, col, tc, flag, err⟩ := s
    simp only at hle h ⊢
    by_cases hlt : idx < src.length
    · by_cases hc : charAt src idx = '\n'
      · simp [skipCommentBody, hc, drop_eq_charAt_cons src idx hlt, commentLen_cons]
      · rw [skipCommentBody, if_pos ⟨hlt, hc⟩, ih _ (by simp only; omega) (by simp only; omega)]
        simp [drop_eq_charAt_cons src idx hlt, commentLen_cons, hc]
        omega
    · have hd : src.drop idx = [] := List.drop_eq_nil_of_le (by omega)
      simp [skipCommentBody, hlt, hd, commentLen]

theorem head?_drop_eq_some (src : List Char) (i : Nat) (x : Char) :
    (src.drop i).head? = some x ↔ i < src.length ∧ charAt src i = x := by
  by_cases h : i < src.length
  · simp [drop_eq_charAt_cons src i h, h]
  · simp [List.drop_eq_nil_of_le (Nat.le_of_not_lt h), h]

theorem isBlank_eq_false_iff (c : Char) :
    isBlank c = false ↔ c ≠ ' ' ∧ c ≠ '\r' ∧ c ≠ '\t' ∧ c ≠ '\n' := by
  simp [isBlank]

theorem isBlank_eq_true_iff (c : Char) :
    isBlank c = true ↔ c = ' ' ∨ c = '\r' ∨ c = '\t' ∨ c = '\n' := by
  simp [isBlank]

/-- The skipper stops in front of an item or at the end of the text, with line
and column in step, and what it skips holds no item. -/
theorem skipLoop_spec : ∀ (fuel : Nat) (s : Lexer),
    s.current_char_idx ≤ s.source_code.length →
    s.source_code.length < s.current_char_idx + fuel →
    PosOK s →
    ∃ k, s.current_char_idx + k ≤ s.source_code.length ∧
      skipLoop fuel s = some
        { s with
          current_char_idx := s.current_char_idx + k,
          line := lineAt s.source_code (s.current_char_idx + k),
          column := col0 s.source_code (s.current_char_idx + k) } ∧
      lexFrom s.current_char_idx (s.source_code.drop s.current_char_idx) =
        lexFrom (s.current_char_idx + k) (s.source_code.drop (s.current_char_idx + k)) ∧
      (s.current_char_idx + k < s.source_code.length →
        isBlank (charAt s.source_code (s.current_char_idx + k)) = false ∧
        ¬ (charAt s.source_code (s.current_char_idx + k) = '/' ∧
            (s.source_code.drop (s.current_char_idx + k + 1)).head? = some '/')) := by
  intro fuel
  induction fuel with
  | zero => intro s hle h; omega
  | succ fuel ih =>
    intro s hle h hpos
    obtain ⟨src, toks, idx, st, ln, col, tc, flag, err⟩ := s
    simp only [PosOK] at hle h hpos ⊢
    obtain ⟨hln, hcol⟩ := hpos
    subst hln hcol
    by_cases hlt : idx < src.length
    · have hdrop := drop_eq_charAt_cons src idx hlt
      have hend : isAtEnd ⟨src, toks, idx, st, lineAt src idx, col0 src idx, tc, flag, err⟩ = false := by
        simp [isAtEnd, hlt]
      by_cases hb : isBlank (charAt src idx) = true
      · -- one blank character
        have hstep : skipLoop (fuel + 1) ⟨src, toks, idx, st, lineAt src idx, col0 src idx, tc, flag, err⟩ =
            skipLoop fuel ⟨src, toks, idx + 1, st, lineAt src (idx + 1), col0 src (idx + 1),
              tc, flag, err⟩ := by
          by_cases hn : charAt src idx = '\n'
          · have h1 := lineAt_succ_newline src idx hlt hn
            have h2 := col0_succ_newline src idx hlt hn
            simp [skipLoop, hend, hn, h1, h2]
          · have h1 := lineAt_succ_other src idx hlt hn
            have h2 := col0_succ_other src idx hlt hn
            have hb2 := (isBlank_eq_true_iff _).mp hb
            have hb3 : charAt src idx = ' ' ∨ charAt src idx = '\r' ∨ charAt src idx = '\t' := by
              tauto
            simp [skipLoop, hend, hb3, h1, h2]
        obtain ⟨k, hk1, hk2, hk3, hk4⟩ :=
          ih ⟨src, toks, idx + 1, st, lineAt src (idx + 1), col0 src (idx + 1), tc, flag, err⟩
            (by simp only; omega) (by simp only; omega) ⟨rfl, rfl⟩
        simp only at hk1 hk2 hk3 hk4
        refine ⟨k + 1, by omega, ?_, ?_, ?_⟩
        · rw [hstep, hk2]
          simp only [Option.some.injEq, Lexer.mk.injEq, true_and, and_true]
          refine ⟨by omega, ?_, ?_⟩ <;> congr 1 <;> omega
        · rw [hdrop, lexFrom_blank _ _ _ hb, hk3]
          congr 1 <;> [omega; (congr 1; omega)]
        · have e : idx + (k + 1) = idx + 1 + k := by omega
          rw [e]
          exact hk4
      · simp only [Bool.not_eq_true] at hb
        have hb2 := (isBlank_eq_false_iff _).mp hb
        by_cases hcm : charAt src idx = '/' ∧ (src.drop (idx + 1)).head? = some '/'
        · -- a line comment
          obtain ⟨hc1, hc2⟩ := hcm
          obtain ⟨hlt2, hc3⟩ := (head?_drop_eq_some _ _ _).mp hc2
          have hdrop2 : src.drop (idx + 1) = charAt src (idx + 1) :: src.drop (idx + 2) :=
            drop_eq_charAt_cons src (idx + 1) hlt2
          obtain ⟨m, hm⟩ : ∃ m, m = commentLen (src.drop (idx + 2)) := ⟨_, rfl⟩
          have hmle : m ≤ src.length - (idx + 2) := by
            have := commentLen_le (src.drop (idx + 2))
            rw [← hm] at this
            simpa using this
          have hno : ∀ j, j < 2 + m → charAt src (idx + j) ≠ '\n' := by
            intro j hj
            by_cases hj0 : j = 0
            · subst hj0; simp [hc1]
            · by_cases hj1 : j = 1
              · subst hj1; simp [hc3]
              · have := commentLen_drop_no_newline src (idx + 2) (j - 2) (by rw [← hm]; omega)
                have e : idx + 2 + (j - 2) = idx + j := by omega
                rwa [e] at this
          obtain ⟨hp1, hp2⟩ := pos_add_of_no_newline src idx (2 + m) (by omega) hno
          have hstep : skipLoop (fuel + 1) ⟨src, toks, idx, st, lineAt src idx, col0 src idx, tc, flag, err⟩ =
              skipLoop fuel ⟨src, toks, idx + (2 + m), st, lineAt src (idx + (2 + m)),
                col0 src (idx + (2 + m)), tc, flag, err⟩ := by
            have hne1 : ¬ (charAt src idx = ' ' ∨ charAt src idx = '\r' ∨ charAt src idx = '\t') := by
              tauto
            rw [skipLoop]
            simp only [hend, Bool.false_eq_true, if_false]
            rw [if_neg hne1, if_neg hb2.2.2.2, if_pos hc1, if_pos ⟨hlt2, hc3⟩,
              skipCommentBody_spec _ _ (by simp only; omega) (by simp only; omega)]
            simp only [Option.bind_eq_bind, Option.some_bind, ← hm]
            congr 1
            simp only [Lexer.mk.injEq, true_and, and_true]
            refine ⟨by omega, ?_, ?_⟩
            · rw [hp1]
            · rw [hp2]; omega
          obtain ⟨k, hk1, hk2, hk3, hk4⟩ :=
            ih ⟨src, toks, idx + (2 + m), st, lineAt src (idx + (2 + m)),
                col0 src (idx + (2 + m)), tc, flag, err⟩
              (by simp only; omega) (by simp only; omega) ⟨rfl, rfl⟩
          simp only at hk1 hk2 hk3 hk4
          refine ⟨2 + m + k, by omega, ?_, ?_, ?_⟩
          · rw [hstep, hk2]
            simp only [Option.some.injEq, Lexer.mk.injEq, true_and, and_true]
            refine ⟨by omega, ?_, ?_⟩ <;> congr 1 <;> omega
          · rw [hdrop, hdrop2, hc1, hc3, lexFrom_comment]
            have e1 : (src.drop (idx + 2)).drop (commentLen (src.drop (idx + 2))) =
                src.drop (idx + (2 + m)) := by
              rw [List.drop_drop, hm]; congr 1; omega
            have e2 : idx + 2 + commentLen (src.drop (idx + 2)) = idx + (2 + m) := by
              rw [hm]; omega
            rw [e1, e2, hk3]
            congr 1 <;> [omega; (congr 1; omega)]
          · have e : idx + (2 + m + k) = idx + (2 + m) + k := by omega
            rw [e]
            exact hk4
        · -- an item starts here
          refine ⟨0, by omega, ?_, rfl, fun _ => ⟨hb, hcm⟩⟩
          have hne1 : ¬ (charAt src idx = ' ' ∨ charAt src idx = '\r' ∨ charAt src idx = '\t') := by
            tauto
          rw [skipLoop]
          simp only [hend, Bool.false_eq_true, if_false, add_zero]
          rw [if_neg hne1, if_neg hb2.2.2.2]
          by_cases hs : charAt src idx = '/'
          · have hh : ¬ (idx + 1 < src.length ∧ charAt src (idx + 1) = '/') := by
              intro hh
              exact hcm ⟨hs, (head?_drop_eq_some _ _ _).mpr hh⟩
            rw [if_pos hs, if_neg hh]
          · rw [if_neg hs]
    · refine ⟨0, by omega, ?_, rfl, fun hh => by omega⟩
      have hend : isAtEnd ⟨src, toks, idx, st, lineAt src idx, col0 src idx, tc, flag, err⟩ = true := by
        simp [isAtEnd]; omega
      rw [skipLoop]
      simp only [hend, if_true, add_zero]

theorem peek_of_lt (s : Lexer) (h : s.current_char_idx < s.source_code.length) :
    peek s = charAt s.source_code s.current_char_idx := by
  simp [peek, isAtEnd, h]

theorem peek_of_ge (s : Lexer) (h : s.source_code.length ≤ s.current_char_idx) :
    peek s = '\x00' := by
  simp [peek, isAtEnd, h]

theorem readNumberLoop_spec : ∀ (fuel : Nat) (s : Lexer),
    s.current_char_idx ≤ s.source_code.length →
    s.source_code.length < s.current_char_idx + fuel →
    readNumberLoop fuel s = some
      { s with
        current_char_idx := s.current_char_idx +
          ((s.source_code.drop s.current_char_idx).takeWhile isdigit).length,
        column := s.column +
          ((s.source_code.drop s.current_char_idx).takeWhile isdigit).length } := by
  intro fuel
  induction fuel with
  | zero => intro s hle h; omega
  | succ fuel ih =>
    intro s hle h
    by_cases hlt : s.current_char_idx < s.source_code.length
    · have hp := peek_of_lt s hlt
      have hdrop := drop_eq_charAt_cons s.source_code s.current_char_idx hlt
      by_cases hd : isdigit (charAt s.source_code s.current_char_idx) = true
      · rw [readNumberLoop, hp, if_pos hd, ih _ (by simp only [advance]; omega)
          (by simp only [advance]; omega)]
        simp only [advance, hdrop, List.takeWhile_cons, hd, if_true, List.length_cons,
          Option.some.injEq, Lexer.mk.injEq, true_and, and_true]
        omega
      · rw [readNumberLoop, hp, if_neg hd]
        simp [hdrop, List.takeWhile_cons, hd]
    · have hp := peek_of_ge s (by omega)
      have hz : isdigit '\x00' = false := by decide
      rw [readNumberLoop, hp]
      simp [hz, List.drop_eq_nil_of_le (Nat.le_of_not_lt hlt)]

theorem readIdentifierLoop_spec : ∀ (fuel : Nat) (s : Lexer),
    s.current_char_idx ≤ s.source_code.length →
    s.source_code.length < s.current_char_idx + fuel →
    readIdentifierLoop fuel s = some
      { s with
        current_char_idx := s.current_char_idx +
          ((s.source_code.drop s.current_char_idx).takeWhile isIdChar).length,
        column := s.column +
          ((s.source_code.drop s.current_char_idx).takeWhile isIdChar).length } := by
  intro fuel
  induction fuel with
  | zero => intro s hle h; omega
  | succ fuel ih =>
    intro s hle h
    by_cases hlt : s.current_char_idx < s.source_code.length
    · have hp := peek_of_lt s hlt
      have hdrop := drop_eq_charAt_cons s.source_code s.current_char_idx hlt
      by_cases hd : isIdChar (charAt s.source_code s.current_char_idx) = true
      · have hd2 : isalnum (charAt s.source_code s.current_char_idx) = true ∨
            charAt s.source_code s.current_char_idx = '_' := by
          simpa [isIdChar] using hd
        rw [readIdentifierLoop, hp, if_pos hd2, ih _ (by simp only [advance]; omega)
          (by simp only [advance]; omega)]
        simp only [advance, hdrop, List.takeWhile_cons, hd, if_true, List.length_cons,
          Option.some.injEq, Lexer.mk.injEq, true_and, and_true]
        omega
      · have hd2 : ¬ (isalnum (charAt s.source_code s.current_char_idx) = true ∨
            charAt s.source_code s.current_char_idx = '_') := by
          simpa [isIdChar] using hd
        rw [readIdentifierLoop, hp, if_neg hd2]
        simp [hdrop, List.takeWhile_cons, hd]
    · have hp := peek_of_ge s (by omega)
      have hz : ¬ (isalnum '\x00' = true ∨ '\x00' = '_') := by decide
      rw [readIdentifierLoop, hp, if_neg hz]
      simp [List.drop_eq_nil_of_le (Nat.le_of_not_lt hlt)]

/-- The dispatch of `scanToken`, regrouped along `punctKind` and
`compoundKind`. -/
theorem scanToken_eq (s : Lexer) :
    scanToken s =
      match punctKind (advance s).1 with
      | some ty => some (addToken ty none { (advance s).2 with column := s.column + 1 })
      | none =>
        match compoundKind (advance s).1 with
        | some (two, one) =>
          if (matchChar '=' { (advance s).2 with column := s.column + 1 }).1 then
            some (addToken two none (matchChar '=' { (advance s).2 with column := s.column + 1 }).2)
          else
            match one with
            | some ty =>
              some (addToken ty none
                (matchChar '=' { (advance s).2 with column := s.column + 1 }).2)
            | none =>
              some (reportLexerError
                (matchChar '=' { (advance s).2 with column := s.column + 1 }).2.line
                (matchChar '=' { (advance s).2 with column := s.column + 1 }).2.current_token_start_column
                "Unexpected character '!' (expected '!=')".toList
                (matchChar '=' { (advance s).2 with column := s.column + 1 }).2)
        | none =>
          if isdigit (advance s).1 then readNumber { (advance s).2 with column := s.column + 1 }
          else if isalpha (advance s).1 ∨ (advance s).1 = '_' then
            readIdentifierOrKeyword { (advance s).2 with column := s.column + 1 }
          else
            some (reportLexerError s.line s.current_token_start_column
              ("Unexpected character '".toList ++ [(advance s).1] ++ "'".toList)
              { (advance s).2 with column := s.column + 1 }) := by
  by_cases h1 : (advance s).1 = '('
  · simp only [scanToken, punctKind, compoundKind, h1, Char.reduceEq, if_true, if_false]
  by_cases h2 : (advance s).1 = ')'
  · simp only [scanToken, punctKind, compoundKind, h2, Char.reduceEq, if_true, if_false]
  by_cases h3 : (advance s).1 = '{'
  · simp only [scanToken, punctKind, compoundKind, h3, Char.reduceEq, if_true, if_false]
  by_cases h4 : (advance s).1 = '}'
  · simp only [scanToken, punctKind, compoundKind, h4, Char.reduceEq, if_true, if_false]
  by_cases h5 : (advance s).1 = '['
  · simp only [scanToken, punctKind, compoundKind, h5, Char.reduceEq, if_true, if_false]
  by_cases h6 : (advance s).1 = ']'
  · simp only [scanToken, punctKind, compoundKind, h6, Char.reduceEq, if_true, if_false]
  by_cases h7 : (advance s).1 = ';'
  · simp only [scanToken, punctKind, compoundKind, h7, Char.reduceEq, if_true, if_false]
  by_cases h8 : (advance s).1 = ','
  · simp only [scanToken, punctKind, compoundKind, h8, Char.reduceEq, if_true, if_false]
  by_cases h9 : (advance s).1 = '+'
  · simp only [scanToken, punctKind, compoundKind, h9, Char.reduceEq, if_true, if_false]
  by_cases h10 : (advance s).1 = '-'
  · simp only [scanToken, punctKind, compoundKind, h10, Char.reduceEq, if_true, if_false]
  by_cases h11 : (advance s).1 = '*'
  · simp only [scanToken, punctKind, compoundKind, h11, Char.reduceEq, if_true, if_false]
  by_cases h12 : (advance s).1 = '/'
  · simp only [scanToken, punctKind, compoundKind, h12, Char.reduceEq, if_true, if_false]
  by_cases h13 : (advance s).1 = '!'
  · simp only [scanToken, punctKind, compoundKind, h13, Char.reduceEq, if_true, if_false]
  by_cases h14 : (advance s).1 = '='
  · simp only [scanToken, punctKind, compoundKind, h14, Char.reduceEq, if_true, if_false]
    by_cases hm : (matchChar '=' { (advance s).2 with column := s.column + 1 }).1 = true
    · simp only [hm, if_true]
    · simp only [hm, if_false, Bool.false_eq_true]
  by_cases h15 : (advance s).1 = '<'
  · simp only [scanToken, punctKind, compoundKind, h15, Char.reduceEq, if_true, if_false]
    by_cases hm : (matchChar '=' { (advance s).2 with column := s.column + 1 }).1 = true
    · simp only [hm, if_true]
    · simp only [hm, if_false, Bool.false_eq_true]
  by_cases h16 : (advance s).1 = '>'
  · simp only [scanToken, punctKind, compoundKind, h16, Char.reduceEq, if_true, if_false]
    by_cases hm : (matchChar '=' { (advance s).2 with column := s.column + 1 }).1 = true
    · simp only [hm, if_true]
    · simp only [hm, if_false, Bool.false_eq_true]
  simp only [scanToken, punctKind, compoundKind, h1, h2, h3, h4, h5, h6, h7, h8, h9, h10, h11, h12, h13, h14, h15, h16, if_false]
  rfl

/-! ## Facts about single items -/

theorem take_length_takeWhile {α : Type} (p : α → Bool) (l : List α) :
    l.take (l.takeWhile p).length = l.takeWhile p := by
  have h := List.takeWhile_append_dropWhile p l
  have h2 : (l.takeWhile p ++ l.dropWhile p).take (l.takeWhile p).length = l.takeWhile p :=
    List.take_left' rfl
  rwa [h] at h2

theorem drop_length_takeWhile {α : Type} (p : α → Bool) (l : List α) :
    l.drop (l.takeWhile p).length = l.dropWhile p := by
  have h := List.takeWhile_append_dropWhile p l
  have h2 : (l.takeWhile p ++ l.dropWhile p).drop (l.takeWhile p).length = l.dropWhile p :=
    List.drop_left' rfl
  rwa [h] at h2

theorem getElem?_lt_takeWhile {α : Type} (p : α → Bool) (l : List α) (j : Nat) (x : α)
    (hj : j < (l.takeWhile p).length) (hx : l[j]? = some x) : p x = true := by
  have hp : l.takeWhile p <+: l := List.takeWhile_prefix p
  obtain ⟨t, ht⟩ := hp
  rw [← ht, List.getElem?_append_left hj, List.getElem?_eq_getElem hj] at hx
  have hmem := List.getElem_mem hj
  rw [Option.some.inj hx] at hmem
  exact (List.mem_takeWhile_imp hmem)

theorem charAt_add_eq (src : List Char) (i j : Nat) (x : Char)
    (h : (src.drop i)[j]? = some x) : charAt src (i + j) = x := by
  rw [List.getElem?_drop] at h
  simp [charAt, List.getD_eq_getElem?_getD, h]

theorem getElem?_drop_of_lt (src : List Char) (i j : Nat) (h : i + j < src.length) :
    (src.drop i)[j]? = some (charAt src (i + j)) := by
  rw [List.getElem?_drop, charAt, List.getD_eq_getElem _ _ h, List.getElem?_eq_getElem h]

theorem punctKind_cases {c : Char} {ty : TokenType} (h : punctKind c = some ty) :
    (c = '(' ∧ ty = TokenType.DELIM_LPAREN) ∨ (c = ')' ∧ ty = TokenType.DELIM_RPAREN) ∨
    (c = '{' ∧ ty = TokenType.DELIM_LBRACE) ∨ (c = '}' ∧ ty = TokenType.DELIM_RBRACE) ∨
    (c = '[' ∧ ty = TokenType.DELIM_LBRACKET) ∨ (c = ']' ∧ ty = TokenType.DELIM_RBRACKET) ∨
    (c = ';' ∧ ty = TokenType.DELIM_SEMICOLON) ∨ (c = ',' ∧ ty = TokenType.DELIM_COMMA) ∨
    (c = '+' ∧ ty = TokenType.OP_PLUS) ∨ (c = '-' ∧ ty = TokenType.OP_MINUS) ∨
    (c = '*' ∧ ty = TokenType.OP_MULTIPLY) ∨ (c = '/' ∧ ty = TokenType.OP_DIVIDE) := by
  unfold punctKind at h
  by_cases h1 : c = '('
  · rw [if_pos h1] at h
    exact Or.inl ⟨h1, (Option.some.inj h).symm⟩
  rw [if_neg h1] at h
  by_cases h2 : c = ')'
  · rw [if_pos h2] at h
    exact Or.inr (Or.inl ⟨h2, (Option.some.inj h).symm⟩)
  rw [if_neg h2] at h
  by_cases h3 : c = '{'
  · rw [if_pos h3] at h
    exact Or.inr (Or.inr (Or.inl ⟨h3, (Option.some.inj h).symm⟩))
  rw [if_neg h3] at h
  by_cases h4 : c = '}'
  · rw [if_pos h4] at h
    exact Or.inr (Or.inr (Or.inr (Or.inl ⟨h4, (Option.some.inj h).symm⟩)))
  rw [if_neg h4] at h
  by_cases h5 : c = '['
  · rw [if_pos h5] at h
    exact Or.inr (Or.inr (Or.inr (Or.inr (Or.inl ⟨h5, (Option.some.inj h).symm⟩))))
  rw [if_neg h5] at h
  by_cases h6 : c = ']'
  · rw [if_pos h6] at h
    exact Or.inr (Or.inr (Or.inr (Or.inr (Or.inr (Or.inl ⟨h6, (Option.some.inj h).symm⟩)))))
  rw [if_neg h6] at h
  by_cases h7 : c = ';'
  · rw [if_pos h7] at h
    exact Or.inr (Or.inr (Or.inr (Or.inr (Or.inr (Or.inr (Or.inl ⟨h7, (Option.some.inj h).symm⟩))))))
  rw [if_neg h7] at h
  by_cases h8 : c = ','
  · rw [if_pos h8] at h
    exact Or.inr (Or.inr (Or.inr (Or.inr (Or.inr (Or.inr (Or.inr (Or.inl ⟨h8, (Option.some.inj h).symm⟩)))))))
  rw [if_neg h8] at h
  by_cases h9 : c = '+'
  · rw [if_pos h9] at h
    exact Or.inr (Or.inr (Or.inr (Or.inr (Or.inr (Or.inr (Or.inr (Or.inr (Or.inl ⟨h9, (Option.some.inj h).symm⟩))))))))
  rw [if_neg h9] at h
  by_cases h10 : c = '-'
  · rw [if_pos h10] at h
    exact Or.inr (Or.inr (Or.inr (Or.inr (Or.inr (Or.inr (Or.inr (Or.inr (Or.inr (Or.inl ⟨h10, (Option.some.inj h).symm⟩)))))))))
  rw [if_neg h10] at h
  by_cases h11 : c = '*'
  · rw [if_pos h11] at h
    exact Or.inr (Or.inr (Or.inr (Or.inr (Or.inr (Or.inr (Or.inr (Or.inr (Or.inr (Or.inr (Or.inl ⟨h11, (Option.some.inj h).symm⟩))))))))))
  rw [if_neg h11] at h
  by_cases h12 : c = '/'
  · rw [if_pos h12] at h
    exact Or.inr (Or.inr (Or.inr (Or.inr (Or.inr (Or.inr (Or.inr (Or.inr (Or.inr (Or.inr (Or.inr (⟨h12, (Option.some.inj h).symm⟩)))))))))))
  rw [if_neg h12] at h
  exact absurd h (by simp)

theorem punctKind_none {c : Char} (h : punctKind c = none) :
    c ≠ '(' ∧ c ≠ ')' ∧ c ≠ '{' ∧ c ≠ '}' ∧ c ≠ '[' ∧ c ≠ ']' ∧ c ≠ ';' ∧ c ≠ ',' ∧
    c ≠ '+' ∧ c ≠ '-' ∧ c ≠ '*' ∧ c ≠ '/' := by
  unfold punctKind at h
  by_cases h1 : c = '('
  · rw [if_pos h1] at h
    exact absurd h (by simp)
  rw [if_neg h1] at h
  by_cases h2 : c = ')'
  · rw [if_pos h2] at h
    exact absurd h (by simp)
  rw [if_neg h2] at h
  by_cases h3 : c = '{'
  · rw [if_pos h3] at h
    exact absurd h (by simp)
  rw [if_neg h3] at h
  by_cases h4 : c = '}'
  · rw [if_pos h4] at h
    exact absurd h (by simp)
  rw [if_neg h4] at h
  by_cases h5 : c = '['
  · rw [if_pos h5] at h
    exact absurd h (by simp)
  rw [if_neg h5] at h
  by_cases h6 : c = ']'
  · rw [if_pos h6] at h
    exact absurd h (by simp)
  rw [if_neg h6] at h
  by_cases h7 : c = ';'
  · rw [if_pos h7] at h
    exact absurd h (by simp)
  rw [if_neg h7] at h
  by_cases h8 : c = ','
  · rw [if_pos h8] at h
    exact absurd h (by simp)
  rw [if_neg h8] at h
  by_cases h9 : c = '+'
  · rw [if_pos h9] at h
    exact absurd h (by simp)
  rw [if_neg h9] at h
  by_cases h10 : c = '-'
  · rw [if_pos h10] at h
    exact absurd h (by simp)
  rw [if_neg h10] at h
  by_cases h11 : c = '*'
  · rw [if_pos h11] at h
    exact absurd h (by simp)
  rw [if_neg h11] at h
  by_cases h12 : c = '/'
  · rw [if_pos h12] at h
    exact absurd h (by simp)
  rw [if_neg h12] at h
  exact ⟨h1, h2, h3, h4, h5, h6, h7, h8, h9, h10, h11, h12⟩

theorem compoundKind_cases {c : Char} {two : TokenType} {one : Option TokenType}
    (h : compoundKind c = some (two, one)) :
    (c = '!' ∧ two = TokenType.OP_NOT_EQUAL ∧ one = none) ∨
    (c = '=' ∧ two = TokenType.OP_EQUAL ∧ one = some TokenType.OP_ASSIGN) ∨
    (c = '<' ∧ two = TokenType.OP_LESS_EQUAL ∧ one = some TokenType.OP_LESS) ∨
    (c = '>' ∧ two = TokenType.OP_GREATER_EQUAL ∧ one = some TokenType.OP_GREATER) := by
  unfold compoundKind at h
  by_cases h1 : c = '!'
  · rw [if_pos h1] at h
    exact Or.inl ⟨h1, (Prod.mk.inj (Option.some.inj h)).1.symm, (Prod.mk.inj (Option.some.inj h)).2.symm⟩
  rw [if_neg h1] at h
  by_cases h2 : c = '='
  · rw [if_pos h2] at h
    exact Or.inr (Or.inl ⟨h2, (Prod.mk.inj (Option.some.inj h)).1.symm, (Prod.mk.inj (Option.some.inj h)).2.symm⟩)
  rw [if_neg h2] at h
  by_cases h3 : c = '<'
  · rw [if_pos h3] at h
    exact Or.inr (Or.inr (Or.inl ⟨h3, (Prod.mk.inj (Option.some.inj h)).1.symm, (Prod.mk.inj (Option.some.inj h)).2.symm⟩))
  rw [if_neg h3] at h
  by_cases h4 : c = '>'
  · rw [if_pos h4] at h
    exact Or.inr (Or.inr (Or.inr (⟨h4, (Prod.mk.inj (Option.some.inj h)).1.symm, (Prod.mk.inj (Option.some.inj h)).2.symm⟩)))
  rw [if_neg h4] at h
  exact absurd h (by simp)

theorem compoundKind_none {c : Char} (h : compoundKind c = none) :
    c ≠ '!' ∧ c ≠ '=' ∧ c ≠ '<' ∧ c ≠ '>' := by
  unfold compoundKind at h
  by_cases h1 : c = '!'
  · rw [if_pos h1] at h
    exact absurd h (by simp)
  rw [if_neg h1] at h
  by_cases h2 : c = '='
  · rw [if_pos h2] at h
    exact absurd h (by simp)
  rw [if_neg h2] at h
  by_cases h3 : c = '<'
  · rw [if_pos h3] at h
    exact absurd h (by simp)
  rw [if_neg h3] at h
  by_cases h4 : c = '>'
  · rw [if_pos h4] at h
    exact absurd h (by simp)
  rw [if_neg h4] at h
  exact ⟨h1, h2, h3, h4⟩

theorem keywordOrIdentifier_cases (t : List Char) :
    (t = "int".toList ∧ keywordOrIdentifier t = TokenType.KEYWORD_INT) ∨
    (t = "void".toList ∧ keywordOrIdentifier t = TokenType.KEYWORD_VOID) ∨
    (t = "if".toList ∧ keywordOrIdentifier t = TokenType.KEYWORD_IF) ∨
    (t = "else".toList ∧ keywordOrIdentifier t = TokenType.KEYWORD_ELSE) ∨
    (t = "while".toList ∧ keywordOrIdentifier t = TokenType.KEYWORD_WHILE) ∨
    (t = "return".toList ∧ keywordOrIdentifier t = TokenType.KEYWORD_RETURN) ∨
    (t = "input".toList ∧ keywordOrIdentifier t = TokenType.KEYWORD_INPUT) ∨
    (t = "output".toList ∧ keywordOrIdentifier t = TokenType.KEYWORD_OUTPUT) ∨
    ((∀ kw ∈ keywords, t ≠ kw.1) ∧ keywordOrIdentifier t = TokenType.IDENTIFIER) := by
  by_cases h1 : t = "int".toList
  · subst h1; exact Or.inl ⟨rfl, by decide⟩
  by_cases h2 : t = "void".toList
  · subst h2; exact Or.inr (Or.inl ⟨rfl, by decide⟩)
  by_cases h3 : t = "if".toList
  · subst h3; exact Or.inr (Or.inr (Or.inl ⟨rfl, by decide⟩))
  by_cases h4 : t = "else".toList
  · subst h4; exact Or.inr (Or.inr (Or.inr (Or.inl ⟨rfl, by decide⟩)))
  by_cases h5 : t = "while".toList
  · subst h5; exact Or.inr (Or.inr (Or.inr (Or.inr (Or.inl ⟨rfl, by decide⟩))))
  by_cases h6 : t = "return".toList
  · subst h6; exact Or.inr (Or.inr (Or.inr (Or.inr (Or.inr (Or.inl ⟨rfl, by decide⟩)))))
  by_cases h7 : t = "input".toList
  · subst h7
    exact Or.inr (Or.inr (Or.inr (Or.inr (Or.inr (Or.inr (Or.inl ⟨rfl, by decide⟩))))))
  by_cases h8 : t = "output".toList
  · subst h8
    exact Or.inr (Or.inr (Or.inr (Or.inr (Or.inr (Or.inr (Or.inr (Or.inl ⟨rfl, by decide⟩)))))))
  refine Or.inr (Or.inr (Or.inr (Or.inr (Or.inr (Or.inr (Or.inr (Or.inr ⟨?_, ?_⟩)))))))
  · intro kw hkw
    simp only [keywords, List.mem_cons, List.mem_singleton, List.not_mem_nil, or_false] at hkw
    rcases hkw with h | h | h | h | h | h | h | h <;> subst h <;> assumption
  · have hb : ∀ u : List Char, t ≠ u → (t == u) = false := fun u hu => by simpa using hu
    simp only [keywordOrIdentifier, keywords, List.lookup, hb _ h1, hb _ h2, hb _ h3, hb _ h4,
      hb _ h5, hb _ h6, hb _ h7, hb _ h8, Option.getD_none]

theorem keywordOrIdentifier_ne_number (t : List Char) :
    keywordOrIdentifier t ≠ TokenType.NUMBER := by
  rcases keywordOrIdentifier_cases t with h | h | h | h | h | h | h | h | h <;>
    (rw [h.2]; decide)

theorem keywordOrIdentifier_ne_eof (t : List Char) :
    keywordOrIdentifier t ≠ TokenType.EOF_TOKEN := by
  rcases keywordOrIdentifier_cases t with h | h | h | h | h | h | h | h | h <;>
    (rw [h.2]; decide)

theorem scanHead_punct {c : Char} {ty : TokenType} (r : List Char)
    (h : punctKind c = some ty) : scanHead c r = (1, some ty) := by
  simp [scanHead, h]

theorem scanHead_compound {c : Char} {two : TokenType} {one : Option TokenType} (r : List Char)
    (hp : punctKind c = none) (h : compoundKind c = some (two, one)) :
    scanHead c r = if r.head? = some '=' then (2, some two) else (1, one) := by
  simp [scanHead, hp, h]

theorem scanHead_other {c : Char} (r : List Char)
    (hp : punctKind c = none) (h : compoundKind c = none) :
    scanHead c r =
      if isdigit c then (1 + (r.takeWhile isdigit).length, some TokenType.NUMBER)
      else if isalpha c ∨ c = '_' then
        (1 + (r.takeWhile isIdChar).length,
          some (keywordOrIdentifier (c :: r.takeWhile isIdChar)))
      else (1, none) := by
  simp [scanHead, hp, h]

theorem isdigit_ne_newline {x : Char} (h : isdigit x = true) : x ≠ '\n' := by
  intro hx; subst hx; exact absurd h (by decide)

theorem isIdChar_ne_newline {x : Char} (h : isIdChar x = true) : x ≠ '\n' := by
  intro hx; subst hx; exact absurd h (by decide)

/-- No item contains a newline. -/
theorem item_no_newline (c : Char) (r : List Char) (hb : isBlank c = false) (j : Nat)
    (hj : j < (scanHead c r).1) (x : Char) (hx : (c :: r)[j]? = some x) : x ≠ '\n' := by
  cases j with
  | zero =>
    simp only [List.getElem?_cons_zero, Option.some.injEq] at hx
    subst hx
    exact ((isBlank_eq_false_iff _).mp hb).2.2.2
  | succ j =>
    simp only [List.getElem?_cons_succ] at hx
    cases hpk : punctKind c with
    | some ty => rw [scanHead_punct r hpk] at hj; simp at hj
    | none =>
      cases hck : compoundKind c with
      | some p =>
        obtain ⟨two, one⟩ := p
        rw [scanHead_compound r hpk hck] at hj
        split_ifs at hj with h
        · simp only at hj
          have hj0 : j = 0 := by omega
          subst hj0
          rw [← List.head?_eq_getElem?, h] at hx
          rw [← Option.some.inj hx]
          decide
        · simp at hj
      | none =>
        rw [scanHead_other r hpk hck] at hj
        split_ifs at hj with h1 h2
        · simp only at hj
          exact isdigit_ne_newline (getElem?_lt_takeWhile _ _ j x (by omega) hx)
        · simp only at hj
          exact isIdChar_ne_newline (getElem?_lt_takeWhile _ _ j x (by omega) hx)
        · simp at hj

theorem literalOf_ne_number {ty : TokenType} (h : ty ≠ TokenType.NUMBER) (t : List Char) :
    literalOf ty t = none := by
  simp [literalOf, h]

theorem punctKind_ne_number {c : Char} {ty : TokenType} (h : punctKind c = some ty) :
    ty ≠ TokenType.NUMBER := by
  rcases punctKind_cases h with h | h | h | h | h | h | h | h | h | h | h | h <;>
    (rw [h.2]; decide)

theorem compoundKind_ne_number {c : Char} {two : TokenType} {one : Option TokenType}
    (h : compoundKind c = some (two, one)) :
    two ≠ TokenType.NUMBER ∧ one ≠ some TokenType.NUMBER := by
  rcases compoundKind_cases h with h | h | h | h <;>
    (rw [h.2.1, h.2.2]; decide)

theorem colAt_eq (src : List Char) (o : Nat) : colAt src o = col0 src o + 1 := by
  simp [colAt, Nat.add_comm]

theorem matchChar_eq_of_head (s : Lexer) (h : s.current_char_idx ≤ s.source_code.length) :
    matchChar '=' s =
      if (s.source_code.drop s.current_char_idx).head? = some '=' then
        (true, { s with current_char_idx := s.current_char_idx + 1, column := s.column + 1 })
      else (false, s) := by
  by_cases hlt : s.current_char_idx < s.source_code.length
  · have he : isAtEnd s = false := by simp [isAtEnd, hlt]
    by_cases hc : charAt s.source_code s.current_char_idx = '='
    · have h1 : (s.source_code.drop s.current_char_idx).head? = some '=' :=
        (head?_drop_eq_some _ _ _).mpr ⟨hlt, hc⟩
      rw [if_pos h1]
      simp [matchChar, he, hc]
    · have h1 : ¬ (s.source_code.drop s.current_char_idx).head? = some '=' := fun hh =>
        hc ((head?_drop_eq_some _ _ _).mp hh).2
      rw [if_neg h1]
      simp [matchChar, he, hc]
  · have he : isAtEnd s = true := by simp [isAtEnd]; omega
    have h1 : ¬ (s.source_code.drop s.current_char_idx).head? = some '=' := fun hh =>
      hlt ((head?_drop_eq_some _ _ _).mp hh).1
    rw [if_neg h1]
    simp [matchChar, he]

/-- One call of `scanToken` at the start of an item consumes exactly the item
and emits its token and its diagnostic. -/
theorem scanToken_spec (s : Lexer)
    (hlt : s.current_char_idx < s.source_code.length)
    (hst : s.start_lexeme_idx = s.current_char_idx)
    (htc : s.current_token_start_column = s.column + 1)
    (hpos : PosOK s)
    (hb : isBlank (charAt s.source_code s.current_char_idx) = false) :
    ∃ s', scanToken s = some s' ∧ s'.source_code = s.source_code ∧
      s'.current_char_idx = s.current_char_idx +
        (scanHead (charAt s.source_code s.current_char_idx)
          (s.source_code.drop (s.current_char_idx + 1))).1 ∧
      PosOK s' ∧
      s'.tokens = s.tokens ++ (itemToken s.source_code ⟨s.current_char_idx,
        (scanHead (charAt s.source_code s.current_char_idx)
          (s.source_code.drop (s.current_char_idx + 1))).1,
        (scanHead (charAt s.source_code s.current_char_idx)
          (s.source_code.drop (s.current_char_idx + 1))).2⟩).toList ∧
      s'.cerr = s.cerr ++ (itemDiag s.source_code ⟨s.current_char_idx,
        (scanHead (charAt s.source_code s.current_char_idx)
          (s.source_code.drop (s.current_char_idx + 1))).1,
        (scanHead (charAt s.source_code s.current_char_idx)
          (s.source_code.drop (s.current_char_idx + 1))).2⟩).toList ∧
      s'.had_lexer_error = (s.had_lexer_error || (itemDiag s.source_code ⟨s.current_char_idx,
        (scanHead (charAt s.source_code s.current_char_idx)
          (s.source_code.drop (s.current_char_idx + 1))).1,
        (scanHead (charAt s.source_code s.current_char_idx)
          (s.source_code.drop (s.current_char_idx + 1))).2⟩).isSome) := by
  obtain ⟨src, toks, idx, st, ln, col, tc, flag, err⟩ := s
  simp only [PosOK] at hlt hst htc hpos hb ⊢
  obtain ⟨hln, hcol⟩ := hpos
  subst st tc ln col
  have hdrop := drop_eq_charAt_cons src idx hlt
  have hnle := scanHead_len_le (charAt src idx) (src.drop (idx + 1))
  have hnpos := scanHead_len_pos (charAt src idx) (src.drop (idx + 1))
  simp only [List.length_drop] at hnle
  have hno : ∀ j, j < (scanHead (charAt src idx) (src.drop (idx + 1))).1 →
      charAt src (idx + j) ≠ '\n' := by
    intro j hj
    have hx := getElem?_drop_of_lt src idx j (by omega)
    rw [hdrop] at hx
    exact item_no_newline _ _ hb j hj _ hx
  obtain ⟨hp1, hp2⟩ := pos_add_of_no_newline src idx _ (by omega) hno
  rw [scanToken_eq]
  simp only [advance]
  cases hpk : punctKind (charAt src idx) with
  | some ty =>
    simp only [scanHead_punct _ hpk] at hp1 hp2 ⊢
    refine ⟨_, rfl, ?_⟩
    simp [addToken, itemToken, itemDiag, literalOf_ne_number (punctKind_ne_number hpk),
      punctKind_ne_number hpk, hp1, hp2, colAt_eq]
  | none =>
    cases hck : compoundKind (charAt src idx) with
    | some p =>
      obtain ⟨two, one⟩ := p
      have hm := matchChar_eq_of_head
        ⟨src, toks, idx + 1, idx, lineAt src idx, col0 src idx + 1, col0 src idx + 1, flag, err⟩
        (by simp only; omega)
      simp only at hm
      simp only [scanHead_compound _ hpk hck] at hp1 hp2 ⊢
      obtain ⟨hn1, hn2⟩ := compoundKind_ne_number hck
      by_cases hh : (src.drop (idx + 1)).head? = some '='
      · simp only [hh, if_true] at hm hp1 hp2 ⊢
        rw [hm]
        simp only [if_true]
        refine ⟨_, rfl, ?_⟩
        have e2 : idx + 1 + 1 - idx = 2 := by omega
        simp [addToken, itemToken, itemDiag, literalOf_ne_number hn1, hn1, hp1, hp2, colAt_eq, e2]
      · simp only [hh, if_false] at hm hp1 hp2 ⊢
        rw [hm]
        simp only [Bool.false_eq_true, if_false]
        cases one with
        | some ty =>
          have hty : ty ≠ TokenType.NUMBER := fun h => hn2 (by rw [h])
          refine ⟨_, rfl, ?_⟩
          simp [addToken, itemToken, itemDiag, literalOf_ne_number hty, hty, hp1, hp2, colAt_eq]
        | none =>
          have hc : charAt src idx = '!' := by
            rcases compoundKind_cases hck with h | h | h | h
            · exact h.1
            · exact absurd h.2.2 (by simp)
            · exact absurd h.2.2 (by simp)
            · exact absurd h.2.2 (by simp)
          refine ⟨_, rfl, ?_⟩
          simp [reportLexerError, itemToken, itemDiag, hp1, hp2, colAt_eq, unexpectedMessage, hc]
    | none =>
      simp only [scanHead_other _ hpk hck] at hp1 hp2 hnle ⊢
      have hc : charAt src idx ≠ '!' := (compoundKind_none hck).1
      by_cases hd : isdigit (charAt src idx) = true
      · simp only [hd, if_true] at hp1 hp2 hnle ⊢
        rw [readNumber, readNumberLoop_spec _ _ (by simp only; omega) (by simp only; omega)]
        simp only [Option.map_some']
        refine ⟨_, rfl, ?_⟩
        have e2 : ∀ k, idx + 1 + k - idx = 1 + k := fun k => by omega
        have e3 : ∀ k, idx + 1 + k = idx + (1 + k) := fun k => by omega
        have e4 : ∀ k, col0 src idx + 1 + k = col0 src idx + (1 + k) := fun k => by omega
        cases hs : stoi (substr src idx (1 + (List.takeWhile isdigit (src.drop (idx + 1))).length))
          <;> simp [addToken, reportLexerError, itemToken, itemDiag, literalOf, numberMessage, hp1,
            hp2, colAt_eq, e2, e3, e4, hs]
      · simp only [hd, if_false, Bool.false_eq_true] at hp1 hp2 hnle ⊢
        by_cases hi : isalpha (charAt src idx) = true ∨ charAt src idx = '_'
        · simp only [hi, if_true] at hp1 hp2 hnle ⊢
          rw [readIdentifierOrKeyword,
            readIdentifierLoop_spec _ _ (by simp only; omega) (by simp only; omega)]
          simp only [Option.map_some']
          have e2 : ∀ k, idx + 1 + k - idx = 1 + k := fun k => by omega
          have e3 : ∀ k, idx + 1 + k = idx + (1 + k) := fun k => by omega
          have e4 : ∀ k, col0 src idx + 1 + k = col0 src idx + (1 + k) := fun k => by omega
          have htext : substr src idx (1 + (List.takeWhile isIdChar (src.drop (idx + 1))).length) =
              charAt src idx :: List.takeWhile isIdChar (src.drop (idx + 1)) := by
            rw [substr, hdrop, Nat.add_comm 1, List.take_succ_cons, take_length_takeWhile]
          have hkn := keywordOrIdentifier_ne_number
            (charAt src idx :: List.takeWhile isIdChar (src.drop (idx + 1)))
          simp only [e2, htext]
          cases hl : keywords.lookup
              (charAt src idx :: List.takeWhile isIdChar (src.drop (idx + 1))) with
          | some ty =>
            have hk : keywordOrIdentifier
                (charAt src idx :: List.takeWhile isIdChar (src.drop (idx + 1))) = ty := by
              simp [keywordOrIdentifier, hl]
            rw [hk] at hkn ⊢
            refine ⟨_, rfl, ?_⟩
            simp [addToken, itemToken, itemDiag, literalOf_ne_number hkn, hkn, hp1, hp2, colAt_eq,
              e2, e3, e4, htext]
          | none =>
            have hk : keywordOrIdentifier
                (charAt src idx :: List.takeWhile isIdChar (src.drop (idx + 1))) =
                TokenType.IDENTIFIER := by
              simp [keywordOrIdentifier, hl]
            rw [hk] at hkn ⊢
            refine ⟨_, rfl, ?_⟩
            simp [addToken, itemToken, itemDiag, literalOf_ne_number hkn, hp1, hp2, colAt_eq,
              e2, e3, e4, htext]
        · simp only [hi, if_false] at hp1 hp2 hnle ⊢
          refine ⟨_, rfl, ?_⟩
          simp [reportLexerError, itemToken, itemDiag, hp1, hp2, colAt_eq, unexpectedMessage, hc]

theorem tokensOf_cons (src : List Char) (it : Item) (its : List Item) :
    tokensOf src (it :: its) = (itemToken src it).toList ++ tokensOf src its := by
  cases h : itemToken src it <;> simp [tokensOf, List.filterMap_cons, h]

theorem diagsOf_cons (src : List Char) (it : Item) (its : List Item) :
    diagsOf src (it :: its) = (itemDiag src it).toList ++ diagsOf src its := by
  cases h : itemDiag src it <;> simp [diagsOf, List.filterMap_cons, h]

/-- The main loop of `tokenize`, started anywhere between two items, runs to
the end of the text and emits the rendering of the items that are left. -/
theorem tokenizeLoop_spec : ∀ (fuel : Nat) (s : Lexer),
    s.current_char_idx ≤ s.source_code.length →
    s.source_code.length < s.current_char_idx + fuel →
    PosOK s →
    ∃ s', tokenizeLoop fuel s = some s' ∧ s'.source_code = s.source_code ∧
      s'.current_char_idx = s.source_code.length ∧ PosOK s' ∧
      s'.tokens = s.tokens ++
        tokensOf s.source_code (lexFrom s.current_char_idx (s.source_code.drop s.current_char_idx)) ∧
      s'.cerr = s.cerr ++
        diagsOf s.source_code (lexFrom s.current_char_idx (s.source_code.drop s.current_char_idx)) ∧
      s'.had_lexer_error = (s.had_lexer_error ||
        !(diagsOf s.source_code
          (lexFrom s.current_char_idx (s.source_code.drop s.current_char_idx))).isEmpty) := by
  intro fuel
  induction fuel with
  | zero => intro s hle h; omega
  | succ fuel ih =>
    intro s hle h hpos
    obtain ⟨k, hk1, hk2, hk3, hk4⟩ := skipLoop_spec (s.source_code.length + 1) s hle (by omega) hpos
    rw [tokenizeLoop, skipWhitespaceAndComments, hk2, hk3]
    simp only [Option.bind_eq_bind, Option.some_bind]
    by_cases hend : s.current_char_idx + k < s.source_code.length
    · obtain ⟨hb, hcm⟩ := hk4 hend
      have he : isAtEnd { s with
          current_char_idx := s.current_char_idx + k,
          line := lineAt s.source_code (s.current_char_idx + k),
          column := col0 s.source_code (s.current_char_idx + k) } = false := by
        simp [isAtEnd, hend]
      simp only [he, Bool.false_eq_true, if_false]
      obtain ⟨s3, h31, h32, h33, h34, h35, h36, h37⟩ := scanToken_spec
        { s with
          current_char_idx := s.current_char_idx + k,
          line := lineAt s.source_code (s.current_char_idx + k),
          column := col0 s.source_code (s.current_char_idx + k),
          start_lexeme_idx := s.current_char_idx + k,
          current_token_start_column := col0 s.source_code (s.current_char_idx + k) + 1 }
        hend rfl rfl ⟨rfl, rfl⟩ hb
      simp only at h31 h32 h33 h35 h36 h37
      rw [h31]
      simp only [Option.some_bind]
      have hnpos := scanHead_len_pos (charAt s.source_code (s.current_char_idx + k))
        (s.source_code.drop (s.current_char_idx + k + 1))
      have hnle := scanHead_len_le (charAt s.source_code (s.current_char_idx + k))
        (s.source_code.drop (s.current_char_idx + k + 1))
      simp only [List.length_drop] at hnle
      obtain ⟨s', h1, h2, h3, h4, h5, h6, h7⟩ := ih s3 (by rw [h32, h33]; omega)
        (by rw [h32, h33]; omega) h34
      refine ⟨s', h1, by rw [h2, h32], by rw [h3, h32], h4, ?_, ?_, ?_⟩
      all_goals
        rw [drop_eq_charAt_cons _ _ hend, lexFrom_item _ _ _ hb hcm]
        have e : (s.source_code.drop (s.current_char_idx + k + 1)).drop
            ((scanHead (charAt s.source_code (s.current_char_idx + k))
              (s.source_code.drop (s.current_char_idx + k + 1))).1 - 1) =
            s.source_code.drop (s.current_char_idx + k +
              (scanHead (charAt s.source_code (s.current_char_idx + k))
                (s.source_code.drop (s.current_char_idx + k + 1))).1) := by
          rw [List.drop_drop]; congr 1; omega
        rw [e]
      · rw [h5, h35, h32, h33, tokensOf_cons, List.append_assoc]
      · rw [h6, h36, h32, h33, diagsOf_cons, List.append_assoc]
      · rw [h7, h37, h32, h33, diagsOf_cons]
        cases itemDiag s.source_code _ <;> simp
    · have hidx : s.current_char_idx + k = s.source_code.length := by omega
      have he : isAtEnd { s with
          current_char_idx := s.current_char_idx + k,
          line := lineAt s.source_code (s.current_char_idx + k),
          column := col0 s.source_code (s.current_char_idx + k) } = true := by
        simp [isAtEnd, hidx]
      simp only [he, if_true]
      refine ⟨_, rfl, rfl, hidx, ⟨rfl, rfl⟩, ?_, ?_, ?_⟩ <;>
        simp [hidx, lexFrom_nil, tokensOf, diagsOf]

/-- What `tokenize` returns: the tokens of the items of the source followed by
the end-of-input token, the diagnostics of the items appended to `cerr`, and
the flag raised when there is a diagnostic. -/
theorem tokenize_spec (s : Lexer) :
    ∃ r, tokenize s = some r ∧ r.source_code = s.source_code ∧
      r.tokens = tokensOf s.source_code (items s.source_code) ++ [eofToken s.source_code] ∧
      r.cerr = s.cerr ++ diagsOf s.source_code (items s.source_code) ∧
      r.had_lexer_error =
        (s.had_lexer_error || !(diagsOf s.source_code (items s.source_code)).isEmpty) := by
  obtain ⟨s1, h1, h2, h3, h4, h5, h6, h7⟩ := tokenizeLoop_spec (s.source_code.length + 1)
    { s with tokens := [], current_char_idx := 0, line := 1, column := 0,
             current_token_start_column := 1 }
    (Nat.zero_le _) (by simp only; omega) ⟨(lineAt_zero _).symm, (col0_zero _).symm⟩
  simp only [List.drop_zero, List.nil_append] at h2 h3 h5 h6 h7
  have hskip : skipWhitespaceAndComments s1 = some s1 := by
    have he : isAtEnd s1 = true := by simp [isAtEnd, h3, h2]
    rw [skipWhitespaceAndComments, skipLoop]
    simp [he]
  have hsome : (if s1.tokens ≠ [] ∨ 0 < s1.source_code.length then skipWhitespaceAndComments s1
      else some s1) = some s1 := by
    split_ifs
    · exact hskip
    · rfl
  refine ⟨{ s1 with tokens := s1.tokens ++
      [⟨TokenType.EOF_TOKEN, [], none, s1.line, s1.column + 1⟩] }, ?_, h2, ?_, h6, h7⟩
  · rw [tokenize]
    simp only [h1, Option.bind_eq_bind, Option.some_bind, hsome, Option.map_some']
  · simp only [h5, items, eofToken, List.append_cancel_left_eq, List.cons.injEq, and_true,
      Token.mk.injEq, true_and]
    rw [h4.1, h4.2, h3, h2, colAt_eq]
    exact ⟨rfl, rfl⟩

/-! ## The items of a text -/

/-- Every item starts where the rest of the text begins with a character that
is neither blank nor the start of a comment, and is what `scanHead` finds
there. -/
theorem mem_lexFrom : ∀ (off : Nat) (cs : List Char) (it : Item), it ∈ lexFrom off cs →
    ∃ j c r, cs.drop j = c :: r ∧ it.off = off + j ∧ it.len = (scanHead c r).1 ∧
      it.kind = (scanHead c r).2 ∧ isBlank c = false ∧ ¬ (c = '/' ∧ r.head? = some '/') := by
  intro off cs
  induction off, cs using lex_induction with
  | nil off => intro it h; simp [lexFrom_nil] at h
  | blank off c r hb ih =>
    intro it h
    rw [lexFrom_blank _ _ _ hb] at h
    obtain ⟨j, c', r', h1, h2, h3⟩ := ih it h
    exact ⟨j + 1, c', r', by simpa using h1, by omega, h3⟩
  | comment off r ih =>
    intro it h
    rw [lexFrom_comment] at h
    obtain ⟨j, c', r', h1, h2, h3⟩ := ih it h
    refine ⟨2 + commentLen r + j, c', r', ?_, by omega, h3⟩
    rw [← h1, List.drop_drop]
    have e : 2 + commentLen r + j = (commentLen r + j) + 1 + 1 := by omega
    rw [e, List.drop_succ_cons, List.drop_succ_cons]
  | item off c r hb hc ih =>
    intro it h
    rw [lexFrom_item _ _ _ hb hc] at h
    rcases List.mem_cons.mp h with h | h
    · subst h
      exact ⟨0, c, r, rfl, rfl, rfl, rfl, hb, hc⟩
    · obtain ⟨j, c', r', h1, h2, h3⟩ := ih it h
      have hn := scanHead_len_pos c r
      refine ⟨(scanHead c r).1 + j, c', r', ?_, by omega, h3⟩
      rw [← h1, List.drop_drop]
      have e : (scanHead c r).1 + j = (((scanHead c r).1 - 1) + j) + 1 := by omega
      rw [e, List.drop_succ_cons]

theorem scanHead_kind_ne_eof (c : Char) (r : List Char) :
    (scanHead c r).2 ≠ some TokenType.EOF_TOKEN := by
  cases hpk : punctKind c with
  | some ty =>
    rw [scanHead_punct r hpk]
    rcases punctKind_cases hpk with h | h | h | h | h | h | h | h | h | h | h | h <;>
      (rw [h.2]; decide)
  | none =>
    cases hck : compoundKind c with
    | some p =>
      obtain ⟨two, one⟩ := p
      rw [scanHead_compound r hpk hck]
      rcases compoundKind_cases hck with h | h | h | h <;>
        (rw [h.2.1, h.2.2]; split_ifs <;> decide)
    | none =>
      rw [scanHead_other r hpk hck]
      split_ifs
      · simp
      · simp only [ne_eq, Option.some.injEq]
        exact keywordOrIdentifier_ne_eof _
      · simp

theorem mem_tokensOf {src : List Char} {its : List Item} {t : Token} (h : t ∈ tokensOf src its) :
    ∃ it ∈ its, ∃ ty, it.kind = some ty ∧
      t = ⟨ty, substr src it.off it.len, literalOf ty (substr src it.off it.len),
        lineAt src it.off, colAt src it.off⟩ := by
  simp only [tokensOf, List.mem_filterMap] at h
  obtain ⟨it, hit, ht⟩ := h
  refine ⟨it, hit, ?_⟩
  cases hk : it.kind with
  | none => simp [itemToken, hk] at ht
  | some ty =>
    simp only [itemToken, hk, Option.map_some', Option.some.injEq] at ht
    exact ⟨ty, rfl, ht.symm⟩

theorem token_type_ne_eof {src : List Char} {t : Token} (h : t ∈ tokensOf src (items src)) :
    t.type ≠ TokenType.EOF_TOKEN := by
  obtain ⟨it, hit, ty, hk, rfl⟩ := mem_tokensOf h
  obtain ⟨j, c, r, -, -, -, h4, -, -⟩ := mem_lexFrom _ _ _ hit
  intro he
  simp only at he
  subst he
  exact scanHead_kind_ne_eof c r (by rw [← h4, hk])

/-! ## The end-of-input token and the position of tokens -/

/-- C1: for every source text, `tokenize` returns a non-empty sequence whose
last element is an end-of-input token with empty lexeme and no literal, and no
other element of the sequence has kind `EOF_TOKEN`. -/
theorem tokenize_ends_with_single_eof (src : List Char) (flag : Bool) :
    ∃ r, tokenize (Lexer.new src flag) = some r ∧ r.tokens ≠ [] ∧
      (∃ last, r.tokens.getLast? = some last ∧ last.type = TokenType.EOF_TOKEN ∧
        last.value = [] ∧ last.literal_value = none) ∧
      ∀ t ∈ r.tokens.dropLast, t.type ≠ TokenType.EOF_TOKEN := by
  obtain ⟨r, h1, -, h3, -, -⟩ := tokenize_spec (Lexer.new src flag)
  simp only [Lexer.new] at h3
  refine ⟨r, h1, ?_, ?_, ?_⟩
  · rw [h3]; simp
  · rw [h3]
    exact ⟨eofToken src, by simp, rfl, rfl, rfl⟩
  · rw [h3, List.dropLast_concat]
    intro t ht
    exact token_type_ne_eof ht

/-- C2: every token other than the end-of-input token sits at an offset `o` of
the source: the text at `[o, o + len(lexeme))` is its lexeme, its line is one
plus the number of newlines before `o`, and its column is one plus the number
of characters between the last newline before `o` (or the start) and `o`, every
character counting as one column. -/
theorem token_position_law (src : List Char) (flag : Bool) :
    ∃ r, tokenize (Lexer.new src flag) = some r ∧
      ∀ t ∈ r.tokens, t.type ≠ TokenType.EOF_TOKEN →
        ∃ o, substr src o t.value.length = t.value ∧
          t.line = 1 + (src.take o).count '\n' ∧
          t.column = 1 + ((src.take o).reverse.takeWhile (fun c => decide (c ≠ '\n'))).length := by
  obtain ⟨r, h1, -, h3, -, -⟩ := tokenize_spec (Lexer.new src flag)
  simp only [Lexer.new] at h3
  refine ⟨r, h1, ?_⟩
  intro t ht hne
  rw [h3, List.mem_append] at ht
  rcases ht with ht | ht
  · obtain ⟨it, hit, ty, hk, rfl⟩ := mem_tokensOf ht
    refine ⟨it.off, ?_, rfl, rfl⟩
    simp only [substr, List.length_take, List.take_eq_take, List.length_drop]
    omega
  · simp only [List.mem_singleton] at ht
    subst ht
    exact absurd rfl hne

/-- C3: the end-of-input token stands right after the last character: its line
is one plus the number of newlines of the source and its column is one plus the
number of characters after the last newline (one plus the length of a source
without newline); for the empty source it is line 1, column 1. -/
theorem eof_token_position :
    (∀ (src : List Char) (flag : Bool), ∃ r, tokenize (Lexer.new src flag) = some r ∧
      r.tokens.getLast? = some ⟨TokenType.EOF_TOKEN, [], none, 1 + src.count '\n',
        1 + (src.reverse.takeWhile (fun c => decide (c ≠ '\n'))).length⟩) ∧
    (∀ (src : List Char) (flag : Bool), '\n' ∉ src → ∃ r, tokenize (Lexer.new src flag) = some r ∧
      r.tokens.getLast? = some ⟨TokenType.EOF_TOKEN, [], none, 1, 1 + src.length⟩) ∧
    (∀ flag : Bool, (tokenize (Lexer.new [] flag)).map (fun r => r.tokens) =
      some [⟨TokenType.EOF_TOKEN, [], none, 1, 1⟩]) := by
  have main : ∀ (src : List Char) (flag : Bool), ∃ r, tokenize (Lexer.new src flag) = some r ∧
      r.tokens.getLast? = some ⟨TokenType.EOF_TOKEN, [], none, 1 + src.count '\n',
        1 + (src.reverse.takeWhile (fun c => decide (c ≠ '\n'))).length⟩ := by
    intro src flag
    obtain ⟨r, h1, -, h3, -, -⟩ := tokenize_spec (Lexer.new src flag)
    simp only [Lexer.new] at h3
    refine ⟨r, h1, ?_⟩
    rw [h3]
    simp [eofToken, lineAt, colAt, col0]
  refine ⟨main, ?_, ?_⟩
  · intro src flag hno
    obtain ⟨r, h1, h2⟩ := main src flag
    refine ⟨r, h1, ?_⟩
    rw [h2]
    have hc : src.count '\n' = 0 := List.count_eq_zero.mpr hno
    have ht : src.reverse.takeWhile (fun c => decide (c ≠ '\n')) = src.reverse := by
      rw [List.takeWhile_eq_self_iff]
      intro x hx
      have : x ≠ '\n' := fun h => hno (by rw [← h]; exact List.mem_reverse.mp hx)
      simpa using this
    rw [hc, ht, List.length_reverse]
  · intro flag
    cases flag <;> decide

/-- The second part of `eof_token_position` at the source `ab`. -/
theorem eof_token_position_witness :
    '\n' ∉ "ab".toList ∧ ∃ r, tokenize (Lexer.new "ab".toList false) = some r ∧
      r.tokens.getLast? = some ⟨TokenType.EOF_TOKEN, [], none, 1, 1 + "ab".toList.length⟩ :=
  ⟨by decide, eof_token_position.2.1 "ab".toList false (by decide)⟩

/-! ## Items are in source order; positions determine offsets -/

theorem lexFrom_bounds {off : Nat} {cs : List Char} {it : Item} (h : it ∈ lexFrom off cs) :
    off ≤ it.off ∧ it.off + it.len ≤ off + cs.length ∧ 1 ≤ it.len := by
  obtain ⟨j, c, r, h1, h2, h3, -, -, -⟩ := mem_lexFrom _ _ _ h
  have hl : (cs.drop j).length = (c :: r).length := by rw [h1]
  simp only [List.length_drop, List.length_cons] at hl
  have h4 := scanHead_len_le c r
  have h5 := scanHead_len_pos c r
  omega

theorem lexFrom_pairwise : ∀ (off : Nat) (cs : List Char),
    (lexFrom off cs).Pairwise (fun a b => a.off + a.len ≤ b.off) := by
  intro off cs
  induction off, cs using lex_induction with
  | nil off => simp [lexFrom_nil]
  | blank off c r hb ih => rw [lexFrom_blank _ _ _ hb]; exact ih
  | comment off r ih => rw [lexFrom_comment]; exact ih
  | item off c r hb hc ih =>
    rw [lexFrom_item _ _ _ hb hc]
    refine List.Pairwise.cons ?_ ih
    intro b hb'
    exact (lexFrom_bounds hb').1

theorem items_pairwise_lt (src : List Char) :
    (items src).Pairwise (fun a b => a.off < b.off) := by
  have h := lexFrom_pairwise 0 src
  refine List.Pairwise.imp_of_mem ?_ h
  intro a b ha _ hab
  have := (lexFrom_bounds ha).2.2
  omega

theorem items_off_lt {src : List Char} {it : Item} (h : it ∈ items src) :
    it.off < src.length ∧ it.off + it.len ≤ src.length ∧ 1 ≤ it.len := by
  have := lexFrom_bounds h
  omega

theorem lineAt_mono (src : List Char) (i : Nat) :
    ∀ d, i + d ≤ src.length → lineAt src i ≤ lineAt src (i + d) := by
  intro d
  induction d with
  | zero => intro _; exact le_refl _
  | succ d ih =>
    intro h
    have h1 := ih (by omega)
    by_cases hc : charAt src (i + d) = '\n'
    · have := lineAt_succ_newline src (i + d) (by omega) hc
      rw [← add_assoc]; omega
    · have := lineAt_succ_other src (i + d) (by omega) hc
      rw [← add_assoc]; omega

theorem no_newline_of_lineAt_eq (src : List Char) (i : Nat) :
    ∀ d, i + d ≤ src.length → lineAt src (i + d) = lineAt src i →
      ∀ k, k < d → charAt src (i + k) ≠ '\n' := by
  intro d
  induction d with
  | zero => intro _ _ k hk; omega
  | succ d ih =>
    intro h heq k hk
    have hm := lineAt_mono src i d (by omega)
    by_cases hc : charAt src (i + d) = '\n'
    · have := lineAt_succ_newline src (i + d) (by omega) hc
      rw [← add_assoc] at heq; omega
    · have h2 := lineAt_succ_other src (i + d) (by omega) hc
      rw [← add_assoc, h2] at heq
      by_cases hkd : k = d
      · subst hkd; exact hc
      · exact ih (by omega) heq k (by omega)

/-- Two offsets of a text with the same line and the same column are equal. -/
theorem offset_eq_of_pos_eq (src : List Char) (i j : Nat) (hi : i ≤ src.length)
    (hj : j ≤ src.length) (hl : lineAt src i = lineAt src j) (hc : colAt src i = colAt src j) :
    i = j := by
  simp only [colAt] at hc
  rcases Nat.le_total i j with hij | hij
  · obtain ⟨d, rfl⟩ := Nat.exists_eq_add_of_le hij
    have hno := no_newline_of_lineAt_eq src i d hj hl.symm
    have := (pos_add_of_no_newline src i d hj hno).2
    omega
  · obtain ⟨d, rfl⟩ := Nat.exists_eq_add_of_le hij
    have hno := no_newline_of_lineAt_eq src j d hi hl
    have := (pos_add_of_no_newline src j d hi hno).2
    omega

/-- Among the outputs of a list of items in source order, those located at the
position of one of the items are the output of that item. -/
theorem filterMap_at_item {β : Type} (src : List Char) (f : Item → Option β)
    (line col : β → Nat)
    (hf : ∀ it b, f it = some b → line b = lineAt src it.off ∧ col b = colAt src it.off) :
    ∀ (its : List Item), its.Pairwise (fun a b => a.off < b.off) →
      (∀ it ∈ its, it.off ≤ src.length) → ∀ it ∈ its,
      (its.filterMap f).filter
          (fun b => decide (line b = lineAt src it.off ∧ col b = colAt src it.off)) =
        (f it).toList := by
  intro its
  induction its with
  | nil => intro _ _ it h; simp at h
  | cons x xs ih =>
    intro hpw hle it hit
    have hx := List.pairwise_cons.mp hpw
    have hother : ∀ y ∈ x :: xs, y.off ≠ it.off → ∀ b, f y = some b →
        ¬ (line b = lineAt src it.off ∧ col b = colAt src it.off) := by
      intro y hy hne b hb hpos
      obtain ⟨h1, h2⟩ := hf y b hb
      exact hne (offset_eq_of_pos_eq src _ _ (hle y hy) (hle it hit)
        (by rw [← h1, hpos.1]) (by rw [← h2, hpos.2]))
    rcases List.mem_cons.mp hit with h | h
    · subst h
      have htail : (xs.filterMap f).filter
          (fun b => decide (line b = lineAt src it.off ∧ col b = colAt src it.off)) = [] := by
        rw [List.filter_eq_nil_iff]
        intro b hb
        obtain ⟨y, hy, hyb⟩ := List.mem_filterMap.mp hb
        have hlt := hx.1 y hy
        simpa using hother y (List.mem_cons_of_mem _ hy) (by omega) b hyb
      cases hfi : f it with
      | none => simp only [List.filterMap_cons, hfi]; exact htail
      | some b =>
        have hb := hf it b hfi
        simp only [List.filterMap_cons, hfi, List.filter_cons, hb, and_self, decide_True, if_true,
          htail, Option.toList]
    · have hne : x.off ≠ it.off := by have := hx.1 it h; omega
      have hrec := ih hx.2 (fun y hy => hle y (List.mem_cons_of_mem _ hy)) it h
      cases hfx : f x with
      | none => simp only [List.filterMap_cons, hfx]; exact hrec
      | some b =>
        have hb := hother x (List.mem_cons_self _ _) hne b hfx
        simp only [List.filterMap_cons, hfx, List.filter_cons, hb, decide_False,
          Bool.false_eq_true, if_false]
        exact hrec

theorem itemToken_pos {src : List Char} {it : Item} {t : Token} (h : itemToken src it = some t) :
    t.line = lineAt src it.off ∧ t.column = colAt src it.off := by
  cases hk : it.kind with
  | none => simp [itemToken, hk] at h
  | some ty =>
    simp only [itemToken, hk, Option.map_some', Option.some.injEq] at h
    subst h
    exact ⟨rfl, rfl⟩

theorem itemDiag_pos {src : List Char} {it : Item} {d : Diagnostic} (h : itemDiag src it = some d) :
    d.line = lineAt src it.off ∧ d.column = colAt src it.off := by
  cases hk : it.kind with
  | none =>
    simp only [itemDiag, hk, Option.some.injEq] at h
    subst h
    exact ⟨rfl, rfl⟩
  | some ty =>
    simp only [itemDiag, hk] at h
    split_ifs at h
    · simp only [Option.map_eq_some'] at h
      obtain ⟨m, -, hm⟩ := h
      subst hm
      exact ⟨rfl, rfl⟩

/-- The tokens located at the position of an item are the token of the item. -/
theorem tokens_at_item {src : List Char} {it : Item} (h : it ∈ items src) :
    (tokensOf src (items src)).filter
        (fun t => decide (t.line = lineAt src it.off ∧ t.column = colAt src it.off)) =
      (itemToken src it).toList :=
  filterMap_at_item src (itemToken src) Token.line Token.column
    (fun _ _ hb => itemToken_pos hb) (items src) (items_pairwise_lt src)
    (fun _ hy => Nat.le_of_lt (items_off_lt hy).1) it h

/-- The diagnostics located at the position of an item are the diagnostic of
the item. -/
theorem diags_at_item {src : List Char} {it : Item} (h : it ∈ items src) :
    (diagsOf src (items src)).filter
        (fun d => decide (d.line = lineAt src it.off ∧ d.column = colAt src it.off)) =
      (itemDiag src it).toList :=
  filterMap_at_item src (itemDiag src) Diagnostic.line Diagnostic.column
    (fun _ _ hb => itemDiag_pos hb) (items src) (items_pairwise_lt src)
    (fun _ hy => Nat.le_of_lt (items_off_lt hy).1) it h

/-! ## Numbers -/

theorem isdigit_not_isspace {c : Char} (h : isdigit c = true) : isspace c = false := by
  have h1 : c ≠ ' ' := by intro e; subst e; exact absurd h (by decide)
  have h2 : c ≠ '\t' := by intro e; subst e; exact absurd h (by decide)
  have h3 : c ≠ '\n' := by intro e; subst e; exact absurd h (by decide)
  have h4 : c ≠ '\x0b' := by intro e; subst e; exact absurd h (by decide)
  have h5 : c ≠ '\x0c' := by intro e; subst e; exact absurd h (by decide)
  have h6 : c ≠ '\r' := by intro e; subst e; exact absurd h (by decide)
  simp [isspace, h1, h2, h3, h4, h5, h6]

/-- On a non-empty string of digits `std::stoi` returns the base-10 value, or
throws `out_of_range` when the value exceeds `INT_MAX`. -/
theorem stoi_digits (ds : List Char) (hne : ds ≠ []) (hd : ∀ c ∈ ds, isdigit c = true) :
    stoi ds = if decimalValue ds ≤ 2147483647 then StoiResult.ok (decimalValue ds : Int)
      else StoiResult.out_of_range := by
  cases ds with
  | nil => exact absurd rfl hne
  | cons d ds' =>
    have hd0 := hd d (List.mem_cons_self _ _)
    have hsp := isdigit_not_isspace hd0
    have hm : d ≠ '-' := by intro e; subst e; exact absurd hd0 (by decide)
    have hp : d ≠ '+' := by intro e; subst e; exact absurd hd0 (by decide)
    have htw : (d :: ds').takeWhile isdigit = d :: ds' := by
      rw [List.takeWhile_eq_self_iff]; exact hd
    simp only [stoi, List.dropWhile_cons, hsp, Bool.false_eq_true, if_false, List.head?_cons,
      Option.some.injEq, hm, hp, or_self, htw, decide_False, reduceCtorEq]
    have hnn : (0 : Int) ≤ (decimalValue (d :: ds') : Int) := Int.natCast_nonneg _
    by_cases hv : decimalValue (d :: ds') ≤ 2147483647
    · have hv2 : ¬ ((decimalValue (d :: ds') : Int) < -2147483648 ∨
          2147483647 < (decimalValue (d :: ds') : Int)) := by omega
      simp only [if_neg hv2, if_pos hv]
    · have hv2 : ((decimalValue (d :: ds') : Int) < -2147483648 ∨
          2147483647 < (decimalValue (d :: ds') : Int)) := by omega
      simp only [if_pos hv2, if_neg hv]

theorem scanHead_number {c : Char} {r : List Char}
    (h : (scanHead c r).2 = some TokenType.NUMBER) :
    isdigit c = true ∧ (scanHead c r).1 = 1 + (r.takeWhile isdigit).length := by
  cases hpk : punctKind c with
  | some ty =>
    rw [scanHead_punct r hpk] at h
    exact absurd (Option.some.inj h) (punctKind_ne_number hpk)
  | none =>
    cases hck : compoundKind c with
    | some p =>
      obtain ⟨two, one⟩ := p
      obtain ⟨h1, h2⟩ := compoundKind_ne_number hck
      rw [scanHead_compound r hpk hck] at h
      split_ifs at h
      · exact absurd (Option.some.inj h) h1
      · exact absurd h h2
    | none =>
      rw [scanHead_other r hpk hck] at h ⊢
      split_ifs at h ⊢ with h1 h2
      · exact ⟨h1, rfl⟩
      · exact absurd (Option.some.inj h) (keywordOrIdentifier_ne_number _)

/-- The text of an item of the source, read off the rest of the source at its
start. -/
theorem item_text {src : List Char} {it : Item} (h : it ∈ items src) :
    ∃ c r, src.drop it.off = c :: r ∧ it.len = (scanHead c r).1 ∧ it.kind = (scanHead c r).2 ∧
      isBlank c = false ∧ ¬ (c = '/' ∧ r.head? = some '/') ∧
      substr src it.off it.len = c :: r.take (it.len - 1) := by
  obtain ⟨j, c, r, h1, h2, h3, h4, h5, h6⟩ := mem_lexFrom _ _ _ h
  simp only [Nat.zero_add] at h2
  subst h2
  refine ⟨c, r, h1, h3, h4, h5, h6, ?_⟩
  have hp := scanHead_len_pos c r
  rw [substr, h1]
  obtain ⟨n, hn⟩ : ∃ n, it.len = n + 1 := ⟨it.len - 1, by omega⟩
  rw [hn]
  simp

/-- The lexeme of a `NUMBER` item is a non-empty string of digits. -/
theorem number_item_text {src : List Char} {it : Item} (h : it ∈ items src)
    (hk : it.kind = some TokenType.NUMBER) :
    substr src it.off it.len ≠ [] ∧ ∀ ch ∈ substr src it.off it.len, isdigit ch = true := by
  obtain ⟨c, r, h1, h3, h4, -, -, h7⟩ := item_text h
  rw [hk] at h4
  obtain ⟨hd, hl⟩ := scanHead_number h4.symm
  rw [h7, h3, hl]
  refine ⟨by simp, ?_⟩
  intro ch hch
  simp only [Nat.add_sub_cancel_left, take_length_takeWhile, List.mem_cons] at hch
  rcases hch with rfl | hch
  · exact hd
  · exact List.mem_takeWhile_imp hch

/-- C7: a `NUMBER` token has a non-empty lexeme of decimal digits; when the
base-10 value of the lexeme is at most 2147483647 its literal is that value and
no diagnostic is reported at its position; otherwise its literal is 0 and
exactly one diagnostic, "Number literal '<lexeme>' is too large.", is reported
at its line and start column. -/
theorem number_token_literal (src : List Char) (flag : Bool) :
    ∃ r, tokenize (Lexer.new src flag) = some r ∧
      ∀ t ∈ r.tokens, t.type = TokenType.NUMBER →
        t.value ≠ [] ∧ (∀ ch ∈ t.value, isdigit ch = true) ∧
        (decimalValue t.value ≤ 2147483647 →
          t.literal_value = some (decimalValue t.value : Int) ∧
          r.cerr.filter (fun d => decide (d.line = t.line ∧ d.column = t.column)) = []) ∧
        (2147483647 < decimalValue t.value →
          t.literal_value = some 0 ∧
          r.cerr.filter (fun d => decide (d.line = t.line ∧ d.column = t.column)) =
            [⟨t.line, t.column,
              "Number literal '".toList ++ t.value ++ "' is too large.".toList⟩]) := by
  obtain ⟨r, h1, -, h3, h4, -⟩ := tokenize_spec (Lexer.new src flag)
  simp only [Lexer.new, List.nil_append] at h3 h4
  refine ⟨r, h1, ?_⟩
  intro t ht hty
  rw [h3, List.mem_append] at ht
  rcases ht with ht | ht
  swap
  · simp only [List.mem_singleton] at ht
    subst ht
    simp [eofToken] at hty
  obtain ⟨it, hit, ty, hk, rfl⟩ := mem_tokensOf ht
  simp only at hty
  subst hty
  obtain ⟨hne, hdig⟩ := number_item_text hit hk
  have hstoi := stoi_digits _ hne hdig
  have hdiag := diags_at_item hit
  refine ⟨hne, hdig, ?_, ?_⟩
  · intro hv
    simp only at hv
    rw [if_pos hv] at hstoi
    simp only [h4, hdiag]
    simp [literalOf, itemDiag, hk, numberMessage, hstoi]
  · intro hv
    simp only at hv
    rw [if_neg (by omega)] at hstoi
    simp only [h4, hdiag]
    simp [literalOf, itemDiag, hk, numberMessage, hstoi]

/-! ## Sources without invalid constructs -/

theorem scanHead_kind_none {c : Char} {r : List Char} (h : (scanHead c r).2 = none) :
    (scanHead c r).1 = 1 ∧
      ((c = '!' ∧ r.head? ≠ some '=') ∨
        (punctKind c = none ∧ compoundKind c = none ∧ isdigit c = false ∧ isalpha c = false ∧
          c ≠ '_')) := by
  cases hpk : punctKind c with
  | some ty => rw [scanHead_punct r hpk] at h; simp at h
  | none =>
    cases hck : compoundKind c with
    | some p =>
      obtain ⟨two, one⟩ := p
      have hs := scanHead_compound r hpk hck
      by_cases hh : r.head? = some '='
      · rw [hs, if_pos hh] at h; simp at h
      · rw [hs, if_neg hh] at h
        simp only at h
        subst h
        refine ⟨by rw [hs, if_neg hh], Or.inl ⟨?_, hh⟩⟩
        rcases compoundKind_cases hck with h | h | h | h
        · exact h.1
        · exact absurd h.2.2 (by simp)
        · exact absurd h.2.2 (by simp)
        · exact absurd h.2.2 (by simp)
    | none =>
      have hs := scanHead_other r hpk hck
      by_cases h1 : isdigit c = true
      · rw [hs, if_pos h1] at h; simp at h
      · by_cases h2 : isalpha c = true ∨ c = '_'
        · rw [hs, if_neg h1, if_pos h2] at h; simp at h
        · refine ⟨by rw [hs, if_neg h1, if_neg h2], Or.inr ⟨rfl, rfl, by simpa using h1, ?_, ?_⟩⟩
          · simpa using fun hh => h2 (Or.inl hh)
          · exact fun hh => h2 (Or.inr hh)

/-- An item without token starts at an invalid character. -/
theorem isBadAt_of_kind_none {src : List Char} {it : Item} (h : it ∈ items src)
    (hk : it.kind = none) : isBadAt src it.off = true ∧ it.len = 1 := by
  obtain ⟨c, r, h1, h3, h4, h5, -, -⟩ := item_text h
  rw [hk] at h4
  obtain ⟨hl, hc⟩ := scanHead_kind_none h4.symm
  have hlt := (items_off_lt h).1
  have hd := drop_eq_charAt_cons src it.off hlt
  rw [h1] at hd
  obtain ⟨hc1, hr1⟩ := List.cons.inj hd
  refine ⟨?_, by rw [h3, hl]⟩
  rcases hc with ⟨hb, hne⟩ | ⟨hp, hcp, hdg, hal, hu⟩
  · simp only [isBadAt, ← hc1, ← hr1, hb, Bool.or_eq_true, Bool.and_eq_true, decide_eq_true_eq]
    exact Or.inr ⟨trivial, by simpa using hne⟩
  · have hp' := punctKind_none hp
    have hcp' := compoundKind_none hcp
    have hb' := (isBlank_eq_false_iff _).mp h5
    have hna : inAlphabet c = false := by
      simp only [inAlphabet, hal, hdg, hu, hb'.1, hb'.2.1, hb'.2.2.1, hb'.2.2.2, List.mem_cons,
        hp'.1, hp'.2.1, hp'.2.2.1, hp'.2.2.2.1, hp'.2.2.2.2.1, hp'.2.2.2.2.2.1,
        hp'.2.2.2.2.2.2.1, hp'.2.2.2.2.2.2.2.1, hp'.2.2.2.2.2.2.2.2.1,
        hp'.2.2.2.2.2.2.2.2.2.1, hp'.2.2.2.2.2.2.2.2.2.2.1, hp'.2.2.2.2.2.2.2.2.2.2.2,
        hcp'.1, hcp'.2.1, hcp'.2.2.1, hcp'.2.2.2, List.mem_singleton, List.not_mem_nil,
        Bool.false_eq_true, or_self, decide_False]
    simp [isBadAt, ← hc1, hna]

theorem decimalValue_foldl (b : List Char) : ∀ init : Nat,
    b.foldl (fun acc d => acc * 10 + (d.toNat - '0'.toNat)) init =
      init * 10 ^ b.length + decimalValue b := by
  induction b with
  | nil => intro init; simp [decimalValue]
  | cons x xs ih =>
    intro init
    simp only [List.foldl_cons, decimalValue, List.length_cons]
    rw [ih, ih (0 * 10 + _)]
    ring

theorem decimalValue_append (a b : List Char) :
    decimalValue (a ++ b) = decimalValue a * 10 ^ b.length + decimalValue b := by
  rw [decimalValue, List.foldl_append, decimalValue_foldl]
  rfl

theorem decimalValue_suffix_le (a b : List Char) : decimalValue b ≤ decimalValue (a ++ b) := by
  rw [decimalValue_append]; omega

theorem substr_add (src : List Char) (i m n : Nat) :
    substr src i (m + n) = substr src i m ++ substr src (i + m) n := by
  simp only [substr]
  rw [List.take_add, List.drop_drop]

/-- A run of digits that cannot be extended to the right is the tail of a
maximal run. -/
theorem extend_run_left (src : List Char) : ∀ j n, 1 ≤ n → j + n ≤ src.length →
    (∀ k, k < n → isdigit (charAt src (j + k)) = true) →
    (j + n = src.length ∨ isdigit (charAt src (j + n)) = false) →
    ∃ m, m ≤ j ∧ IsMaximalDigitRun src (j - m) (m + n) := by
  intro j
  induction j with
  | zero =>
    intro n hn hle hd hr
    exact ⟨0, le_refl _, by simpa using hn, by simpa using hle, by simpa using hd, Or.inl rfl,
      by simpa using hr⟩
  | succ j ih =>
    intro n hn hle hd hr
    by_cases hp : isdigit (charAt src j) = true
    · have hd' : ∀ k, k < n + 1 → isdigit (charAt src (j + k)) = true := by
        intro k hk
        cases k with
        | zero => exact hp
        | succ k =>
          have := hd k (by omega)
          have e : j + 1 + k = j + (k + 1) := by omega
          rwa [e] at this
      have e1 : j + (n + 1) = j + 1 + n := by omega
      obtain ⟨m, hm, hrun⟩ := ih (n + 1) (by omega) (by omega) hd' (by rw [e1]; exact hr)
      refine ⟨m + 1, by omega, ?_⟩
      have e2 : j + 1 - (m + 1) = j - m := by omega
      have e3 : m + 1 + n = m + (n + 1) := by omega
      rw [e2, e3]
      exact hrun
    · refine ⟨0, Nat.zero_le _, ?_⟩
      simp only [Nat.sub_zero, Nat.zero_add]
      exact ⟨hn, hle, hd, Or.inr (by simpa using hp), hr⟩

/-- The value of a `NUMBER` lexeme is at most the value of the maximal run of
digits that it ends. -/
theorem number_item_value_le {src : List Char} {it : Item} (h : it ∈ items src)
    (hk : it.kind = some TokenType.NUMBER) :
    ∃ i n, IsMaximalDigitRun src i n ∧
      decimalValue (substr src it.off it.len) ≤ decimalValue (substr src i n) := by
  obtain ⟨c, r, h1, h3, h4, -, -, h7⟩ := item_text h
  rw [hk] at h4
  obtain ⟨hd, hl⟩ := scanHead_number h4.symm
  obtain ⟨hlt, hle, hpos⟩ := items_off_lt h
  have hdig := (number_item_text h hk).2
  have hrun : ∀ k, k < it.len → isdigit (charAt src (it.off + k)) = true := by
    intro k hk'
    apply hdig
    have hx := getElem?_drop_of_lt src it.off k (by omega)
    rw [substr]
    exact List.mem_iff_getElem?.mpr ⟨k, by rw [List.getElem?_take_of_lt hk', hx]⟩
  have hright : it.off + it.len = src.length ∨ isdigit (charAt src (it.off + it.len)) = false := by
    by_cases he : it.off + it.len = src.length
    · exact Or.inl he
    · right
      have hx := getElem?_drop_of_lt src it.off it.len (by omega)
      rw [h1, h3, hl, Nat.add_comm 1, List.getElem?_cons_succ] at hx
      have hdw : (r.dropWhile isdigit)[0]? = some (charAt src (it.off + it.len)) := by
        rw [← drop_length_takeWhile, List.getElem?_drop, Nat.add_zero, hx, h3, hl, Nat.add_comm 1]
      cases hdr : r.dropWhile isdigit with
      | nil => rw [hdr] at hdw; simp at hdw
      | cons y ys =>
        rw [hdr] at hdw
        simp only [List.getElem?_cons_zero, Option.some.injEq] at hdw
        have hy := List.head_dropWhile_not isdigit r (by rw [hdr]; simp)
        simp only [hdr, List.head_cons] at hy
        rw [← hdw]
        simpa using hy
  obtain ⟨m, hm, hmax⟩ := extend_run_left src it.off it.len hpos hle hrun hright
  refine ⟨it.off - m, m + it.len, hmax, ?_⟩
  rw [substr_add, Nat.sub_add_cancel hm]
  exact decimalValue_suffix_le _ _

/-- C9: starting with the flag false, a source in which no character is invalid
(each is in the recognised alphabet, and each `!` is immediately followed by
`=`) and in which every maximal run of digits has a value of at most 2147483647
is scanned without any diagnostic, and the flag is still false afterwards. -/
theorem no_diagnostic_on_valid_source (src : List Char)
    (hvalid : ∀ i, i < src.length → isBadAt src i = false)
    (hnum : ∀ i n, IsMaximalDigitRun src i n → decimalValue (substr src i n) ≤ 2147483647) :
    ∃ r, tokenize (Lexer.new src false) = some r ∧ r.cerr = [] ∧ r.had_lexer_error = false := by
  obtain ⟨r, h1, -, -, h4, h5⟩ := tokenize_spec (Lexer.new src false)
  simp only [Lexer.new, List.nil_append, Bool.false_or] at h4 h5
  have hnone : diagsOf src (items src) = [] := by
    rw [diagsOf, List.filterMap_eq_nil_iff]
    intro it hit
    cases hk : it.kind with
    | none =>
      have hb := (isBadAt_of_kind_none hit hk).1
      rw [hvalid _ (items_off_lt hit).1] at hb
      exact absurd hb (by simp)
    | some ty =>
      by_cases hty : ty = TokenType.NUMBER
      · subst hty
        obtain ⟨hne, hdig⟩ := number_item_text hit hk
        obtain ⟨i, n, hmax, hle⟩ := number_item_value_le hit hk
        have hv := hnum i n hmax
        have hs := stoi_digits _ hne hdig
        rw [if_pos (le_trans hle hv)] at hs
        simp [itemDiag, hk, numberMessage, hs]
      · simp [itemDiag, hk, hty]
  refine ⟨r, h1, by rw [h4, hnone], by rw [h5, hnone]; rfl⟩

/-- The hypotheses of `no_diagnostic_on_valid_source` hold of the source
`x = 12;`, which is therefore scanned without diagnostic. -/
theorem no_diagnostic_on_valid_source_witness :
    ∃ r, tokenize (Lexer.new "x = 12;".toList false) = some r ∧ r.cerr = [] ∧
      r.had_lexer_error = false :=
  no_diagnostic_on_valid_source "x = 12;".toList (by decide) (by
    intro i n h
    obtain ⟨h1, h2, h3, h4, h5⟩ := h
    have hi : i < 7 := by simp at h2; omega
    have hn : n ≤ 7 := by simp at h2; omega
    interval_cases i <;> interval_cases n <;> decide)

/-! ## Where items start -/

theorem charAt_drop (cs : List Char) (d k : Nat) : charAt (cs.drop d) k = charAt cs (d + k) := by
  simp [charAt, List.getD_eq_getElem?_getD, List.getElem?_drop]

theorem InComment_of_drop {cs : List Char} {d j : Nat} (h : InComment (cs.drop d) j) :
    InComment cs (d + j) := by
  obtain ⟨k, hk, h1, h2, h3⟩ := h
  refine ⟨d + k, by omega, by rw [← charAt_drop]; exact h1, ?_, ?_⟩
  · have e : d + k + 1 = d + (k + 1) := by omega
    rw [e, ← charAt_drop]; exact h2
  · intro m hm hkm
    obtain ⟨m', rfl⟩ := Nat.exists_eq_add_of_le (show d ≤ m by omega)
    rw [← charAt_drop]
    exact h3 m' (by omega) (by omega)

/-- A character that is neither blank nor the start of a comment, lies in no
comment and in the interior of no item, starts an item. -/
theorem item_at : ∀ (off : Nat) (cs : List Char) (j : Nat) (c' : Char) (r' : List Char),
    cs.drop j = c' :: r' → isBlank c' = false → ¬ (c' = '/' ∧ r'.head? = some '/') →
    ¬ InComment cs j →
    (∀ it ∈ lexFrom off cs, ¬ (it.off < off + j ∧ off + j < it.off + it.len)) →
    (⟨off + j, (scanHead c' r').1, (scanHead c' r').2⟩ : Item) ∈ lexFrom off cs := by
  intro off cs
  induction off, cs using lex_induction with
  | nil off => intro j c' r' h; simp at h
  | blank off c r hb ih =>
    intro j c' r' hd hb' hc' hnc hint
    cases j with
    | zero =>
      simp only [List.drop_zero, List.cons.injEq] at hd
      rw [hd.1, hb'] at hb
      exact absurd hb (by simp)
    | succ j =>
      rw [lexFrom_blank _ _ _ hb] at hint ⊢
      have e : off + (j + 1) = off + 1 + j := by omega
      rw [e] at hint ⊢
      refine ih j c' r' (by simpa using hd) hb' hc' ?_ hint
      intro h
      have := @InComment_of_drop (c :: r) 1 j (by simpa using h)
      exact hnc (by rwa [Nat.add_comm] at this)
  | comment off r ih =>
    intro j c' r' hd hb' hc' hnc hint
    by_cases hj : j < 2 + commentLen r
    · exfalso
      cases j with
      | zero =>
        simp only [List.drop_zero, List.cons.injEq] at hd
        exact hc' ⟨hd.1.symm, by rw [← hd.2]; rfl⟩
      | succ j =>
        apply hnc
        refine ⟨0, Nat.succ_pos _, rfl, rfl, ?_⟩
        intro m hm _
        cases m with
        | zero => simp [charAt]
        | succ m =>
          cases m with
          | zero => simp [charAt]
          | succ m =>
            have := commentLen_drop_no_newline r 0 m (by simp only [List.drop_zero]; omega)
            simpa [charAt] using this
    · rw [lexFrom_comment] at hint ⊢
      obtain ⟨j', rfl⟩ := Nat.exists_eq_add_of_le (show 2 + commentLen r ≤ j by omega)
      have e : off + (2 + commentLen r + j') = off + 2 + commentLen r + j' := by omega
      rw [e] at hint ⊢
      have hdd : ('/' :: '/' :: r).drop (2 + commentLen r) = r.drop (commentLen r) := by
        rw [Nat.add_comm 2]; rfl
      refine ih j' c' r' ?_ hb' hc' ?_ hint
      · rw [← hdd, List.drop_drop]; exact hd
      · intro h
        rw [← hdd] at h
        exact hnc (InComment_of_drop h)
  | item off c r hb hc ih =>
    intro j c' r' hd hb' hc' hnc hint
    rw [lexFrom_item _ _ _ hb hc] at hint ⊢
    have hn := scanHead_len_pos c r
    by_cases hj0 : j = 0
    · subst hj0
      simp only [List.drop_zero, List.cons.injEq] at hd
      obtain ⟨rfl, rfl⟩ := hd
      exact List.mem_cons_self _ _
    · by_cases hj : j < (scanHead c r).1
      · exfalso
        exact hint _ (List.mem_cons_self _ _) ⟨by simp only; omega, by simp only; omega⟩
      · obtain ⟨j', rfl⟩ := Nat.exists_eq_add_of_le (show (scanHead c r).1 ≤ j by omega)
        have e : off + ((scanHead c r).1 + j') = off + (scanHead c r).1 + j' := by omega
        rw [e] at hint ⊢
        have hdd : (c :: r).drop (scanHead c r).1 = r.drop ((scanHead c r).1 - 1) := by
          obtain ⟨n, hn'⟩ : ∃ n, (scanHead c r).1 = n + 1 := ⟨(scanHead c r).1 - 1, by omega⟩
          rw [hn']; rfl
        refine List.mem_cons_of_mem _ (ih j' c' r' ?_ hb' hc' ?_ ?_)
        · rw [← hdd, List.drop_drop]; exact hd
        · intro h
          rw [← hdd] at h
          exact hnc (InComment_of_drop h)
        · intro it hit
          exact hint it (List.mem_cons_of_mem _ hit)

/-- The three shapes of an item that is longer than one character: a
two-character operator, a number, an identifier or keyword. -/
theorem scanHead_shape (c : Char) (r : List Char) :
    (scanHead c r).1 = 1 ∨
    ((scanHead c r).1 = 2 ∧ r.head? = some '=' ∧
      ∃ two one, compoundKind c = some (two, one) ∧ (scanHead c r).2 = some two) ∨
    (isdigit c = true ∧ scanHead c r = (1 + (r.takeWhile isdigit).length, some TokenType.NUMBER)) ∨
    ((isalpha c = true ∨ c = '_') ∧ isdigit c = false ∧ punctKind c = none ∧
      compoundKind c = none ∧
      scanHead c r = (1 + (r.takeWhile isIdChar).length,
        some (keywordOrIdentifier (c :: r.takeWhile isIdChar)))) := by
  cases hpk : punctKind c with
  | some ty => left; rw [scanHead_punct r hpk]
  | none =>
    cases hck : compoundKind c with
    | some p =>
      obtain ⟨two, one⟩ := p
      have hs := scanHead_compound r hpk hck
      by_cases hh : r.head? = some '='
      · right; left
        rw [hs, if_pos hh]
        exact ⟨rfl, hh, two, one, rfl, rfl⟩
      · left; rw [hs, if_neg hh]
    | none =>
      have hs := scanHead_other r hpk hck
      by_cases h1 : isdigit c = true
      · right; right; left
        rw [hs, if_pos h1]
        exact ⟨h1, rfl⟩
      · by_cases h2 : isalpha c = true ∨ c = '_'
        · right; right; right
          rw [hs, if_neg h1, if_pos h2]
          exact ⟨h2, by simpa using h1, rfl, rfl, rfl⟩
        · left; rw [hs, if_neg h1, if_neg h2]

theorem isIdChar_of_isalpha {c : Char} (h : isalpha c = true ∨ c = '_') : isIdChar c = true := by
  rcases h with h | h
  · simp only [isalpha] at h
    simp [isIdChar, isalnum, Char.isAlphanum, h]
  · simp [isIdChar, h]

theorem isIdChar_of_isdigit {c : Char} (h : isdigit c = true) : isIdChar c = true := by
  simp only [isdigit] at h
  simp [isIdChar, isalnum, Char.isAlphanum, h]

/-- The characters of an item that is longer than one character. -/
theorem item_chars {src : List Char} {it : Item} (h : it ∈ items src) (hlen : 1 < it.len) :
    (it.len = 2 ∧ charAt src (it.off + 1) = '=' ∧
      ∃ two one, compoundKind (charAt src it.off) = some (two, one) ∧ it.kind = some two) ∨
    (it.kind = some TokenType.NUMBER ∧
      ∀ q, q < it.len → isdigit (charAt src (it.off + q)) = true) ∨
    ((isalpha (charAt src it.off) = true ∨ charAt src it.off = '_') ∧
      ∀ q, q < it.len → isIdChar (charAt src (it.off + q)) = true) := by
  obtain ⟨c, r, h1, h3, h4, -, -, -⟩ := item_text h
  obtain ⟨hlt, hle, -⟩ := items_off_lt h
  have hc : charAt src it.off = c := by
    have := drop_eq_charAt_cons src it.off hlt
    rw [h1] at this
    exact (List.cons.inj this).1.symm
  have hq : ∀ q, q < it.len → (c :: r)[q]? = some (charAt src (it.off + q)) := by
    intro q hq
    rw [← h1]
    exact getElem?_drop_of_lt src it.off q (by omega)
  rcases scanHead_shape c r with hs | ⟨hs, hh, two, one, hck, hk⟩ | ⟨hd, hs⟩ | ⟨ha, -, -, -, hs⟩
  · omega
  · left
    refine ⟨by rw [h3, hs], ?_, two, one, by rw [hc]; exact hck, by rw [h4, hk]⟩
    have := hq 1 (by omega)
    rw [List.getElem?_cons_succ, ← List.head?_eq_getElem?, hh] at this
    exact (Option.some.inj this).symm
  · right; left
    rw [hs] at h3 h4
    simp only at h3 h4
    refine ⟨h4, ?_⟩
    intro q hq'
    have hx := hq q hq'
    cases q with
    | zero =>
      simp only [List.getElem?_cons_zero, Option.some.injEq] at hx
      rw [← hx]; exact hd
    | succ q =>
      simp only [List.getElem?_cons_succ] at hx
      exact getElem?_lt_takeWhile _ _ q _ (by omega) hx
  · right; right
    rw [hs] at h3 h4
    simp only at h3 h4
    refine ⟨by rw [hc]; exact ha, ?_⟩
    intro q hq'
    have hx := hq q hq'
    cases q with
    | zero =>
      simp only [List.getElem?_cons_zero, Option.some.injEq] at hx
      rw [← hx]; exact isIdChar_of_isalpha ha
    | succ q =>
      simp only [List.getElem?_cons_succ] at hx
      exact getElem?_lt_takeWhile _ _ q _ (by omega) hx

/-- An item of the source, found at a given offset. -/
theorem item_at_source {src : List Char} {i : Nat} (hi : i < src.length)
    (hb : isBlank (charAt src i) = false)
    (hc : ¬ (charAt src i = '/' ∧ (src.drop (i + 1)).head? = some '/'))
    (hnc : ¬ InComment src i)
    (hint : ∀ it ∈ items src, ¬ (it.off < i ∧ i < it.off + it.len)) :
    (⟨i, (scanHead (charAt src i) (src.drop (i + 1))).1,
      (scanHead (charAt src i) (src.drop (i + 1))).2⟩ : Item) ∈ items src := by
  have h := item_at 0 src i _ _ (drop_eq_charAt_cons src i hi) hb hc hnc
    (by simpa using hint)
  simpa using h

/-- The end-of-input token is at no position of a character of the source. -/
theorem filter_eof_at (src : List Char) (i : Nat) (hi : i < src.length) :
    [eofToken src].filter
      (fun t => decide (t.line = lineAt src i ∧ t.column = colAt src i)) = [] := by
  rw [List.filter_eq_nil_iff]
  intro t ht
  simp only [List.mem_singleton] at ht
  subst ht
  simp only [eofToken, decide_eq_true_eq]
  intro h
  have := offset_eq_of_pos_eq src src.length i (le_refl _) (Nat.le_of_lt hi) h.1 h.2
  omega

/-- No token is at the position of an offset where no item starts. -/
theorem tokens_at_non_item {src : List Char} {i : Nat} (hi : i ≤ src.length)
    (hno : ∀ it ∈ items src, it.off ≠ i) :
    (tokensOf src (items src)).filter
      (fun t => decide (t.line = lineAt src i ∧ t.column = colAt src i)) = [] := by
  rw [List.filter_eq_nil_iff]
  intro t ht
  obtain ⟨it, hit, ty, hk, rfl⟩ := mem_tokensOf ht
  simp only [decide_eq_true_eq]
  intro h
  exact hno it hit
    (offset_eq_of_pos_eq src _ _ (Nat.le_of_lt (items_off_lt hit).1) hi h.1 h.2)

theorem items_disjoint {src : List Char} {a b : Item} (ha : a ∈ items src) (hb : b ∈ items src)
    (hne : a ≠ b) : a.off + a.len ≤ b.off ∨ b.off + b.len ≤ a.off := by
  have hp := lexFrom_pairwise 0 src
  have hp2 : (items src).Pairwise (fun x y : Item =>
      x.off + x.len ≤ y.off ∨ y.off + y.len ≤ x.off) := hp.imp (fun h => Or.inl h)
  exact hp2.forall (fun _ _ h => h.symm) ha hb hne

/-! ## Two-character operators -/

theorem compoundKind_of_mem {c : Char} (h : c ∈ ['=', '<', '>', '!']) :
    punctKind c = none ∧ isBlank c = false ∧ c ≠ '/' ∧ c ≠ '\n' ∧ isdigit c = false ∧
      isIdChar c = false ∧ ∃ one, compoundKind c = some (compoundTokenType c, one) := by
  simp only [List.mem_cons, List.mem_singleton, List.not_mem_nil, or_false] at h
  rcases h with rfl | rfl | rfl | rfl
  · exact ⟨by decide, by decide, by decide, by decide, by decide, by decide, _, rfl⟩
  · exact ⟨by decide, by decide, by decide, by decide, by decide, by decide, _, rfl⟩
  · exact ⟨by decide, by decide, by decide, by decide, by decide, by decide, _, rfl⟩
  · exact ⟨by decide, by decide, by decide, by decide, by decide, by decide, _, rfl⟩

theorem mem_ops_of_compoundKind {c : Char} {two : TokenType} {one : Option TokenType}
    (h : compoundKind c = some (two, one)) : c ∈ ['=', '<', '>', '!'] := by
  rcases compoundKind_cases h with h | h | h | h <;> simp [h.1]

theorem not_InComment_pred {src : List Char} {p : Nat} (h : ¬ InComment src (p + 1))
    (hc : charAt src p ≠ '\n') : ¬ InComment src p := by
  intro ⟨k, hk, h1, h2, h3⟩
  refine h ⟨k, by omega, h1, h2, ?_⟩
  intro m hm hkm
  by_cases hmp : m = p
  · subst hmp; exact hc
  · exact h3 m (by omega) hkm

/-- An item that covers, after its first character, an offset that holds one of
`= < > !` is a two-character operator that starts right before the offset. -/
theorem cover_of_op {src : List Char} {it : Item} {p : Nat} (h : it ∈ items src)
    (hc : charAt src p ∈ ['=', '<', '>', '!']) (h1 : it.off < p) (h2 : p < it.off + it.len) :
    it.off + 1 = p ∧ it.len = 2 ∧ charAt src p = '=' ∧
      charAt src it.off ∈ ['=', '<', '>', '!'] := by
  obtain ⟨-, -, -, -, hd, hid, -⟩ := compoundKind_of_mem hc
  obtain ⟨q, rfl⟩ := Nat.exists_eq_add_of_le (Nat.le_of_lt h1)
  rcases item_chars h (by omega) with ⟨hl, he, two, one, hck, -⟩ | ⟨-, hdig⟩ | ⟨-, hidc⟩
  · have hq : q = 1 := by omega
    subst hq
    exact ⟨rfl, hl, he, mem_ops_of_compoundKind hck⟩
  · have := hdig q (by omega)
    rw [hd] at this
    exact absurd this (by simp)
  · have := hidc q (by omega)
    rw [hid] at this
    exact absurd this (by simp)

/-- Outside comments, the offsets that hold one of `= < > !` are either the
start of an item or the second character of a two-character operator, as
`secondOfCompound` says. -/
theorem compound_start (src : List Char) : ∀ p, p < src.length →
    charAt src p ∈ ['=', '<', '>', '!'] → ¬ InComment src p →
    (secondOfCompound src p = false →
      (⟨p, (scanHead (charAt src p) (src.drop (p + 1))).1,
        (scanHead (charAt src p) (src.drop (p + 1))).2⟩ : Item) ∈ items src) ∧
    (secondOfCompound src p = true → ∃ it ∈ items src, it.off + 1 = p ∧ it.len = 2) := by
  intro p
  induction p with
  | zero =>
    intro hlt hc hnc
    obtain ⟨-, hb, hs, -, -, -, -⟩ := compoundKind_of_mem hc
    refine ⟨fun _ => ?_, fun h => by simp [secondOfCompound] at h⟩
    exact item_at_source hlt hb (fun h => hs h.1) hnc (fun it _ h => by omega)
  | succ q ih =>
    intro hlt hc hnc
    obtain ⟨-, hb, hs, -, -, -, -⟩ := compoundKind_of_mem hc
    constructor
    · intro hsec
      refine item_at_source hlt hb (fun h => hs h.1) hnc ?_
      intro it hit ⟨h1, h2⟩
      obtain ⟨ho, hl, he, hprev⟩ := cover_of_op hit hc h1 h2
      have hoq : it.off = q := by omega
      rw [hoq] at hprev
      have hsq : secondOfCompound src q = true := by
        simp only [secondOfCompound, he, hprev, decide_True, Bool.true_and,
          Bool.not_eq_false', Bool.not_eq_eq_eq_not, Bool.not_false] at hsec
        simpa using hsec
      obtain ⟨-, -, -, hnl, -, -, -⟩ := compoundKind_of_mem hprev
      obtain ⟨it', hit', ho', hl'⟩ := (ih (by omega) hprev (not_InComment_pred hnc hnl)).2 hsq
      have hne : it' ≠ it := by intro e; rw [e] at ho'; omega
      rcases items_disjoint hit' hit hne with hd | hd <;> omega
    · intro hsec
      simp only [secondOfCompound, Bool.and_eq_true, decide_eq_true_eq,
        Bool.not_eq_true'] at hsec
      obtain ⟨⟨he, hprev⟩, hsq⟩ := hsec
      obtain ⟨hpk, -, -, hnl, -, -, one, hck⟩ := compoundKind_of_mem hprev
      have hitem := (ih (by omega) hprev (not_InComment_pred hnc hnl)).1 hsq
      have hh : (src.drop (q + 1)).head? = some '=' := (head?_drop_eq_some _ _ _).mpr ⟨hlt, he⟩
      rw [scanHead_compound _ hpk hck, if_pos hh] at hitem
      exact ⟨_, hitem, rfl, rfl⟩

/-- C4, amended: at every offset `i` that holds one of `= < > !` immediately
followed by `=`, lies outside every line comment and is not itself the second
character of a two-character operator, `tokenize` emits exactly one token, the
two-character operator with lexeme `source[i, i+2)`, and no token starts at
`i+1`. -/
theorem maximal_munch (src : List Char) (flag : Bool) (i : Nat)
    (hc : charAt src i ∈ ['=', '<', '>', '!'])
    (hnext : (src.drop (i + 1)).head? = some '=')
    (hnc : ¬ InComment src i) (hsec : secondOfCompound src i = false) :
    ∃ r, tokenize (Lexer.new src flag) = some r ∧
      r.tokens.filter (fun t => decide (t.line = lineAt src i ∧ t.column = colAt src i)) =
        [⟨compoundTokenType (charAt src i), substr src i 2, none, lineAt src i, colAt src i⟩] ∧
      r.tokens.filter
        (fun t => decide (t.line = lineAt src (i + 1) ∧ t.column = colAt src (i + 1))) = [] := by
  obtain ⟨r, h1, -, h3, -, -⟩ := tokenize_spec (Lexer.new src flag)
  simp only [Lexer.new] at h3
  obtain ⟨hlt2, -⟩ := (head?_drop_eq_some _ _ _).mp hnext
  have hlt : i < src.length := by omega
  obtain ⟨hpk, -, -, -, -, -, one, hck⟩ := compoundKind_of_mem hc
  have hitem := (compound_start src i hlt hc hnc).1 hsec
  rw [scanHead_compound _ hpk hck, if_pos hnext] at hitem
  simp only at hitem
  have hty : compoundTokenType (charAt src i) ≠ TokenType.NUMBER :=
    (compoundKind_ne_number hck).1
  refine ⟨r, h1, ?_, ?_⟩
  · rw [h3, List.filter_append, filter_eof_at src i hlt, List.append_nil]
    have := tokens_at_item hitem
    simp only at this
    rw [this]
    simp [itemToken, literalOf_ne_number hty]
  · rw [h3, List.filter_append, filter_eof_at src (i + 1) hlt2, List.append_nil]
    apply tokens_at_non_item (Nat.le_of_lt hlt2)
    intro it hit ho
    have hne : it ≠ ⟨i, 2, some (compoundTokenType (charAt src i))⟩ := by
      intro e; rw [e] at ho; simp at ho
    rcases items_disjoint hit hitem hne with hd | hd
    · have := (items_off_lt hit).2.2
      simp only at hd; omega
    · simp only at hd; omega

/-- The hypotheses of `maximal_munch` hold at offset 1 of `a<=b`. -/
theorem maximal_munch_witness :
    ∃ r, tokenize (Lexer.new "a<=b".toList false) = some r ∧
      r.tokens.filter (fun t => decide (t.line = 1 ∧ t.column = 2)) =
        [⟨TokenType.OP_LESS_EQUAL, "<=".toList, none, 1, 2⟩] ∧
      r.tokens.filter (fun t => decide (t.line = 1 ∧ t.column = 3)) = [] :=
  maximal_munch "a<=b".toList false 1 (by decide) (by decide) (by decide) (by decide)

/-- The tokens of a scan, from the evaluation of `tokenize`. -/
theorem tokens_of_eval {s r : Lexer} {ts : List Token}
    (h : (tokenize s).map (fun r => r.tokens) = some ts) (hr : tokenize s = some r) :
    r.tokens = ts := by
  rw [hr] at h
  simpa using h

/-- C4 as stated fails: in `//==` offset 2 holds `=` followed by `=`, yet the
scan emits nothing but the end-of-input token, so no token has the lexeme
`source[2, 4)`. -/
theorem maximal_munch_fails_in_comment :
    charAt "//==".toList 2 = '=' ∧ ("//==".toList.drop 3).head? = some '=' ∧
      (tokenize (Lexer.new "//==".toList false)).map (fun r => r.tokens) =
        some [⟨TokenType.EOF_TOKEN, [], none, 1, 5⟩] ∧
      ¬ ∃ r, tokenize (Lexer.new "//==".toList false) = some r ∧
        ∃ t ∈ r.tokens, t.value = substr "//==".toList 2 2 := by
  have hev : (tokenize (Lexer.new "//==".toList false)).map (fun r => r.tokens) =
      some [⟨TokenType.EOF_TOKEN, [], none, 1, 5⟩] := by decide
  refine ⟨by decide, by decide, hev, ?_⟩
  rintro ⟨r, hr, t, ht, hv⟩
  rw [tokens_of_eval hev hr] at ht
  simp only [List.mem_singleton] at ht
  subst ht
  revert hv
  decide

/-! ## Identifiers and keywords -/

theorem keywordOrIdentifier_eq_kindOfWord (w : List Char) :
    keywordOrIdentifier w = kindOfWord w := by
  rcases keywordOrIdentifier_cases w with h | h | h | h | h | h | h | h | h
  · rw [h.2, h.1]; decide
  · rw [h.2, h.1]; decide
  · rw [h.2, h.1]; decide
  · rw [h.2, h.1]; decide
  · rw [h.2, h.1]; decide
  · rw [h.2, h.1]; decide
  · rw [h.2, h.1]; decide
  · rw [h.2, h.1]; decide
  · obtain ⟨hne, hk⟩ := h
    have h1 := hne ("int".toList, TokenType.KEYWORD_INT) (by simp [keywords])
    have h2 := hne ("void".toList, TokenType.KEYWORD_VOID) (by simp [keywords])
    have h3 := hne ("if".toList, TokenType.KEYWORD_IF) (by simp [keywords])
    have h4 := hne ("else".toList, TokenType.KEYWORD_ELSE) (by simp [keywords])
    have h5 := hne ("while".toList, TokenType.KEYWORD_WHILE) (by simp [keywords])
    have h6 := hne ("return".toList, TokenType.KEYWORD_RETURN) (by simp [keywords])
    have h7 := hne ("input".toList, TokenType.KEYWORD_INPUT) (by simp [keywords])
    have h8 := hne ("output".toList, TokenType.KEYWORD_OUTPUT) (by simp [keywords])
    simp only at h1 h2 h3 h4 h5 h6 h7 h8
    rw [hk, kindOfWord, if_neg h1, if_neg h2, if_neg h3, if_neg h4, if_neg h5, if_neg h6,
      if_neg h7, if_neg h8]

theorem takeWhile_eq_take {α : Type} (p : α → Bool) : ∀ (l : List α) (m : Nat),
    (∀ k, k < m → ∃ x, l[k]? = some x ∧ p x = true) →
    (∀ x, l[m]? = some x → p x = false) → l.takeWhile p = l.take m := by
  intro l
  induction l with
  | nil => intro m _ _; simp
  | cons a t ih =>
    intro m h1 h2
    cases m with
    | zero =>
      have := h2 a (by simp)
      simp [List.takeWhile_cons, this]
    | succ m =>
      obtain ⟨x, hx, hp⟩ := h1 0 (Nat.succ_pos _)
      simp only [List.getElem?_cons_zero, Option.some.injEq] at hx
      subst hx
      rw [List.takeWhile_cons, hp, List.take_succ_cons]
      simp only [if_true]
      congr 1
      apply ih
      · intro k hk
        have := h1 (k + 1) (by omega)
        simpa using this
      · intro x hx
        exact h2 x (by simpa using hx)

theorem alpha_facts {c : Char} (h : isalpha c = true ∨ c = '_') :
    punctKind c = none ∧ compoundKind c = none ∧ isdigit c = false ∧ isBlank c = false ∧
      c ≠ '/' ∧ c ≠ '=' := by
  have hne : ∀ d : Char, (isalpha d = true ∨ d = '_') = False → c ≠ d := by
    intro d hd e
    rw [e, hd] at h
    exact h
  have hp : punctKind c = none := by
    cases hpk : punctKind c with
    | none => rfl
    | some ty =>
      exfalso
      rcases punctKind_cases hpk with e | e | e | e | e | e | e | e | e | e | e | e <;>
        exact hne _ (by decide) e.1
  have hcp : compoundKind c = none := by
    cases hck : compoundKind c with
    | none => rfl
    | some p =>
      exfalso
      obtain ⟨two, one⟩ := p
      rcases compoundKind_cases hck with e | e | e | e <;> exact hne _ (by decide) e.1
  have hd : isdigit c = false := by
    rcases h with h | h
    · simp only [isalpha, Char.isAlpha, Char.isUpper, Char.isLower, Bool.or_eq_true,
        Bool.and_eq_true, decide_eq_true_eq] at h
      simp only [isdigit, Char.isDigit, Bool.and_eq_false_imp, decide_eq_true_eq,
        decide_eq_false_iff_not]
      intro _ h57
      rcases h with h | h
      · exact absurd (Nat.le_trans (show (65 : UInt32).toNat ≤ c.val.toNat from h.1)
          (show c.val.toNat ≤ (57 : UInt32).toNat from h57)) (by decide)
      · exact absurd (Nat.le_trans (show (97 : UInt32).toNat ≤ c.val.toNat from h.1)
          (show c.val.toNat ≤ (57 : UInt32).toNat from h57)) (by decide)
    · subst h; decide
  have hb : isBlank c = false := by
    rw [isBlank_eq_false_iff]
    exact ⟨hne _ (by decide), hne _ (by decide), hne _ (by decide), hne _ (by decide)⟩
  exact ⟨hp, hcp, hd, hb, hne _ (by decide), hne _ (by decide)⟩

/-- C5, amended: every maximal run of alphanumeric characters and underscores
that begins with a letter or an underscore and lies outside every line comment
yields a token whose lexeme is the run, located at the start of the run; its
kind is the keyword's kind when the run is one of the eight reserved words and
`IDENTIFIER` otherwise. -/
theorem keyword_identifier_law (src : List Char) (flag : Bool) (i n : Nat)
    (hrun : IsMaximalIdRun src i n)
    (hfirst : isalpha (charAt src i) = true ∨ charAt src i = '_')
    (hnc : ¬ InComment src i) :
    ∃ r, tokenize (Lexer.new src flag) = some r ∧
      (⟨kindOfWord (substr src i n), substr src i n, none, lineAt src i, colAt src i⟩ : Token) ∈
        r.tokens := by
  obtain ⟨r, h1, -, h3, -, -⟩ := tokenize_spec (Lexer.new src flag)
  simp only [Lexer.new] at h3
  obtain ⟨hn, hle, hchars, hleft, hright⟩ := hrun
  have hlt : i < src.length := by omega
  obtain ⟨hpk, hck, hdg, hb, hs, he⟩ := alpha_facts hfirst
  have hid := isIdChar_of_isalpha hfirst
  have hitem : (⟨i, (scanHead (charAt src i) (src.drop (i + 1))).1,
      (scanHead (charAt src i) (src.drop (i + 1))).2⟩ : Item) ∈ items src := by
    refine item_at_source hlt hb (fun h => hs h.1) hnc ?_
    intro it hit ⟨h1, h2⟩
    obtain ⟨q, hq⟩ := Nat.exists_eq_add_of_le (Nat.le_of_lt h1)
    rcases item_chars hit (by omega) with ⟨hl, he', -⟩ | ⟨-, hdig⟩ | ⟨-, hidc⟩
    · have hq1 : i = it.off + 1 := by omega
      rw [← hq1] at he'
      exact he he'
    · have := hdig q (by omega)
      rw [← hq, hdg] at this
      exact absurd this (by simp)
    · have := hidc (q - 1) (by omega)
      have e : it.off + (q - 1) = i - 1 := by omega
      rw [e] at this
      rcases hleft with h0 | h0
      · omega
      · rw [h0] at this; exact absurd this (by simp)
  have htw : (src.drop (i + 1)).takeWhile isIdChar = (src.drop (i + 1)).take (n - 1) := by
    apply takeWhile_eq_take
    · intro k hk
      refine ⟨_, getElem?_drop_of_lt src (i + 1) k (by omega), ?_⟩
      have := hchars (k + 1) (by omega)
      have e : i + (k + 1) = i + 1 + k := by omega
      rwa [e] at this
    · intro x hx
      rw [List.getElem?_drop] at hx
      have hlt2 : i + 1 + (n - 1) < src.length := by
        by_contra hge
        rw [List.getElem?_eq_none (by omega)] at hx
        exact absurd hx (by simp)
      have e : i + 1 + (n - 1) = i + n := by omega
      rw [e] at hx hlt2
      rcases hright with h0 | h0
      · omega
      · have hx2 : src[i + n]? = some (charAt src (i + n)) := by
          rw [charAt, List.getD_eq_getElem _ _ hlt2, List.getElem?_eq_getElem hlt2]
        rw [hx2] at hx
        rw [← Option.some.inj hx]; exact h0
  have hlen : ((src.drop (i + 1)).take (n - 1)).length = n - 1 := by
    rw [List.length_take, List.length_drop]; omega
  have htext : substr src i n = charAt src i :: (src.drop (i + 1)).take (n - 1) := by
    obtain ⟨m, rfl⟩ : ∃ m, n = m + 1 := ⟨n - 1, by omega⟩
    rw [substr, drop_eq_charAt_cons src i hlt, List.take_succ_cons]
    rfl
  rw [scanHead_other _ hpk hck, if_neg (by simp [hdg]), if_pos hfirst, htw, hlen, ← htext,
    keywordOrIdentifier_eq_kindOfWord] at hitem
  simp only at hitem
  refine ⟨r, h1, ?_⟩
  rw [h3]
  apply List.mem_append_left
  have hne : kindOfWord (substr src i n) ≠ TokenType.NUMBER := by
    rw [← keywordOrIdentifier_eq_kindOfWord]; exact keywordOrIdentifier_ne_number _
  have e1 : 1 + (n - 1) = n := by omega
  simp only [tokensOf, List.mem_filterMap]
  exact ⟨_, hitem, by simp [itemToken, e1, literalOf_ne_number hne]⟩

/-- The hypotheses of `keyword_identifier_law` hold of the run `while` at
offset 2 of the source `; while(x)`. -/
theorem keyword_identifier_law_witness :
    ∃ r, tokenize (Lexer.new "; while(x)".toList false) = some r ∧
      (⟨TokenType.KEYWORD_WHILE, "while".toList, none, 1, 3⟩ : Token) ∈ r.tokens :=
  keyword_identifier_law "; while(x)".toList false 2 5 (by decide) (by decide) (by decide)

/-- C5 as stated fails: the source `1` is one maximal alphanumeric run, not a
reserved word, and the scan emits a `NUMBER` token and no `IDENTIFIER`
token. -/
theorem keyword_identifier_law_fails_on_digits :
    IsMaximalIdRun "1".toList 0 1 ∧
      (tokenize (Lexer.new "1".toList false)).map (fun r => r.tokens) =
        some [⟨TokenType.NUMBER, "1".toList, some 1, 1, 1⟩,
          ⟨TokenType.EOF_TOKEN, [], none, 1, 2⟩] ∧
      ¬ ∃ r, tokenize (Lexer.new "1".toList false) = some r ∧
        ∃ t ∈ r.tokens, t.type = kindOfWord (substr "1".toList 0 1) ∧
          t.value = substr "1".toList 0 1 := by
  have hev : (tokenize (Lexer.new "1".toList false)).map (fun r => r.tokens) =
      some [⟨TokenType.NUMBER, "1".toList, some 1, 1, 1⟩,
        ⟨TokenType.EOF_TOKEN, [], none, 1, 2⟩] := by decide
  refine ⟨by decide, hev, ?_⟩
  rintro ⟨r, hr, t, ht, hty, hv⟩
  rw [tokens_of_eval hev hr] at ht
  simp only [List.mem_cons, List.mem_singleton, List.not_mem_nil, or_false] at ht
  rcases ht with rfl | rfl
  · revert hty; decide
  · revert hv; decide

/-! ## Unexpected characters -/

theorem sorted_lt_ext {l₁ l₂ : List Nat} (h₁ : l₁.Pairwise (· < ·)) (h₂ : l₂.Pairwise (· < ·))
    (h : ∀ x, x ∈ l₁ ↔ x ∈ l₂) : l₁ = l₂ := by
  have hp : l₁.Perm l₂ := (List.perm_ext_iff_of_nodup h₁.nodup h₂.nodup).mpr h
  have s₁ : l₁.Sorted (· ≤ ·) := h₁.imp Nat.le_of_lt
  have s₂ : l₂.Sorted (· ≤ ·) := h₂.imp Nat.le_of_lt
  exact List.eq_of_perm_of_sorted hp s₁ s₂

/-- What an invalid character is for the scan: a character that starts an item
without token, one character long, and that cannot be inside a longer item. -/
theorem bad_facts {src : List Char} {i : Nat} (h : isBadAt src i = true) :
    isBlank (charAt src i) = false ∧ charAt src i ≠ '/' ∧ charAt src i ≠ '=' ∧
      isdigit (charAt src i) = false ∧ isIdChar (charAt src i) = false ∧
      scanHead (charAt src i) (src.drop (i + 1)) = (1, none) := by
  simp only [isBadAt, Bool.or_eq_true, Bool.not_eq_true', Bool.and_eq_true,
    decide_eq_true_eq] at h
  rcases h with h | ⟨h1, h2⟩
  · simp only [inAlphabet, List.mem_cons, List.mem_singleton, List.not_mem_nil, or_false,
      decide_eq_false_iff_not, not_or] at h
    obtain ⟨ha, hd, hu, hsp, htab, hcr, hnl, p1, p2, p3, p4, p5, p6, p7, p8, p9, p10, p11, p12,
      q1, q2, q3, q4⟩ := h
    have hpk : punctKind (charAt src i) = none := by
      rw [punctKind, if_neg p1, if_neg p2, if_neg p3, if_neg p4, if_neg p5, if_neg p6,
        if_neg p7, if_neg p8, if_neg p9, if_neg p10, if_neg p11, if_neg p12]
    have hck : compoundKind (charAt src i) = none := by
      rw [compoundKind, if_neg q4, if_neg q1, if_neg q2, if_neg q3]
    have hal : ¬ (isalpha (charAt src i) = true ∨ charAt src i = '_') := by
      rintro (h | h)
      · exact ha h
      · exact hu h
    refine ⟨(isBlank_eq_false_iff _).mpr ⟨hsp, hcr, htab, hnl⟩, p12, q1, by simpa using hd, ?_, ?_⟩
    · simp only [isalpha] at ha
      simp only [isdigit] at hd
      simp [isIdChar, isalnum, Char.isAlphanum, ha, hd, hu]
    · rw [scanHead_other _ hpk hck, if_neg hd, if_neg hal]
  · have hh : ¬ (src.drop (i + 1)).head? = some '=' := by simpa using h2
    rw [h1]
    refine ⟨by decide, by decide, by decide, by decide, by decide, ?_⟩
    have hck : compoundKind '!' = some (TokenType.OP_NOT_EQUAL, none) := by decide
    rw [scanHead_compound _ (by decide) hck, if_neg hh]

theorem not_InComment_of_no_slash {src : List Char} (h : '/' ∉ src) (i : Nat) :
    ¬ InComment src i := by
  rintro ⟨k, -, h1, -, -⟩
  by_cases hk : k < src.length
  · apply h
    rw [← h1, charAt, List.getD_eq_getElem _ _ hk]
    exact List.getElem_mem _
  · rw [charAt, List.getD_eq_default _ _ (by omega)] at h1
    exact absurd h1 (by decide)

/-- In a source without `/`, the items without token are the invalid
characters. -/
theorem bad_items_eq {src : List Char} (hno : '/' ∉ src) :
    ((items src).filter (fun it => it.kind.isNone)).map Item.off =
      (List.range src.length).filter (isBadAt src) := by
  apply sorted_lt_ext
  · rw [List.pairwise_map]
    exact (items_pairwise_lt src).filter _
  · exact (List.pairwise_lt_range _).filter _
  · intro i
    simp only [List.mem_map, List.mem_filter, List.mem_range, Option.isNone_iff_eq_none]
    constructor
    · rintro ⟨it, ⟨hit, hk⟩, rfl⟩
      exact ⟨(items_off_lt hit).1, (isBadAt_of_kind_none hit hk).1⟩
    · rintro ⟨hlt, hbad⟩
      obtain ⟨hb, hs, he, hd, hid, hsh⟩ := bad_facts hbad
      have hitem := item_at_source hlt hb (fun h => hs h.1) (not_InComment_of_no_slash hno i) (by
        intro it hit ⟨h1, h2⟩
        obtain ⟨q, hq⟩ := Nat.exists_eq_add_of_le (Nat.le_of_lt h1)
        rcases item_chars hit (by omega) with ⟨hl, he', -⟩ | ⟨-, hdig⟩ | ⟨-, hidc⟩
        · have hq1 : i = it.off + 1 := by omega
          rw [← hq1] at he'
          exact he he'
        · have := hdig q (by omega)
          rw [← hq, hd] at this
          exact absurd this (by simp)
        · have := hidc q (by omega)
          rw [← hq, hid] at this
          exact absurd this (by simp))
      rw [hsh] at hitem
      exact ⟨_, ⟨hitem, rfl⟩, rfl⟩

theorem isUnexpectedCharacter_unexpectedMessage (l c : Nat) (x : Char) :
    isUnexpectedCharacter ⟨l, c, unexpectedMessage x⟩ = true := by
  by_cases h : x = '!'
  · simp only [isUnexpectedCharacter, unexpectedMessage, if_pos h]
    rfl
  · simp only [isUnexpectedCharacter, unexpectedMessage, if_neg h]
    rfl

theorem unexpected_diags_of_items (src : List Char) : ∀ its : List Item,
    ((diagsOf src its).filter isUnexpectedCharacter).map (fun d => (d.line, d.column)) =
      ((its.filter (fun it => it.kind.isNone)).map Item.off).map
        (fun i => (lineAt src i, colAt src i)) := by
  intro its
  induction its with
  | nil => simp [diagsOf]
  | cons it its ih =>
    rw [diagsOf_cons, List.filter_append, List.map_append, ih]
    cases hk : it.kind with
    | none =>
      simp [itemDiag, hk, List.filter_cons, isUnexpectedCharacter_unexpectedMessage]
    | some ty =>
      have hnil : ((itemDiag src it).toList.filter isUnexpectedCharacter) = [] := by
        simp only [itemDiag, hk]
        split_ifs with hty
        · cases hs : stoi (substr src it.off it.len) with
          | ok v => simp [numberMessage, hs]
          | out_of_range =>
            simp only [numberMessage, hs, Option.map_some', Option.toList_some,
              List.filter_eq_nil_iff, List.mem_singleton, forall_eq]
            simp [isUnexpectedCharacter, List.isPrefixOf]
          | invalid_argument =>
            simp only [numberMessage, hs, Option.map_some', Option.toList_some,
              List.filter_eq_nil_iff, List.mem_singleton, forall_eq]
            simp [isUnexpectedCharacter, List.isPrefixOf]
        · simp
      rw [hnil]
      simp [List.filter_cons, hk]

/-- C10: in a source without `/`, the unexpected-character diagnostics are, in
source order, exactly one per invalid character (a character outside the
recognised alphabet, or a `!` not immediately followed by `=`), each with the
line and column of that character. -/
theorem unexpected_character_diagnostics (src : List Char) (flag : Bool) (hno : '/' ∉ src) :
    ∃ r, tokenize (Lexer.new src flag) = some r ∧
      (r.cerr.filter isUnexpectedCharacter).map (fun d => (d.line, d.column)) =
        ((List.range src.length).filter (isBadAt src)).map
          (fun i => (lineAt src i, colAt src i)) := by
  obtain ⟨r, h1, -, -, h4, -⟩ := tokenize_spec (Lexer.new src flag)
  simp only [Lexer.new, List.nil_append] at h4
  refine ⟨r, h1, ?_⟩
  rw [h4, unexpected_diags_of_items, bad_items_eq hno]

/-- The hypothesis of `unexpected_character_diagnostics` holds of the source
`a ! @b`, whose two invalid characters are reported at columns 3 and 5. -/
theorem unexpected_character_diagnostics_witness :
    ∃ r, tokenize (Lexer.new "a ! @b".toList false) = some r ∧
      (r.cerr.filter isUnexpectedCharacter).map (fun d => (d.line, d.column)) =
        [(1, 3), (1, 5)] :=
  unexpected_character_diagnostics "a ! @b".toList false (by decide)

/-! ## Changing the text after an item -/

theorem takeWhile_append_sep {α : Type} (p : α → Bool) (a b : List α) (y : α)
    (hy : p y = false) : (a ++ y :: b).takeWhile p = a.takeWhile p := by
  induction a with
  | nil => simp [List.takeWhile_cons, hy]
  | cons x xs ih =>
    simp only [List.cons_append, List.takeWhile_cons]
    split_ifs
    · rw [ih]
    · rfl

theorem head?_append_sep (a b : List Char) (y : Char) (hy : y ≠ '=') :
    ((a ++ y :: b).head? = some '=') ↔ (a.head? = some '=') := by
  cases a with
  | nil => simp [hy]
  | cons x xs => simp

/-- The item at the head of a text does not depend on what follows a
separator. -/
theorem scanHead_append_sep (c : Char) (a b : List Char) (y : Char) (hy : IsSep y) :
    scanHead c (a ++ y :: b) = scanHead c a := by
  obtain ⟨h1, h2, h3⟩ := hy
  cases hpk : punctKind c with
  | some ty => rw [scanHead_punct _ hpk, scanHead_punct _ hpk]
  | none =>
    cases hck : compoundKind c with
    | some p =>
      obtain ⟨two, one⟩ := p
      rw [scanHead_compound _ hpk hck, scanHead_compound _ hpk hck]
      simp only [head?_append_sep a b y h1]
    | none =>
      rw [scanHead_other _ hpk hck, scanHead_other _ hpk hck,
        takeWhile_append_sep _ a b y h2, takeWhile_append_sep _ a b y h3]

theorem scanHead_len_le_of_sep (c : Char) (a : List Char) :
    (scanHead c a).1 - 1 ≤ a.length := by
  have := scanHead_len_le c a
  omega

theorem isSep_space : IsSep ' ' := ⟨by decide, by decide, by decide⟩

theorem isSep_newline : IsSep '\n' := ⟨by decide, by decide, by decide⟩

theorem isSep_slash : IsSep '/' := ⟨by decide, by decide, by decide⟩

theorem commentLen_append_of_mem (a b : List Char) (h : '\n' ∈ a) :
    commentLen (a ++ b) = commentLen a ∧ commentLen a < a.length := by
  induction a with
  | nil => simp at h
  | cons x xs ih =>
    by_cases hx : x = '\n'
    · simp [commentLen, hx]
    · have hmem : '\n' ∈ xs := by
        rcases List.mem_cons.mp h with h | h
        · exact absurd h.symm hx
        · exact h
      obtain ⟨h1, h2⟩ := ih hmem
      simp only [List.cons_append, commentLen_cons, if_neg hx, List.length_cons]
      omega

theorem commentLen_of_not_mem (a : List Char) (h : '\n' ∉ a) : commentLen a = a.length := by
  induction a with
  | nil => rfl
  | cons x xs ih =>
    have hx : x ≠ '\n' := fun e => h (by simp [e])
    have hxs : '\n' ∉ xs := fun e => h (List.mem_cons_of_mem _ e)
    rw [commentLen_cons, if_neg hx, ih hxs, List.length_cons, Nat.add_comm]

theorem commentLen_append_of_not_mem (a b : List Char) (h : '\n' ∉ a) :
    commentLen (a ++ b) = a.length + commentLen b := by
  induction a with
  | nil => simp
  | cons x xs ih =>
    have hx : x ≠ '\n' := fun e => h (by simp [e])
    have hxs : '\n' ∉ xs := fun e => h (List.mem_cons_of_mem _ e)
    simp only [List.cons_append, commentLen_cons, if_neg hx, ih hxs, List.length_cons]
    omega

theorem bad_head_facts {x : Char} {b : List Char} (h : isBadAt (x :: b) 0 = true) :
    isBlank x = false ∧ x ≠ '/' ∧ x ≠ '\n' ∧ IsSep x ∧ scanHead x b = (1, none) := by
  obtain ⟨h1, h2, h3, h4, h5, h6⟩ := bad_facts h
  simp only [charAt, List.getD_cons_zero, Nat.zero_add, List.drop_succ_cons, List.drop_zero] at *
  exact ⟨h1, h2, ((isBlank_eq_false_iff _).mp h1).2.2.2, ⟨h3, h4, h5⟩, h6⟩

/-- Replacing an invalid character by a space does not change the items that
carry a token. -/
theorem lexFrom_replace_bad : ∀ (off : Nat) (cs : List Char) (a : List Char) (x : Char)
    (b : List Char), cs = a ++ x :: b → isBadAt (x :: b) 0 = true →
    (lexFrom off cs).filter (fun it => it.kind.isSome) =
      (lexFrom off (a ++ ' ' :: b)).filter (fun it => it.kind.isSome) := by
  intro off cs
  induction off, cs using lex_induction with
  | nil off => intro a x b h; simp at h
  | blank off c r hb ih =>
    intro a x b hcs hbad
    obtain ⟨hxb, -, -, -, -⟩ := bad_head_facts hbad
    cases a with
    | nil =>
      simp only [List.nil_append, List.cons.injEq] at hcs
      rw [hcs.1, hxb] at hb
      exact absurd hb (by simp)
    | cons a0 a' =>
      simp only [List.cons_append, List.cons.injEq] at hcs
      obtain ⟨rfl, rfl⟩ := hcs
      rw [lexFrom_blank _ _ _ hb, List.cons_append, lexFrom_blank _ _ _ hb]
      exact ih a' x b rfl hbad
  | comment off r ih =>
    intro a x b hcs hbad
    obtain ⟨-, hxs, hxn, -, -⟩ := bad_head_facts hbad
    cases a with
    | nil =>
      simp only [List.nil_append, List.cons.injEq] at hcs
      exact absurd hcs.1.symm hxs
    | cons a0 a' =>
      cases a' with
      | nil =>
        simp only [List.cons_append, List.nil_append, List.cons.injEq] at hcs
        exact absurd hcs.2.1.symm hxs
      | cons a1 a'' =>
        simp only [List.cons_append, List.cons.injEq] at hcs
        obtain ⟨rfl, rfl, rfl⟩ := hcs
        simp only [List.cons_append]
        rw [lexFrom_comment, lexFrom_comment]
        by_cases hmem : '\n' ∈ a''
        · obtain ⟨e1, hlt⟩ := commentLen_append_of_mem a'' (x :: b) hmem
          obtain ⟨e2, -⟩ := commentLen_append_of_mem a'' (' ' :: b) hmem
          have hd1 : (a'' ++ x :: b).drop (commentLen (a'' ++ x :: b)) =
              a''.drop (commentLen a'') ++ x :: b := by
            rw [e1, List.drop_append_of_le_length (Nat.le_of_lt hlt)]
          have ihx := ih _ x b hd1 hbad
          rw [ihx, e1, e2, List.drop_append_of_le_length (Nat.le_of_lt hlt)]
        · have e1 := commentLen_append_of_not_mem a'' (x :: b) hmem
          have e2 := commentLen_append_of_not_mem a'' (' ' :: b) hmem
          rw [commentLen_cons, if_neg hxn] at e1
          rw [commentLen_cons, if_neg (by decide)] at e2
          rw [e1, e2]
          have d1 : (a'' ++ x :: b).drop (a''.length + (1 + commentLen b)) =
              b.drop (commentLen b) := by
            rw [← List.drop_drop, List.drop_left, Nat.add_comm 1]; rfl
          have d2 : (a'' ++ ' ' :: b).drop (a''.length + (1 + commentLen b)) =
              b.drop (commentLen b) := by
            rw [← List.drop_drop, List.drop_left, Nat.add_comm 1]; rfl
          rw [d1, d2]
  | item off c r hb hc ih =>
    intro a x b hcs hbad
    obtain ⟨-, hxs, -, hsep, hsh⟩ := bad_head_facts hbad
    cases a with
    | nil =>
      simp only [List.nil_append, List.cons.injEq] at hcs
      obtain ⟨rfl, rfl⟩ := hcs
      rw [lexFrom_item _ _ _ hb hc, hsh, List.nil_append,
        lexFrom_blank _ _ _ (by decide : isBlank ' ' = true)]
      simp [List.filter_cons]
    | cons a0 a' =>
      simp only [List.cons_append, List.cons.injEq] at hcs
      obtain ⟨rfl, rfl⟩ := hcs
      have hc2 : ¬ (c = '/' ∧ (a' ++ ' ' :: b).head? = some '/') := by
        intro ⟨h1, h2⟩
        apply hc
        refine ⟨h1, ?_⟩
        cases a' with
        | nil => simp at h2
        | cons y ys => simpa using h2
      have hle := scanHead_len_le_of_sep c a'
      have hd1 : (a' ++ x :: b).drop ((scanHead c (a' ++ x :: b)).1 - 1) =
          a'.drop ((scanHead c a').1 - 1) ++ x :: b := by
        rw [scanHead_append_sep c a' b x hsep, List.drop_append_of_le_length hle]
      have ihx := ih _ x b hd1 hbad
      rw [hd1, scanHead_append_sep c a' b x hsep] at ihx
      rw [lexFrom_item _ _ _ hb hc, List.cons_append, lexFrom_item _ _ _ hb hc2,
        scanHead_append_sep c a' b x hsep, scanHead_append_sep c a' b ' ' isSep_space,
        List.drop_append_of_le_length hle, List.drop_append_of_le_length hle,
        List.filter_cons, List.filter_cons, ihx]

/-! ## Rendering the same items in two sources -/

theorem tokensOf_filter (src : List Char) (its : List Item) :
    tokensOf src (its.filter (fun it => it.kind.isSome)) = tokensOf src its := by
  induction its with
  | nil => rfl
  | cons it its ih =>
    cases hk : it.kind with
    | none =>
      have h1 : itemToken src it = none := by simp [itemToken, hk]
      simp only [List.filter_cons, hk, Option.isSome_none, Bool.false_eq_true, if_false, ih,
        tokensOf_cons, h1, Option.toList_none, List.nil_append]
    | some ty =>
      simp only [List.filter_cons, hk, Option.isSome_some, if_true, tokensOf_cons, ih]

theorem tokensOf_congr {src1 src2 : List Char} {its : List Item}
    (h : ∀ it ∈ its, itemToken src1 it = itemToken src2 it) :
    tokensOf src1 its = tokensOf src2 its := by
  induction its with
  | nil => rfl
  | cons it its ih =>
    rw [tokensOf_cons, tokensOf_cons, h it (List.mem_cons_self _ _),
      ih (fun x hx => h x (List.mem_cons_of_mem _ hx))]

theorem itemToken_congr {src1 src2 : List Char} {it : Item}
    (h1 : substr src1 it.off it.len = substr src2 it.off it.len)
    (h2 : lineAt src1 it.off = lineAt src2 it.off)
    (h3 : col0 src1 it.off = col0 src2 it.off) :
    itemToken src1 it = itemToken src2 it := by
  simp only [itemToken, colAt, h1, h2, h3]

/-- Two texts of the same length with newlines at the same offsets give the
same line and column to every offset. -/
theorem pos_congr (src1 src2 : List Char) (hlen : src1.length = src2.length)
    (hnl : ∀ q, q < src1.length → (charAt src1 q = '\n' ↔ charAt src2 q = '\n')) :
    ∀ o, o ≤ src1.length → lineAt src1 o = lineAt src2 o ∧ col0 src1 o = col0 src2 o := by
  intro o
  induction o with
  | zero => intro _; simp [lineAt_zero, col0_zero]
  | succ o ih =>
    intro ho
    obtain ⟨h1, h2⟩ := ih (by omega)
    by_cases hc : charAt src1 o = '\n'
    · have hc2 := (hnl o (by omega)).mp hc
      rw [lineAt_succ_newline src1 o (by omega) hc, lineAt_succ_newline src2 o (by omega) hc2,
        col0_succ_newline src1 o (by omega) hc, col0_succ_newline src2 o (by omega) hc2, h1]
      exact ⟨rfl, rfl⟩
    · have hc2 : charAt src2 o ≠ '\n' := fun h => hc ((hnl o (by omega)).mpr h)
      rw [lineAt_succ_other src1 o (by omega) hc, lineAt_succ_other src2 o (by omega) hc2,
        col0_succ_other src1 o (by omega) hc, col0_succ_other src2 o (by omega) hc2, h1, h2]
      exact ⟨rfl, rfl⟩

theorem charAt_append_left (a b : List Char) (q : Nat) (h : q < a.length) :
    charAt (a ++ b) q = charAt a q := by
  simp [charAt, List.getD_eq_getElem?_getD, List.getElem?_append_left h]

theorem charAt_append_right (a b : List Char) (q : Nat) :
    charAt (a ++ b) (a.length + q) = charAt b q := by
  simp [charAt, List.getD_eq_getElem?_getD, List.getElem?_append_right]

theorem substr_append_left (a b : List Char) (off len : Nat) (h : off + len ≤ a.length) :
    substr (a ++ b) off len = substr a off len := by
  rw [substr, substr, List.drop_append_of_le_length (by omega),
    List.take_append_of_le_length (by rw [List.length_drop]; omega)]

theorem substr_append_right (a b : List Char) (off len : Nat) :
    substr (a ++ b) (a.length + off) len = substr b off len := by
  rw [substr, substr, List.drop_append]

/-- C8: replacing an invalid character (one outside the recognised alphabet, or
a `!` not immediately followed by `=`) by a space leaves the whole token
sequence unchanged, end-of-input token included. -/
theorem resync_after_invalid_character (src : List Char) (flag : Bool) (i : Nat)
    (hi : i < src.length) (hbad : isBadAt src i = true) :
    ∃ r1 r2, tokenize (Lexer.new src flag) = some r1 ∧
      tokenize (Lexer.new (src.set i ' ') flag) = some r2 ∧ r1.tokens = r2.tokens := by
  obtain ⟨r1, h1, -, h13, -, -⟩ := tokenize_spec (Lexer.new src flag)
  obtain ⟨r2, h2, -, h23, -, -⟩ := tokenize_spec (Lexer.new (src.set i ' ') flag)
  simp only [Lexer.new] at h13 h23
  refine ⟨r1, r2, h1, h2, ?_⟩
  rw [h13, h23]
  -- the two sources
  obtain ⟨a, x, b, rfl, rfl⟩ : ∃ a x b, src = a ++ x :: b ∧ i = a.length :=
    ⟨src.take i, charAt src i, src.drop (i + 1), by
      rw [← drop_eq_charAt_cons src i hi, List.take_append_drop], by
      rw [List.length_take]; omega⟩
  have hset : (a ++ x :: b).set a.length ' ' = a ++ ' ' :: b := by
    simp
  rw [hset]
  have hbad0 : isBadAt (x :: b) 0 = true := by
    have e1 : charAt (a ++ x :: b) a.length = x := by
      have := charAt_append_right a (x :: b) 0
      simpa [charAt] using this
    have e2 : (a ++ x :: b).drop (a.length + 1) = b := by
      rw [← List.drop_drop, List.drop_left]; rfl
    simp only [isBadAt, e1, e2] at hbad
    simpa [isBadAt, charAt] using hbad
  obtain ⟨hxb, hxs, hxn, hsep, hsh⟩ := bad_head_facts hbad0
  have hlen : (a ++ x :: b).length = (a ++ ' ' :: b).length := by simp
  have hnl : ∀ q, q < (a ++ x :: b).length →
      (charAt (a ++ x :: b) q = '\n' ↔ charAt (a ++ ' ' :: b) q = '\n') := by
    intro q _
    rcases Nat.lt_trichotomy q a.length with hq | hq | hq
    · rw [charAt_append_left _ _ _ hq, charAt_append_left _ _ _ hq]
    · subst hq
      have e1 := charAt_append_right a (x :: b) 0
      have e2 := charAt_append_right a (' ' :: b) 0
      simp only [Nat.add_zero] at e1 e2
      rw [e1, e2]
      simp [charAt, hxn]
    · obtain ⟨k, rfl⟩ := Nat.exists_eq_add_of_lt hq
      have e1 := charAt_append_right a (x :: b) (k + 1)
      have e2 := charAt_append_right a (' ' :: b) (k + 1)
      have e : a.length + k + 1 = a.length + (k + 1) := by omega
      rw [e, e1, e2]
      simp [charAt]
  have hpos := pos_congr _ _ hlen hnl
  have hitems := lexFrom_replace_bad 0 (a ++ x :: b) a x b rfl hbad0
  have htok : tokensOf (a ++ x :: b) (items (a ++ x :: b)) =
      tokensOf (a ++ ' ' :: b) (items (a ++ ' ' :: b)) := by
    rw [← tokensOf_filter (a ++ x :: b), ← tokensOf_filter (a ++ ' ' :: b)]
    simp only [items]
    rw [← hitems]
    apply tokensOf_congr
    intro it hit
    obtain ⟨hit, hk⟩ := List.mem_filter.mp hit
    obtain ⟨hlt, hle, hl1⟩ := items_off_lt hit
    obtain ⟨hp1, hp2⟩ := hpos it.off (Nat.le_of_lt hlt)
    refine itemToken_congr ?_ hp1 hp2
    -- the item does not cover the replaced character
    have hcover : it.off + it.len ≤ a.length ∨ a.length < it.off := by
      by_contra hcon
      have h1 : it.off ≤ a.length := by omega
      have h2 : a.length < it.off + it.len := by omega
      have ex : charAt (a ++ x :: b) a.length = x := by
        have := charAt_append_right a (x :: b) 0
        simpa [charAt] using this
      rcases Nat.eq_or_lt_of_le h1 with h0 | h0
      · obtain ⟨c, r, hd, -, hkind, -, -, -⟩ := item_text hit
        rw [h0, List.drop_left] at hd
        obtain ⟨rfl, rfl⟩ := List.cons.inj hd
        rw [hkind, hsh] at hk
        simp at hk
      · obtain ⟨q, hq⟩ := Nat.exists_eq_add_of_le (Nat.le_of_lt h0)
        rcases item_chars hit (by omega) with ⟨hl, he', -⟩ | ⟨-, hdig⟩ | ⟨-, hidc⟩
        · have hq1 : a.length = it.off + 1 := by omega
          rw [← hq1, ex] at he'
          exact hsep.1 he'
        · have := hdig q (by omega)
          rw [← hq, ex, hsep.2.1] at this
          exact absurd this (by simp)
        · have := hidc q (by omega)
          rw [← hq, ex, hsep.2.2] at this
          exact absurd this (by simp)
    rcases hcover with hc | hc
    · rw [substr_append_left _ _ _ _ hc, substr_append_left _ _ _ _ hc]
    · obtain ⟨k, hk'⟩ := Nat.exists_eq_add_of_lt hc
      have e : it.off = a.length + (k + 1) := by omega
      rw [e, substr_append_right, substr_append_right]
      simp [substr]
  have heof : eofToken (a ++ x :: b) = eofToken (a ++ ' ' :: b) := by
    obtain ⟨hp1, hp2⟩ := hpos (a ++ x :: b).length (le_refl _)
    simp only [eofToken, colAt, ← hlen, hp1, hp2]
  rw [htok, heof]

/-- The hypotheses of `resync_after_invalid_character` hold at offset 4 of
`int @foo;`. -/
theorem resync_after_invalid_character_witness :
    ∃ r1 r2, tokenize (Lexer.new "int @foo;".toList false) = some r1 ∧
      tokenize (Lexer.new ("int @foo;".toList.set 4 ' ') false) = some r2 ∧
      r1.tokens = r2.tokens :=
  resync_after_invalid_character "int @foo;".toList false 4 (by decide) (by decide)

/-! ## Cutting a text at a newline or at a comment -/

theorem commentLen_append_newline (r b : List Char) :
    commentLen (r ++ '\n' :: b) = commentLen r := by
  by_cases hmem : '\n' ∈ r
  · exact (commentLen_append_of_mem r _ hmem).1
  · rw [commentLen_append_of_not_mem r _ hmem, commentLen_of_not_mem r hmem]
    simp [commentLen]

theorem not_comment_start_append (c : Char) (r : List Char) (y : Char) (t : List Char)
    (hc : ¬ (c = '/' ∧ r.head? = some '/')) (hy : r = [] → ¬ (c = '/' ∧ y = '/')) :
    ¬ (c = '/' ∧ (r ++ y :: t).head? = some '/') := by
  intro ⟨h1, h2⟩
  cases r with
  | nil => exact hy rfl ⟨h1, by simpa using h2⟩
  | cons z zs => exact hc ⟨h1, by simpa using h2⟩

/-- The items of a text that is cut by a newline are the items before the
newline followed by the items after it. -/
theorem lexFrom_newline_cut (b : List Char) : ∀ (off : Nat) (a : List Char),
    lexFrom off (a ++ '\n' :: b) = lexFrom off a ++ lexFrom (off + a.length + 1) b := by
  intro off a
  induction off, a using lex_induction with
  | nil off =>
    rw [List.nil_append, lexFrom_blank _ _ _ (by decide : isBlank '\n' = true), lexFrom_nil]
    rfl
  | blank off c r hb ih =>
    rw [List.cons_append, lexFrom_blank _ _ _ hb, lexFrom_blank _ _ _ hb, ih]
    congr 2
    simp only [List.length_cons]; omega
  | comment off r ih =>
    have hle := commentLen_le r
    rw [List.cons_append, List.cons_append, lexFrom_comment, lexFrom_comment,
      commentLen_append_newline, List.drop_append_of_le_length hle, ih]
    congr 2
    simp only [List.length_cons, List.length_drop]; omega
  | item off c r hb hc ih =>
    have hc2 := not_comment_start_append c r '\n' b hc (fun _ h => absurd h.2 (by decide))
    have hle := scanHead_len_le_of_sep c r
    have hle2 := scanHead_len_le c r
    rw [List.cons_append, lexFrom_item _ _ _ hb hc2, lexFrom_item _ _ _ hb hc,
      scanHead_append_sep c r b '\n' isSep_newline, List.drop_append_of_le_length hle, ih,
      List.cons_append]
    congr 3
    simp only [List.length_cons, List.length_drop]
    have := scanHead_len_pos c r
    omega

/-- A line comment appended to a text that does not end with the division
operator adds no item. -/
theorem lexFrom_comment_tail (c : List Char) (hc : '\n' ∉ c) : ∀ (off : Nat) (a : List Char),
    (a ≠ [] → (⟨off + a.length - 1, 1, some TokenType.OP_DIVIDE⟩ : Item) ∉ lexFrom off a) →
    lexFrom off (a ++ '/' :: '/' :: c) = lexFrom off a := by
  intro off a
  induction off, a using lex_induction with
  | nil off =>
    intro _
    rw [List.nil_append, lexFrom_comment, commentLen_of_not_mem c hc, List.drop_length,
      lexFrom_nil, lexFrom_nil]
  | blank off c0 r hb ih =>
    intro H
    rw [List.cons_append, lexFrom_blank _ _ _ hb, lexFrom_blank _ _ _ hb]
    apply ih
    intro hr
    have := H (by simp)
    rw [lexFrom_blank _ _ _ hb] at this
    have e : off + 1 + r.length - 1 = off + (c0 :: r).length - 1 := by
      simp only [List.length_cons]; omega
    rw [e]; exact this
  | comment off r ih =>
    intro H
    rw [List.cons_append, List.cons_append, lexFrom_comment, lexFrom_comment]
    by_cases hmem : '\n' ∈ r
    · obtain ⟨e1, hlt⟩ := commentLen_append_of_mem r ('/' :: '/' :: c) hmem
      rw [e1, List.drop_append_of_le_length (Nat.le_of_lt hlt)]
      apply ih
      intro _
      have := H (by simp)
      rw [lexFrom_comment] at this
      have e : off + 2 + commentLen r + (r.drop (commentLen r)).length - 1 =
          off + ('/' :: '/' :: r).length - 1 := by
        simp only [List.length_cons, List.length_drop]; omega
      rw [e]; exact this
    · have hX : '\n' ∉ ('/' :: '/' :: c) := by
        intro h
        simp only [List.mem_cons] at h
        rcases h with h | h | h
        · exact absurd h (by decide)
        · exact absurd h (by decide)
        · exact hc h
      rw [commentLen_append_of_not_mem r _ hmem, commentLen_of_not_mem _ hX,
        commentLen_of_not_mem r hmem, List.drop_length]
      have hd : (r ++ '/' :: '/' :: c).drop (r.length + ('/' :: '/' :: c).length) = [] := by
        apply List.drop_eq_nil_of_le
        simp
      rw [hd, lexFrom_nil, lexFrom_nil]
  | item off c0 r hb hc0 ih =>
    intro H
    have hH := H (by simp)
    rw [lexFrom_item _ _ _ hb hc0] at hH
    have hc2 : ¬ (c0 = '/' ∧ (r ++ '/' :: '/' :: c).head? = some '/') := by
      apply not_comment_start_append c0 r '/' _ hc0
      intro hr ⟨h1, _⟩
      subst hr h1
      apply hH
      have hs : scanHead '/' [] = (1, some TokenType.OP_DIVIDE) := by decide
      rw [hs]
      simp
    have hle := scanHead_len_le_of_sep c0 r
    have hle2 := scanHead_len_le c0 r
    have hpos := scanHead_len_pos c0 r
    rw [List.cons_append, lexFrom_item _ _ _ hb hc2, lexFrom_item _ _ _ hb hc0,
      scanHead_append_sep c0 r _ '/' isSep_slash, List.drop_append_of_le_length hle]
    congr 1
    apply ih
    intro _
    have e : off + (scanHead c0 r).1 + (r.drop ((scanHead c0 r).1 - 1)).length - 1 =
        off + (c0 :: r).length - 1 := by
      simp only [List.length_cons, List.length_drop]; omega
    rw [e]
    exact fun h => hH (List.mem_cons_of_mem _ h)

/-- Moving a text within the source moves the offsets of its items. -/
theorem lexFrom_shift (d : Nat) : ∀ (off : Nat) (cs : List Char),
    lexFrom (off + d) cs = (lexFrom off cs).map (fun it => ⟨it.off + d, it.len, it.kind⟩) := by
  intro off cs
  induction off, cs using lex_induction with
  | nil off => simp [lexFrom_nil]
  | blank off c r hb ih =>
    rw [lexFrom_blank _ _ _ hb, lexFrom_blank _ _ _ hb, ← ih]
    congr 1; omega
  | comment off r ih =>
    rw [lexFrom_comment, lexFrom_comment, ← ih]
    congr 1; omega
  | item off c r hb hc ih =>
    rw [lexFrom_item _ _ _ hb hc, lexFrom_item _ _ _ hb hc, List.map_cons, ← ih]
    congr 2; omega

theorem lineAt_append_left (a rest : List Char) (o : Nat) (h : o ≤ a.length) :
    lineAt (a ++ rest) o = lineAt a o ∧ col0 (a ++ rest) o = col0 a o := by
  simp only [lineAt, col0, List.take_append_of_le_length h, and_self]

/-- The tokens of items that lie in a prefix of the source are the same in the
prefix alone. -/
theorem tokensOf_initial (a rest : List Char) (its : List Item)
    (h : ∀ it ∈ its, it.off + it.len ≤ a.length) :
    tokensOf (a ++ rest) its = tokensOf a its := by
  apply tokensOf_congr
  intro it hit
  have hle := h it hit
  obtain ⟨h1, h2⟩ := lineAt_append_left a rest it.off (by omega)
  exact itemToken_congr (substr_append_left _ _ _ _ hle) h1 h2

/-- After two prefixes that end at the same line and column, the offsets of a
common rest have the same line and column. -/
theorem suffix_pos_congr (p1 p2 b : List Char)
    (hl : lineAt p1 p1.length = lineAt p2 p2.length)
    (hc : col0 p1 p1.length = col0 p2 p2.length) :
    ∀ o, o ≤ b.length →
      lineAt (p1 ++ b) (p1.length + o) = lineAt (p2 ++ b) (p2.length + o) ∧
      col0 (p1 ++ b) (p1.length + o) = col0 (p2 ++ b) (p2.length + o) := by
  intro o
  induction o with
  | zero =>
    intro _
    obtain ⟨h1, h2⟩ := lineAt_append_left p1 b p1.length (le_refl _)
    obtain ⟨h3, h4⟩ := lineAt_append_left p2 b p2.length (le_refl _)
    simp only [Nat.add_zero, h1, h2, h3, h4, hl, hc, and_self]
  | succ o ih =>
    intro ho
    obtain ⟨h1, h2⟩ := ih (by omega)
    have hlt1 : p1.length + o < (p1 ++ b).length := by simp; omega
    have hlt2 : p2.length + o < (p2 ++ b).length := by simp; omega
    have e1 := charAt_append_right p1 b o
    have e2 := charAt_append_right p2 b o
    rw [← add_assoc, ← add_assoc]
    by_cases hn : charAt b o = '\n'
    · rw [lineAt_succ_newline _ _ hlt1 (by rw [e1]; exact hn),
        lineAt_succ_newline _ _ hlt2 (by rw [e2]; exact hn),
        col0_succ_newline _ _ hlt1 (by rw [e1]; exact hn),
        col0_succ_newline _ _ hlt2 (by rw [e2]; exact hn), h1]
      exact ⟨rfl, rfl⟩
    · rw [lineAt_succ_other _ _ hlt1 (by rw [e1]; exact hn),
        lineAt_succ_other _ _ hlt2 (by rw [e2]; exact hn),
        col0_succ_other _ _ hlt1 (by rw [e1]; exact hn),
        col0_succ_other _ _ hlt2 (by rw [e2]; exact hn), h1, h2]
      exact ⟨rfl, rfl⟩

/-- The tokens of a common rest after two prefixes that end at the same line
and column are the same. -/
theorem tokensOf_suffix (p1 p2 b : List Char)
    (hl : lineAt p1 p1.length = lineAt p2 p2.length)
    (hc : col0 p1 p1.length = col0 p2 p2.length) :
    tokensOf (p1 ++ b) (lexFrom p1.length b) = tokensOf (p2 ++ b) (lexFrom p2.length b) := by
  have e1 := lexFrom_shift p1.length 0 b
  have e2 := lexFrom_shift p2.length 0 b
  rw [Nat.zero_add] at e1 e2
  rw [e1, e2]
  simp only [tokensOf, List.filterMap_map]
  apply List.filterMap_congr
  intro it hit
  have hb := lexFrom_bounds hit
  obtain ⟨h1, h2⟩ := suffix_pos_congr p1 p2 b hl hc it.off (by omega)
  simp only [Function.comp, itemToken, colAt, Nat.add_comm it.off, substr_append_right, h1, h2]

theorem eofToken_suffix (p1 p2 b : List Char)
    (hl : lineAt p1 p1.length = lineAt p2 p2.length)
    (hc : col0 p1 p1.length = col0 p2 p2.length) :
    eofToken (p1 ++ b) = eofToken (p2 ++ b) := by
  obtain ⟨h1, h2⟩ := suffix_pos_congr p1 p2 b hl hc b.length (le_refl _)
  simp only [eofToken, colAt, List.length_append, h1, h2]

theorem tokensOf_append (src : List Char) (xs ys : List Item) :
    tokensOf src (xs ++ ys) = tokensOf src xs ++ tokensOf src ys := by
  simp [tokensOf, List.filterMap_append]

theorem pos_after_newline (p : List Char) :
    lineAt (p ++ ['\n']) (p ++ ['\n']).length = 2 + p.count '\n' ∧
      col0 (p ++ ['\n']) (p ++ ['\n']).length = 0 := by
  simp only [lineAt, col0, List.take_length, List.count_append, List.reverse_append,
    List.reverse_cons, List.reverse_nil, List.nil_append, List.singleton_append,
    List.takeWhile_cons, List.count_singleton, ne_eq, not_true_eq_false, decide_False,
    Bool.false_eq_true, if_false, List.length_nil, and_true, beq_self_eq_true, if_true]
  omega

theorem filter_ne_eof (src : List Char) :
    (tokensOf src (items src) ++ [eofToken src]).filter
        (fun t => decide (t.type ≠ TokenType.EOF_TOKEN)) = tokensOf src (items src) := by
  rw [List.filter_append]
  have h1 : (tokensOf src (items src)).filter
      (fun t => decide (t.type ≠ TokenType.EOF_TOKEN)) = tokensOf src (items src) := by
    rw [List.filter_eq_self]
    intro t ht
    simpa using token_type_ne_eof ht
  rw [h1]
  simp [eofToken]

/-- C6, amended: when `c` contains no newline and `a` does not end with a `/`
that is scanned as the division operator, the source `a // c \n b` has exactly
the token sequence of `a \n b`, and the source `a // c` has the tokens of `a`
apart from the end-of-input token. -/
theorem comment_law (a c b : List Char) (flag : Bool) (hc : '\n' ∉ c)
    (hdiv : ¬ ∃ r0, tokenize (Lexer.new a flag) = some r0 ∧
      ∃ t ∈ r0.tokens, t.type = TokenType.OP_DIVIDE ∧ t.line = lineAt a (a.length - 1) ∧
        t.column = colAt a (a.length - 1)) :
    (∃ r1 r2, tokenize (Lexer.new (a ++ "//".toList ++ c ++ "\n".toList ++ b) flag) = some r1 ∧
      tokenize (Lexer.new (a ++ "\n".toList ++ b) flag) = some r2 ∧ r1.tokens = r2.tokens) ∧
    (∃ r3 r4, tokenize (Lexer.new (a ++ "//".toList ++ c) flag) = some r3 ∧
      tokenize (Lexer.new a flag) = some r4 ∧
      r3.tokens.filter (fun t => decide (t.type ≠ TokenType.EOF_TOKEN)) =
        r4.tokens.filter (fun t => decide (t.type ≠ TokenType.EOF_TOKEN))) := by
  have e1 : a ++ "//".toList ++ c ++ "\n".toList ++ b = (a ++ '/' :: '/' :: c) ++ '\n' :: b := by
    simp
  have e2 : a ++ "\n".toList ++ b = a ++ '\n' :: b := by simp
  have e3 : a ++ "//".toList ++ c = a ++ '/' :: '/' :: c := by simp
  rw [e1, e2, e3]
  obtain ⟨r1, h1, -, h13, -, -⟩ := tokenize_spec (Lexer.new ((a ++ '/' :: '/' :: c) ++ '\n' :: b) flag)
  obtain ⟨r2, h2, -, h23, -, -⟩ := tokenize_spec (Lexer.new (a ++ '\n' :: b) flag)
  obtain ⟨r3, h3, -, h33, -, -⟩ := tokenize_spec (Lexer.new (a ++ '/' :: '/' :: c) flag)
  obtain ⟨r4, h4, -, h43, -, -⟩ := tokenize_spec (Lexer.new a flag)
  simp only [Lexer.new] at h13 h23 h33 h43
  -- the last character of `a` is not an item `/`
  have hH : a ≠ [] → (⟨0 + a.length - 1, 1, some TokenType.OP_DIVIDE⟩ : Item) ∉ lexFrom 0 a := by
    intro _ hit
    apply hdiv
    refine ⟨r4, h4, ⟨TokenType.OP_DIVIDE, substr a (a.length - 1) 1, none,
      lineAt a (a.length - 1), colAt a (a.length - 1)⟩, ?_, rfl, rfl, rfl⟩
    rw [h43]
    apply List.mem_append_left
    simp only [tokensOf, List.mem_filterMap]
    refine ⟨_, hit, ?_⟩
    simp [itemToken, literalOf]
  have htail := lexFrom_comment_tail c hc 0 a hH
  have hin : ∀ it ∈ lexFrom 0 a, it.off + it.len ≤ a.length := by
    intro it hit
    have := lexFrom_bounds hit
    omega
  constructor
  · refine ⟨r1, r2, h1, h2, ?_⟩
    rw [h13, h23]
    have i1 : items ((a ++ '/' :: '/' :: c) ++ '\n' :: b) =
        lexFrom 0 a ++ lexFrom ((a ++ '/' :: '/' :: c) ++ ['\n']).length b := by
      rw [items, lexFrom_newline_cut, htail]
      congr 2
      simp only [List.length_append, List.length_cons, List.length_nil]
      omega
    have i2 : items (a ++ '\n' :: b) = lexFrom 0 a ++ lexFrom (a ++ ['\n']).length b := by
      rw [items, lexFrom_newline_cut]
      congr 2
      simp only [List.length_append, List.length_cons, List.length_nil]
      omega
    have s1 : (a ++ '/' :: '/' :: c) ++ '\n' :: b = ((a ++ '/' :: '/' :: c) ++ ['\n']) ++ b := by
      simp
    have s2 : a ++ '\n' :: b = (a ++ ['\n']) ++ b := by simp
    have hl : lineAt ((a ++ '/' :: '/' :: c) ++ ['\n']) ((a ++ '/' :: '/' :: c) ++ ['\n']).length =
        lineAt (a ++ ['\n']) (a ++ ['\n']).length := by
      rw [(pos_after_newline _).1, (pos_after_newline _).1]
      have : c.count '\n' = 0 := List.count_eq_zero.mpr hc
      simp [List.count_append, List.count_cons, this]
    have hcol : col0 ((a ++ '/' :: '/' :: c) ++ ['\n']) ((a ++ '/' :: '/' :: c) ++ ['\n']).length =
        col0 (a ++ ['\n']) (a ++ ['\n']).length := by
      rw [(pos_after_newline _).2, (pos_after_newline _).2]
    rw [i1, i2, tokensOf_append, tokensOf_append]
    have t1 : tokensOf ((a ++ '/' :: '/' :: c) ++ '\n' :: b) (lexFrom 0 a) =
        tokensOf a (lexFrom 0 a) := by
      rw [List.append_assoc]; exact tokensOf_initial a _ _ hin
    have t2 : tokensOf (a ++ '\n' :: b) (lexFrom 0 a) = tokensOf a (lexFrom 0 a) :=
      tokensOf_initial a _ _ hin
    rw [t1, t2, s1, s2, tokensOf_suffix _ _ b hl hcol, eofToken_suffix _ _ b hl hcol]
  · refine ⟨r3, r4, h3, h4, ?_⟩
    rw [h33, h43, filter_ne_eof, filter_ne_eof]
    rw [items, htail]
    exact tokensOf_initial a _ _ hin

/-- The hypotheses of `comment_law` hold for `a = "x "`, `c = " hi"` and
`b = "y"`. -/
theorem comment_law_witness :
    (∃ r1 r2, tokenize (Lexer.new ("x ".toList ++ "//".toList ++ " hi".toList ++ "\n".toList ++
        "y".toList) false) = some r1 ∧
      tokenize (Lexer.new ("x ".toList ++ "\n".toList ++ "y".toList) false) = some r2 ∧
      r1.tokens = r2.tokens) ∧
    (∃ r3 r4, tokenize (Lexer.new ("x ".toList ++ "//".toList ++ " hi".toList) false) = some r3 ∧
      tokenize (Lexer.new "x ".toList false) = some r4 ∧
      r3.tokens.filter (fun t => decide (t.type ≠ TokenType.EOF_TOKEN)) =
        r4.tokens.filter (fun t => decide (t.type ≠ TokenType.EOF_TOKEN))) :=
  comment_law "x ".toList " hi".toList "y".toList false (by decide) (by
    have hev : (tokenize (Lexer.new "x ".toList false)).map (fun r => r.tokens) =
        some [⟨TokenType.IDENTIFIER, "x".toList, none, 1, 1⟩,
          ⟨TokenType.EOF_TOKEN, [], none, 1, 3⟩] := by decide
    rintro ⟨r0, hr, t, ht, hty, -, -⟩
    rw [tokens_of_eval hev hr] at ht
    simp only [List.mem_cons, List.mem_singleton, List.not_mem_nil, or_false] at ht
    rcases ht with rfl | rfl <;> exact absurd hty (by decide))

/-- C6 as stated fails for `a = "/"` with empty `c` and `b`: the source `///`
followed by a newline is one comment and yields the end-of-input token only,
while `/` followed by a newline yields the division operator. -/
theorem comment_law_fails_after_slash :
    '\n' ∉ ([] : List Char) ∧
      (tokenize (Lexer.new ("/".toList ++ "//".toList ++ [] ++ "\n".toList ++ []) false)).map
        (fun r => r.tokens) = some [⟨TokenType.EOF_TOKEN, [], none, 2, 1⟩] ∧
      (tokenize (Lexer.new ("/".toList ++ "\n".toList ++ []) false)).map (fun r => r.tokens) =
        some [⟨TokenType.OP_DIVIDE, "/".toList, none, 1, 1⟩,
          ⟨TokenType.EOF_TOKEN, [], none, 2, 1⟩] ∧
      ¬ ∃ r1 r2,
        tokenize (Lexer.new ("/".toList ++ "//".toList ++ [] ++ "\n".toList ++ []) false) =
          some r1 ∧
        tokenize (Lexer.new ("/".toList ++ "\n".toList ++ []) false) = some r2 ∧
        r1.tokens = r2.tokens := by
  have hev1 : (tokenize (Lexer.new ("/".toList ++ "//".toList ++ [] ++ "\n".toList ++ [])
      false)).map (fun r => r.tokens) = some [⟨TokenType.EOF_TOKEN, [], none, 2, 1⟩] := by
    decide
  have hev2 : (tokenize (Lexer.new ("/".toList ++ "\n".toList ++ []) false)).map
      (fun r => r.tokens) = some [⟨TokenType.OP_DIVIDE, "/".toList, none, 1, 1⟩,
        ⟨TokenType.EOF_TOKEN, [], none, 2, 1⟩] := by
    decide
  refine ⟨by decide, hev1, hev2, ?_⟩
  rintro ⟨r1, r2, h1, h2, heq⟩
  rw [tokens_of_eval hev1 h1, tokens_of_eval hev2 h2] at heq
  exact absurd heq (by decide)

/-! ## The error flag -/

/-- C11, amended: `tokenize` does not reset the flag; after the call the flag
is true if and only if it was true before or at least one diagnostic was
reported during the call.  Through `tokenize_string`, which resets the flag
before the scan, the flag is true if and only if at least one diagnostic was
reported, whatever the flag held before. -/
theorem flag_after_tokenize (src : List Char) (flag : Bool) :
    (∃ r, tokenize (Lexer.new src flag) = some r ∧
      (r.had_lexer_error = true ↔ (flag = true ∨ r.cerr ≠ []))) ∧
    (∃ r, tokenize_string src flag = some r ∧ (r.had_lexer_error = true ↔ r.cerr ≠ [])) := by
  have main : ∀ f : Bool, ∃ r, tokenize (Lexer.new src f) = some r ∧
      (r.had_lexer_error = true ↔ (f = true ∨ r.cerr ≠ [])) := by
    intro f
    obtain ⟨r, h1, -, -, h4, h5⟩ := tokenize_spec (Lexer.new src f)
    simp only [Lexer.new, List.nil_append] at h4 h5
    refine ⟨r, h1, ?_⟩
    rw [h5, h4]
    cases f <;> cases diagsOf src (items src) <;> simp
  refine ⟨main flag, ?_⟩
  obtain ⟨r, h1, h2⟩ := main false
  exact ⟨r, h1, by simpa using h2⟩

/-- C11 as stated fails: the empty source scanned with the flag already set
reports no diagnostic and leaves the flag set. -/
theorem flag_not_reset_by_tokenize :
    (tokenize (Lexer.new [] true)).map (fun r => (r.had_lexer_error, r.cerr)) =
        some (true, []) ∧
      ¬ ∃ r, tokenize (Lexer.new [] true) = some r ∧
        (r.had_lexer_error = true ↔ r.cerr ≠ []) := by
  have hev : (tokenize (Lexer.new [] true)).map (fun r => (r.had_lexer_error, r.cerr)) =
      some (true, []) := by decide
  refine ⟨hev, ?_⟩
  rintro ⟨r, hr, hiff⟩
  rw [hr] at hev
  simp only [Option.map_some', Option.some.injEq, Prod.mk.injEq] at hev
  rw [hev.1, hev.2] at hiff
  simp at hiff

/-! ## Literals and the rendering of tokens -/

theorem literalOf_isSome (ty : TokenType) (text : List Char) :
    (literalOf ty text).isSome = true ↔ ty = TokenType.NUMBER := by
  by_cases h : ty = TokenType.NUMBER
  · simp [literalOf, h]
  · simp [literalOf, h]

/-- C12: a token produced by `tokenize` holds a literal if and only if its kind
is `NUMBER`, so `Token::toString` never runs its `bad_any_cast` handler, the
`CAST_ERROR` fallback, on such a token. -/
theorem literal_iff_number (src : List Char) (flag : Bool) :
    ∃ r, tokenize (Lexer.new src flag) = some r ∧
      ∀ t ∈ r.tokens, (t.literal_value.isSome = true ↔ t.type = TokenType.NUMBER) ∧
        (Token.toString t).2 = false := by
  obtain ⟨r, h1, -, h3, -, -⟩ := tokenize_spec (Lexer.new src flag)
  simp only [Lexer.new] at h3
  refine ⟨r, h1, ?_⟩
  intro t ht
  have hiff : t.literal_value.isSome = true ↔ t.type = TokenType.NUMBER := by
    rw [h3, List.mem_append] at ht
    rcases ht with ht | ht
    · obtain ⟨it, -, ty, -, rfl⟩ := mem_tokensOf ht
      exact literalOf_isSome ty _
    · simp only [List.mem_singleton] at ht
      subst ht
      simp [eofToken]
  refine ⟨hiff, ?_⟩
  by_cases hty : t.type = TokenType.NUMBER
  · obtain ⟨v, hv⟩ := Option.isSome_iff_exists.mp (hiff.mpr hty)
    simp [Token.toString, hty, hv]
  · simp [Token.toString, hty]

/-- C13, amended: for every token, `Token::toString` returns the text `Token: `
followed by the kind name, the lexeme in parentheses, for a `NUMBER` token the
suffix ` (literal: <decimal value>)` (` (literal: CAST_ERROR)` when the token
holds no `int`), and ` at line <line>, col <column>`, with nothing else before,
between or after these parts. -/
theorem toString_format (t : Token) :
    (Token.toString t).1 =
      "Token: ".toList ++ tokenTypeToString t.type ++ ("(".toList ++ t.value ++ ")".toList) ++
        (if t.type = TokenType.NUMBER then
          " (literal: ".toList ++
            (match t.literal_value with
              | some v => to_string v
              | none => "CAST_ERROR".toList) ++ ")".toList
         else []) ++
        (" at line ".toList ++ to_string t.line ++ ", col ".toList ++ to_string t.column) := by
  by_cases hty : t.type = TokenType.NUMBER
  · cases hv : t.literal_value with
    | none => simp [Token.toString, hty, hv]
    | some v => simp [Token.toString, hty, hv]
  · simp [Token.toString, hty]

/-- C13 as stated fails: the rendering of the token `+` at line 1, column 1
begins with `Token: `, not with the kind name `OP(+)`. -/
theorem toString_begins_with_Token :
    (Token.toString ⟨TokenType.OP_PLUS, "+".toList, none, 1, 1⟩).1 =
        "Token: OP(+)(+) at line 1, col 1".toList ∧
      (Token.toString ⟨TokenType.OP_PLUS, "+".toList, none, 1, 1⟩).1 ≠
        tokenTypeToString TokenType.OP_PLUS ++ ("(".toList ++ "+".toList ++ ")".toList) ++
          (" at line ".toList ++ to_string 1 ++ ", col ".toList ++ to_string 1) ∧
      ¬ (tokenTypeToString TokenType.OP_PLUS <+:
        (Token.toString ⟨TokenType.OP_PLUS, "+".toList, none, 1, 1⟩).1) := by
  refine ⟨by decide, by decide, ?_⟩
  have h : (Token.toString ⟨TokenType.OP_PLUS, "+".toList, none, 1, 1⟩).1 =
      "Token: OP(+)(+) at line 1, col 1".toList := by decide
  rw [h]
  rintro ⟨t, ht⟩
  have := congrArg List.head? ht
  simp [tokenTypeToString] at this

/-! ## The shape of tokens -/

theorem head?_drop_takeWhile {α : Type} (p : α → Bool) (l : List α) (y : α)
    (h : (l.drop (l.takeWhile p).length).head? = some y) : p y = false := by
  rw [drop_length_takeWhile] at h
  cases hd : l.dropWhile p with
  | nil => rw [hd] at h; simp at h
  | cons z zs =>
    rw [hd] at h
    simp only [List.head?_cons, Option.some.injEq] at h
    have hz := List.head_dropWhile_not p l (by rw [hd]; simp)
    simp only [hd, List.head_cons] at hz
    rw [← h]
    simpa using hz

/-- The five ways in which `scanHead` yields a token. -/
theorem scanHead_token {c : Char} {r : List Char} {ty : TokenType}
    (h : (scanHead c r).2 = some ty) :
    (punctKind c = some ty ∧ (scanHead c r).1 = 1) ∨
    (punctKind c = none ∧ (∃ one, compoundKind c = some (ty, one)) ∧ r.head? = some '=' ∧
      (scanHead c r).1 = 2) ∨
    (punctKind c = none ∧ (∃ two, compoundKind c = some (two, some ty)) ∧
      r.head? ≠ some '=' ∧ (scanHead c r).1 = 1) ∨
    (punctKind c = none ∧ compoundKind c = none ∧ ty = TokenType.NUMBER ∧ isdigit c = true ∧
      (scanHead c r).1 = 1 + (r.takeWhile isdigit).length) ∨
    (punctKind c = none ∧ compoundKind c = none ∧ isdigit c = false ∧
      (isalpha c = true ∨ c = '_') ∧
      (scanHead c r).1 = 1 + (r.takeWhile isIdChar).length ∧
      ty = keywordOrIdentifier (c :: r.takeWhile isIdChar)) := by
  cases hpk : punctKind c with
  | some ty' =>
    left
    rw [scanHead_punct r hpk] at h ⊢
    simp only [Option.some.injEq] at h
    exact ⟨by rw [h], rfl⟩
  | none =>
    cases hck : compoundKind c with
    | some p =>
      obtain ⟨two, one⟩ := p
      have hs := scanHead_compound r hpk hck
      by_cases hh : r.head? = some '='
      · right; left
        rw [hs, if_pos hh] at h ⊢
        simp only [Option.some.injEq] at h
        subst h
        exact ⟨rfl, ⟨one, rfl⟩, hh, rfl⟩
      · right; right; left
        rw [hs, if_neg hh] at h ⊢
        simp only at h
        subst h
        exact ⟨rfl, ⟨two, rfl⟩, hh, rfl⟩
    | none =>
      have hs := scanHead_other r hpk hck
      by_cases h1 : isdigit c = true
      · right; right; right; left
        rw [hs, if_pos h1] at h ⊢
        simp only [Option.some.injEq] at h
        exact ⟨rfl, rfl, h.symm, h1, rfl⟩
      · by_cases h2 : isalpha c = true ∨ c = '_'
        · right; right; right; right
          rw [hs, if_neg h1, if_pos h2] at h ⊢
          simp only [Option.some.injEq] at h
          exact ⟨rfl, rfl, by simpa using h1, h2, rfl, h.symm⟩
        · rw [hs, if_neg h1, if_neg h2] at h
          simp at h

theorem next_char {src : List Char} {o : Nat} {c : Char} {r : List Char}
    (h : src.drop o = c :: r) (k : Nat) : src[o + (k + 1)]? = (r.drop k).head? := by
  rw [← List.getElem?_drop, h, List.getElem?_cons_succ, List.head?_drop]

theorem eof_not_StartsAt (src : List Char) (o : Nat) : ¬ StartsAt src (eofToken src) o := by
  rintro ⟨h1, h2, h3⟩
  have := offset_eq_of_pos_eq src src.length o (Nat.le_refl _) (Nat.le_of_lt h1) h2 h3
  omega

/-- Every token of an item starts at the offset of the item, and at no other
offset; its kind and its lexeme are those that `scanHead` computes there. -/
theorem token_source {src : List Char} {t : Token} (h : t ∈ tokensOf src (items src)) :
    ∃ o, StartsAt src t o ∧ (∀ o', StartsAt src t o' → o' = o) ∧
      src.drop o = charAt src o :: src.drop (o + 1) ∧
      (scanHead (charAt src o) (src.drop (o + 1))).2 = some t.type ∧
      t.value.length = (scanHead (charAt src o) (src.drop (o + 1))).1 ∧
      t.value = charAt src o ::
        (src.drop (o + 1)).take ((scanHead (charAt src o) (src.drop (o + 1))).1 - 1) ∧
      t.value = substr src o t.value.length ∧
      t.literal_value = literalOf t.type t.value ∧
      o + t.value.length ≤ src.length ∧
      isBlank (charAt src o) = false ∧
      ¬ (charAt src o = '/' ∧ (src.drop (o + 1)).head? = some '/') ∧
      (⟨o, t.value.length, some t.type⟩ : Item) ∈ items src := by
  obtain ⟨it, hit, ty, hk, rfl⟩ := mem_tokensOf h
  obtain ⟨c, r, h1, h3, h4, h5, h6, h7⟩ := item_text hit
  obtain ⟨hlt, hle, hpos⟩ := items_off_lt hit
  have hd := drop_eq_charAt_cons src it.off hlt
  rw [hd] at h1
  simp only [List.cons.injEq] at h1
  obtain ⟨hc, hr⟩ := h1
  subst hc hr
  have hlen : (substr src it.off it.len).length = it.len := by
    rw [substr, List.length_take, List.length_drop]; omega
  refine ⟨it.off, ⟨hlt, rfl, rfl⟩, ?_, hd, ?_, ?_, ?_, ?_, rfl, ?_, h5, h6, ?_⟩
  · rintro o' ⟨ho1, ho2, ho3⟩
    exact offset_eq_of_pos_eq src o' it.off (Nat.le_of_lt ho1) (Nat.le_of_lt hlt) ho2.symm
      ho3.symm
  · rw [← h4, hk]
  · simp only [hlen]; exact h3
  · simp only; rw [h7, h3]
  · simp only [hlen]
  · simp only [hlen]; exact hle
  · simp only [hlen]
    have e : (⟨it.off, it.len, some ty⟩ : Item) = it := by
      cases it; simp only at hk; simp [hk]
    rw [e]; exact hit

theorem mem_tokens_cases {src : List Char} {t : Token}
    (h : t ∈ tokensOf src (items src) ++ [eofToken src]) :
    t ∈ tokensOf src (items src) ∨ t = eofToken src := by
  rw [List.mem_append, List.mem_singleton] at h
  exact h

/-! ## Kind names -/

theorem kind_name_of_scanHead {c : Char} {r : List Char} {ty : TokenType}
    (h : (scanHead c r).2 = some ty) :
    (isKeywordKind ty = true → tokenTypeToString ty =
      "KEYWORD(".toList ++ (c :: r.take ((scanHead c r).1 - 1)) ++ ")".toList) ∧
    (isOperatorKind ty = true → tokenTypeToString ty =
      "OP(".toList ++ (c :: r.take ((scanHead c r).1 - 1)) ++ ")".toList) ∧
    (isDelimiterKind ty = true → tokenTypeToString ty =
      "DELIM(".toList ++ (c :: r.take ((scanHead c r).1 - 1)) ++ ")".toList) := by
  rcases scanHead_token h with ⟨hp, hl⟩ | ⟨-, ⟨one, hck⟩, hh, hl⟩ | ⟨-, ⟨two, hck⟩, hh, hl⟩ |
    ⟨-, -, hty, -, hl⟩ | ⟨-, -, -, -, hl, hty⟩
  · rw [hl]
    simp only [Nat.sub_self, List.take_zero]
    rcases punctKind_cases hp with h | h | h | h | h | h | h | h | h | h | h | h <;>
      (obtain ⟨rfl, rfl⟩ := h; decide)
  · rw [hl]
    obtain ⟨y, hy⟩ : ∃ y, r.take 1 = ['='] := by
      cases r with
      | nil => simp at hh
      | cons a b => simp only [List.head?_cons, Option.some.injEq] at hh; subst hh; exact ⟨0, rfl⟩
    simp only [Nat.add_one_sub_one, hy]
    rcases compoundKind_cases hck with h | h | h | h <;>
      (obtain ⟨rfl, rfl, -⟩ := h; decide)
  · rw [hl]
    simp only [Nat.sub_self, List.take_zero]
    rcases compoundKind_cases hck with h | h | h | h
    · obtain ⟨-, -, h3⟩ := h; simp at h3
    · obtain ⟨rfl, -, h3⟩ := h
      simp only [Option.some.injEq] at h3; subst h3; decide
    · obtain ⟨rfl, -, h3⟩ := h
      simp only [Option.some.injEq] at h3; subst h3; decide
    · obtain ⟨rfl, -, h3⟩ := h
      simp only [Option.some.injEq] at h3; subst h3; decide
  · subst hty
    exact ⟨fun h => absurd h (by decide), fun h => absurd h (by decide),
      fun h => absurd h (by decide)⟩
  · rw [hl, Nat.add_sub_cancel_left, take_length_takeWhile]
    rcases keywordOrIdentifier_cases (c :: r.takeWhile isIdChar) with
      h | h | h | h | h | h | h | h | h
    all_goals
      obtain ⟨h1, h2⟩ := h
      rw [h2] at hty
      subst hty
    iterate 8 (rw [h1]; decide)
    exact ⟨fun h => absurd h (by decide), fun h => absurd h (by decide),
      fun h => absurd h (by decide)⟩

/-- C14: for every token produced by `tokenize`, `tokenTypeToString` of its
kind is `KEYWORD(`, `OP(` or `DELIM(` followed by the token's own lexeme and
`)` when the kind is a keyword, an operator or a delimiter; every kind is a
keyword, an operator, a delimiter, `IDENTIFIER`, `NUMBER` or `EOF_TOKEN`, the
names of the last three are `IDENTIFIER`, `NUMBER` and `EOF`, and
`UNKNOWN_TYPE` is the name of no kind. -/
theorem kind_name_matches_lexeme (src : List Char) (flag : Bool) :
    (∃ r, tokenize (Lexer.new src flag) = some r ∧
      ∀ t ∈ r.tokens,
        (isKeywordKind t.type = true →
          tokenTypeToString t.type = "KEYWORD(".toList ++ t.value ++ ")".toList) ∧
        (isOperatorKind t.type = true →
          tokenTypeToString t.type = "OP(".toList ++ t.value ++ ")".toList) ∧
        (isDelimiterKind t.type = true →
          tokenTypeToString t.type = "DELIM(".toList ++ t.value ++ ")".toList)) ∧
    (∀ ty : TokenType, isKeywordKind ty = true ∨ isOperatorKind ty = true ∨
      isDelimiterKind ty = true ∨ ty = TokenType.IDENTIFIER ∨ ty = TokenType.NUMBER ∨
      ty = TokenType.EOF_TOKEN) ∧
    tokenTypeToString TokenType.IDENTIFIER = "IDENTIFIER".toList ∧
    tokenTypeToString TokenType.NUMBER = "NUMBER".toList ∧
    tokenTypeToString TokenType.EOF_TOKEN = "EOF".toList ∧
    (∀ ty : TokenType, tokenTypeToString ty ≠ "UNKNOWN_TYPE".toList) := by
  refine ⟨?_, fun ty => by cases ty <;> decide, rfl, rfl, rfl, fun ty => by cases ty <;> decide⟩
  obtain ⟨r, h1, -, h3, -, -⟩ := tokenize_spec (Lexer.new src flag)
  simp only [Lexer.new] at h3
  refine ⟨r, h1, ?_⟩
  intro t ht
  rw [h3] at ht
  rcases mem_tokens_cases ht with ht | rfl
  · obtain ⟨o, -, -, -, hk, -, hv, -⟩ := token_source ht
    rw [hv]
    exact kind_name_of_scanHead hk
  · have e : (eofToken src).type = TokenType.EOF_TOKEN := rfl
    rw [e]
    exact ⟨fun h => absurd h (by decide), fun h => absurd h (by decide),
      fun h => absurd h (by decide)⟩

/-! ## Reserved words -/

theorem kindOfWord_iff (w : List Char) :
    (kindOfWord w = TokenType.KEYWORD_INT ↔ w = "int".toList) ∧
    (kindOfWord w = TokenType.KEYWORD_VOID ↔ w = "void".toList) ∧
    (kindOfWord w = TokenType.KEYWORD_IF ↔ w = "if".toList) ∧
    (kindOfWord w = TokenType.KEYWORD_ELSE ↔ w = "else".toList) ∧
    (kindOfWord w = TokenType.KEYWORD_WHILE ↔ w = "while".toList) ∧
    (kindOfWord w = TokenType.KEYWORD_RETURN ↔ w = "return".toList) ∧
    (kindOfWord w = TokenType.KEYWORD_INPUT ↔ w = "input".toList) ∧
    (kindOfWord w = TokenType.KEYWORD_OUTPUT ↔ w = "output".toList) ∧
    (kindOfWord w = TokenType.IDENTIFIER ↔ w ∉ keywords.map Prod.fst) ∧
    isKeywordKind (kindOfWord w) = decide (w ∈ keywords.map Prod.fst) := by
  by_cases h1 : w = "int".toList
  · subst h1; decide
  by_cases h2 : w = "void".toList
  · subst h2; decide
  by_cases h3 : w = "if".toList
  · subst h3; decide
  by_cases h4 : w = "else".toList
  · subst h4; decide
  by_cases h5 : w = "while".toList
  · subst h5; decide
  by_cases h6 : w = "return".toList
  · subst h6; decide
  by_cases h7 : w = "input".toList
  · subst h7; decide
  by_cases h8 : w = "output".toList
  · subst h8; decide
  have hk : kindOfWord w = TokenType.IDENTIFIER := by
    simp only [kindOfWord, if_neg h1, if_neg h2, if_neg h3, if_neg h4, if_neg h5, if_neg h6, if_neg h7, if_neg h8]
  have hm : w ∉ keywords.map Prod.fst := by
    simp only [keywords, List.map_cons, List.map_nil, List.mem_cons, List.mem_singleton,
      List.not_mem_nil, or_false, not_or]
    exact ⟨h1, h2, h3, h4, h5, h6, h7, h8⟩
  rw [hk]
  refine ⟨?_, ?_, ?_, ?_, ?_, ?_, ?_, ?_, ?_, ?_⟩
  · exact ⟨fun h => absurd h (by decide), fun h => absurd h h1⟩
  · exact ⟨fun h => absurd h (by decide), fun h => absurd h h2⟩
  · exact ⟨fun h => absurd h (by decide), fun h => absurd h h3⟩
  · exact ⟨fun h => absurd h (by decide), fun h => absurd h h4⟩
  · exact ⟨fun h => absurd h (by decide), fun h => absurd h h5⟩
  · exact ⟨fun h => absurd h (by decide), fun h => absurd h h6⟩
  · exact ⟨fun h => absurd h (by decide), fun h => absurd h h7⟩
  · exact ⟨fun h => absurd h (by decide), fun h => absurd h h8⟩
  · exact ⟨fun _ => hm, fun _ => rfl⟩
  · rw [decide_eq_false hm]; rfl

theorem not_alpha_of_punct {c : Char} {ty : TokenType} (h : punctKind c = some ty) :
    ¬ (isalpha c = true ∨ c = '_') := by
  rcases punctKind_cases h with h | h | h | h | h | h | h | h | h | h | h | h <;>
    (obtain ⟨rfl, -⟩ := h; decide)

theorem not_alpha_of_compound {c : Char} {p : TokenType × Option TokenType}
    (h : compoundKind c = some p) : ¬ (isalpha c = true ∨ c = '_') := by
  obtain ⟨two, one⟩ := p
  rcases compoundKind_cases h with h | h | h | h <;>
    (obtain ⟨rfl, -⟩ := h; decide)

theorem word_kind_of_scanHead {c : Char} {r : List Char} {ty : TokenType}
    (h : (scanHead c r).2 = some ty) :
    ((isalpha c = true ∨ c = '_') ∧ ty = kindOfWord (c :: r.take ((scanHead c r).1 - 1))) ∨
    (¬ (isalpha c = true ∨ c = '_') ∧ isKeywordKind ty = false ∧
      ty ≠ TokenType.IDENTIFIER) := by
  rcases scanHead_token h with ⟨hp, hl⟩ | ⟨-, ⟨one, hck⟩, hh, hl⟩ | ⟨-, ⟨two, hck⟩, hh, hl⟩ |
    ⟨-, -, hty, hd, hl⟩ | ⟨-, -, -, ha, hl, hty⟩
  · right
    refine ⟨not_alpha_of_punct hp, ?_⟩
    rcases punctKind_cases hp with h | h | h | h | h | h | h | h | h | h | h | h <;>
      (obtain ⟨-, rfl⟩ := h; decide)
  · right
    refine ⟨not_alpha_of_compound hck, ?_⟩
    rcases compoundKind_cases hck with h | h | h | h <;>
      (obtain ⟨-, rfl, -⟩ := h; decide)
  · right
    refine ⟨not_alpha_of_compound hck, ?_⟩
    rcases compoundKind_cases hck with h | h | h | h
    · obtain ⟨-, -, h3⟩ := h; simp at h3
    · obtain ⟨-, -, h3⟩ := h
      simp only [Option.some.injEq] at h3; subst h3; decide
    · obtain ⟨-, -, h3⟩ := h
      simp only [Option.some.injEq] at h3; subst h3; decide
    · obtain ⟨-, -, h3⟩ := h
      simp only [Option.some.injEq] at h3; subst h3; decide
  · right
    subst hty
    refine ⟨fun ha => ?_, by decide, by decide⟩
    have := (alpha_facts ha).2.2.1
    rw [hd] at this
    exact absurd this (by simp)
  · left
    rw [hl, Nat.add_sub_cancel_left, take_length_takeWhile,
      ← keywordOrIdentifier_eq_kindOfWord]
    exact ⟨ha, hty⟩

/-- C17: a token produced by `tokenize` has the kind of a reserved word if and
only if its lexeme is exactly that reserved word (`int`, `void`, `if`, `else`,
`while`, `return`, `input`, `output`, case-sensitive), and it has kind
`IDENTIFIER` if and only if its lexeme starts with a letter or an underscore
and is none of the eight reserved words; thus `integer`, `if_`, `int1` and
`Int` are each a single `IDENTIFIER` token. -/
theorem keyword_iff_reserved_word (src : List Char) (flag : Bool) :
    (∃ r, tokenize (Lexer.new src flag) = some r ∧
      ∀ t ∈ r.tokens,
        (t.type = TokenType.KEYWORD_INT ↔ t.value = "int".toList) ∧
        (t.type = TokenType.KEYWORD_VOID ↔ t.value = "void".toList) ∧
        (t.type = TokenType.KEYWORD_IF ↔ t.value = "if".toList) ∧
        (t.type = TokenType.KEYWORD_ELSE ↔ t.value = "else".toList) ∧
        (t.type = TokenType.KEYWORD_WHILE ↔ t.value = "while".toList) ∧
        (t.type = TokenType.KEYWORD_RETURN ↔ t.value = "return".toList) ∧
        (t.type = TokenType.KEYWORD_INPUT ↔ t.value = "input".toList) ∧
        (t.type = TokenType.KEYWORD_OUTPUT ↔ t.value = "output".toList) ∧
        (t.type = TokenType.IDENTIFIER ↔
          ((∃ c w, t.value = c :: w ∧ (isalpha c = true ∨ c = '_')) ∧
            t.value ∉ keywords.map Prod.fst))) ∧
    (tokenize (Lexer.new "integer if_ int1 Int".toList flag)).map
        (fun r => r.tokens.map (fun t => (t.type, String.mk t.value))) =
      some [(TokenType.IDENTIFIER, "integer"), (TokenType.IDENTIFIER, "if_"),
        (TokenType.IDENTIFIER, "int1"), (TokenType.IDENTIFIER, "Int"),
        (TokenType.EOF_TOKEN, "")] := by
  refine ⟨?_, by cases flag <;> decide⟩
  obtain ⟨r, h1, -, h3, -, -⟩ := tokenize_spec (Lexer.new src flag)
  simp only [Lexer.new] at h3
  refine ⟨r, h1, ?_⟩
  intro t ht
  rw [h3] at ht
  rcases mem_tokens_cases ht with ht | rfl
  · obtain ⟨o, -, -, -, hk, -, hv, -⟩ := token_source ht
    obtain ⟨k1, k2, k3, k4, k5, k6, k7, k8, k9, k10⟩ := kindOfWord_iff t.value
    rcases word_kind_of_scanHead hk with ⟨ha, hty⟩ | ⟨ha, hkw, hid⟩
    · rw [← hv] at hty
      rw [hty]
      refine ⟨k1, k2, k3, k4, k5, k6, k7, k8, ?_⟩
      rw [k9]
      exact ⟨fun h => ⟨⟨_, _, hv, ha⟩, h⟩, fun h => h.2⟩
    · have hne : ∀ ty, isKeywordKind ty = true → t.type ≠ ty := by
        intro ty h1 h2
        rw [h2, h1] at hkw
        exact absurd hkw (by simp)
      have hnv : ∀ w : List Char, (∃ c w', w = c :: w' ∧ (isalpha c = true ∨ c = '_')) →
          t.value ≠ w := by
        rintro w ⟨c, w', rfl, hc⟩ he
        rw [hv] at he
        simp only [List.cons.injEq] at he
        rw [he.1] at ha
        exact ha hc
      refine ⟨⟨fun h => absurd h (hne _ (by decide)), fun h => absurd h (hnv _ ⟨_, _, rfl, by decide⟩)⟩,
        ⟨fun h => absurd h (hne _ (by decide)), fun h => absurd h (hnv _ ⟨_, _, rfl, by decide⟩)⟩,
        ⟨fun h => absurd h (hne _ (by decide)), fun h => absurd h (hnv _ ⟨_, _, rfl, by decide⟩)⟩,
        ⟨fun h => absurd h (hne _ (by decide)), fun h => absurd h (hnv _ ⟨_, _, rfl, by decide⟩)⟩,
        ⟨fun h => absurd h (hne _ (by decide)), fun h => absurd h (hnv _ ⟨_, _, rfl, by decide⟩)⟩,
        ⟨fun h => absurd h (hne _ (by decide)), fun h => absurd h (hnv _ ⟨_, _, rfl, by decide⟩)⟩,
        ⟨fun h => absurd h (hne _ (by decide)), fun h => absurd h (hnv _ ⟨_, _, rfl, by decide⟩)⟩,
        ⟨fun h => absurd h (hne _ (by decide)), fun h => absurd h (hnv _ ⟨_, _, rfl, by decide⟩)⟩,
        ⟨fun h => absurd h hid, ?_⟩⟩
      rintro ⟨⟨c, w, hcw, hc⟩, -⟩
      exact absurd hcw (hnv _ ⟨c, w, rfl, hc⟩)
  · have e1 : (eofToken src).type = TokenType.EOF_TOKEN := rfl
    have e2 : (eofToken src).value = [] := rfl
    rw [e1, e2]
    refine ⟨⟨fun h => absurd h (by decide), fun h => absurd h (by decide)⟩,
      ⟨fun h => absurd h (by decide), fun h => absurd h (by decide)⟩,
      ⟨fun h => absurd h (by decide), fun h => absurd h (by decide)⟩,
      ⟨fun h => absurd h (by decide), fun h => absurd h (by decide)⟩,
      ⟨fun h => absurd h (by decide), fun h => absurd h (by decide)⟩,
      ⟨fun h => absurd h (by decide), fun h => absurd h (by decide)⟩,
      ⟨fun h => absurd h (by decide), fun h => absurd h (by decide)⟩,
      ⟨fun h => absurd h (by decide), fun h => absurd h (by decide)⟩,
      ⟨fun h => absurd h (by decide), ?_⟩⟩
    rintro ⟨⟨c, w, hcw, -⟩, -⟩
    simp at hcw

/-! ## One-character and two-character operators -/

theorem compound_char_cases {c : Char} (h : c = '=' ∨ c = '<' ∨ c = '>') :
    punctKind c = none ∧
      compoundKind c = some (compoundTokenType c, some (simpleTokenType c)) := by
  rcases h with rfl | rfl | rfl <;> decide

theorem simple_kind_of_scanHead {c : Char} {r : List Char} {ty : TokenType}
    (h : (scanHead c r).2 = some ty)
    (hty : ty = TokenType.OP_ASSIGN ∨ ty = TokenType.OP_LESS ∨ ty = TokenType.OP_GREATER) :
    r.head? ≠ some '=' ∧ (scanHead c r).1 = 1 := by
  have hop : isOperatorKind ty = true := by rcases hty with rfl | rfl | rfl <;> decide
  rcases scanHead_token h with ⟨hp, hl⟩ | ⟨-, ⟨one, hck⟩, hh, hl⟩ | ⟨-, ⟨two, hck⟩, hh, hl⟩ |
    ⟨-, -, hn, -, hl⟩ | ⟨-, -, -, -, hl, hk⟩
  · exfalso
    rcases punctKind_cases hp with h | h | h | h | h | h | h | h | h | h | h | h <;>
      (obtain ⟨-, rfl⟩ := h; revert hty; decide)
  · exfalso
    rcases compoundKind_cases hck with h | h | h | h <;>
      (obtain ⟨-, rfl, -⟩ := h; revert hty; decide)
  · exact ⟨hh, hl⟩
  · exfalso
    subst hn; revert hty; decide
  · exfalso
    rcases keywordOrIdentifier_cases (c :: r.takeWhile isIdChar) with
      h | h | h | h | h | h | h | h | h <;>
      (rw [h.2] at hk; subst hk; revert hty; decide)

/-- C18: every token other than the end-of-input token starts at an offset of
the source and its lexeme is the text from there.  A token of kind
`OP_ASSIGN`, `OP_LESS` or `OP_GREATER` has a one-character lexeme and the
character after it in the source is not `=`.  A token that starts at `=`, `<`
or `>` has the two-character kind (`OP_EQUAL`, `OP_LESS_EQUAL`,
`OP_GREATER_EQUAL`) and a two-character lexeme when the next character is
`=`, and the one-character kind and lexeme otherwise. -/
theorem no_prefix_of_compound_operator (src : List Char) (flag : Bool) :
    ∃ r, tokenize (Lexer.new src flag) = some r ∧
      ∀ t ∈ r.tokens,
        (t.type ≠ TokenType.EOF_TOKEN →
          ∃ o, StartsAt src t o ∧ t.value = substr src o t.value.length) ∧
        ∀ o, StartsAt src t o →
          ((t.type = TokenType.OP_ASSIGN ∨ t.type = TokenType.OP_LESS ∨
              t.type = TokenType.OP_GREATER) →
            t.value.length = 1 ∧ src[o + t.value.length]? ≠ some '=') ∧
          ((charAt src o = '=' ∨ charAt src o = '<' ∨ charAt src o = '>') →
            (src[o + 1]? = some '=' →
              t.type = compoundTokenType (charAt src o) ∧ t.value = [charAt src o, '=']) ∧
            (src[o + 1]? ≠ some '=' →
              t.type = simpleTokenType (charAt src o) ∧ t.value = [charAt src o])) := by
  obtain ⟨r, h1, -, h3, -, -⟩ := tokenize_spec (Lexer.new src flag)
  simp only [Lexer.new] at h3
  refine ⟨r, h1, ?_⟩
  intro t ht
  rw [h3] at ht
  rcases mem_tokens_cases ht with ht | rfl
  · obtain ⟨o, hs, huniq, hd, hk, hlen, hv, hsub, -⟩ := token_source ht
    refine ⟨fun _ => ⟨o, hs, hsub⟩, ?_⟩
    intro o' ho'
    obtain rfl := huniq o' ho'
    have hnext : src[o' + 1]? = (src.drop (o' + 1)).head? := next_char hd 0
    refine ⟨?_, ?_⟩
    · intro hty
      obtain ⟨hh, hl⟩ := simple_kind_of_scanHead hk hty
      rw [hlen, hl, hnext]
      exact ⟨rfl, hh⟩
    · intro hc
      obtain ⟨hp, hck⟩ := compound_char_cases hc
      have hsc := scanHead_compound (src.drop (o' + 1)) hp hck
      rw [hnext]
      refine ⟨?_, ?_⟩
      · intro hh
        rw [if_pos hh] at hsc
        rw [hsc] at hk hv
        simp only [Option.some.injEq] at hk
        refine ⟨hk.symm, ?_⟩
        rw [hv]
        cases hdr : src.drop (o' + 1) with
        | nil => rw [hdr] at hh; simp at hh
        | cons a b =>
          rw [hdr] at hh
          simp only [List.head?_cons, Option.some.injEq] at hh
          subst hh
          rfl
      · intro hh
        rw [if_neg hh] at hsc
        rw [hsc] at hk hv
        simp only [Option.some.injEq] at hk
        exact ⟨hk.symm, by rw [hv]; rfl⟩
  · refine ⟨fun h => absurd rfl h, ?_⟩
    intro o ho
    exact absurd ho (eof_not_StartsAt src o)

/-! ## The lexemes of identifiers and numbers -/

theorem scanHead_alpha {c : Char} (r : List Char) (ha : isalpha c = true ∨ c = '_') :
    scanHead c r = (1 + (r.takeWhile isIdChar).length,
      some (keywordOrIdentifier (c :: r.takeWhile isIdChar))) := by
  obtain ⟨hp, hck, hd, -, -, -⟩ := alpha_facts ha
  rw [scanHead_other r hp hck, if_neg (by simp [hd]), if_pos ha]

/-- C19: the lexeme of every `IDENTIFIER` or keyword token starts with a
letter or an underscore and consists of alphanumeric characters and
underscores, and the character of the source right after the lexeme, if there
is one, is neither alphanumeric nor an underscore; the lexeme of every
`NUMBER` token is a non-empty string of decimal digits, and the character of
the source right after it, if there is one, is not a digit. -/
theorem lexeme_shapes (src : List Char) (flag : Bool) :
    ∃ r, tokenize (Lexer.new src flag) = some r ∧
      ∀ t ∈ r.tokens,
        ((t.type = TokenType.IDENTIFIER ∨ isKeywordKind t.type = true) →
          (∃ c w, t.value = c :: w ∧ (isalpha c = true ∨ c = '_')) ∧
          (∀ x ∈ t.value, isIdChar x = true) ∧
          ∃ o, StartsAt src t o ∧ t.value = substr src o t.value.length ∧
            ∀ y, src[o + t.value.length]? = some y → isIdChar y = false) ∧
        (t.type = TokenType.NUMBER →
          t.value ≠ [] ∧ (∀ x ∈ t.value, isdigit x = true) ∧
          ∃ o, StartsAt src t o ∧ t.value = substr src o t.value.length ∧
            ∀ y, src[o + t.value.length]? = some y → isdigit y = false) := by
  obtain ⟨r, h1, -, h3, -, -⟩ := tokenize_spec (Lexer.new src flag)
  simp only [Lexer.new] at h3
  refine ⟨r, h1, ?_⟩
  intro t ht
  rw [h3] at ht
  rcases mem_tokens_cases ht with ht | rfl
  · obtain ⟨o, hs, -, hd, hk, hlen, hv, hsub, -⟩ := token_source ht
    refine ⟨?_, ?_⟩
    · intro hty
      rcases word_kind_of_scanHead hk with ⟨ha, -⟩ | ⟨-, hkw, hid⟩
      · have hsc := scanHead_alpha (src.drop (o + 1)) ha
        rw [hsc] at hv hlen
        simp only [Nat.add_sub_cancel_left, take_length_takeWhile] at hv
        refine ⟨⟨_, _, hv, ha⟩, ?_, o, hs, hsub, ?_⟩
        · intro x hx
          rw [hv] at hx
          rcases List.mem_cons.mp hx with rfl | hx
          · exact isIdChar_of_isalpha ha
          · exact List.mem_takeWhile_imp hx
        · intro y hy
          rw [hlen, Nat.add_comm 1, next_char hd] at hy
          exact head?_drop_takeWhile _ _ _ hy
      · rcases hty with hty | hty
        · exact absurd hty hid
        · rw [hkw] at hty; exact absurd hty (by simp)
    · intro hty
      rw [hty] at hk
      obtain ⟨hdig, hl⟩ := scanHead_number hk
      rw [hl] at hv hlen
      simp only [Nat.add_sub_cancel_left, take_length_takeWhile] at hv
      refine ⟨by rw [hv]; simp, ?_, o, hs, hsub, ?_⟩
      · intro x hx
        rw [hv] at hx
        rcases List.mem_cons.mp hx with rfl | hx
        · exact hdig
        · exact List.mem_takeWhile_imp hx
      · intro y hy
        rw [hlen, Nat.add_comm 1, next_char hd] at hy
        exact head?_drop_takeWhile _ _ _ hy
  · have e1 : (eofToken src).type = TokenType.EOF_TOKEN := rfl
    rw [e1]
    exact ⟨fun h => absurd h (by decide), fun h => absurd h (by decide)⟩

/-! ## The division operator -/

/-- No item covers, beyond its first character, an offset that holds neither
`=`, nor a digit, nor an identifier character. -/
theorem no_cover {src : List Char} {i : Nat} (he : charAt src i ≠ '=')
    (hd : isdigit (charAt src i) = false) (hid : isIdChar (charAt src i) = false) :
    ∀ it ∈ items src, ¬ (it.off < i ∧ i < it.off + it.len) := by
  intro it hit ⟨h1, h2⟩
  obtain ⟨q, hq⟩ := Nat.exists_eq_add_of_le (Nat.le_of_lt h1)
  rcases item_chars hit (by omega) with ⟨hl, he', -⟩ | ⟨-, hdig⟩ | ⟨-, hidc⟩
  · have hq1 : i = it.off + 1 := by omega
    rw [← hq1] at he'
    exact he he'
  · have := hdig q (by omega)
    rw [← hq, hd] at this
    exact absurd this (by simp)
  · have := hidc q (by omega)
    rw [← hq, hid] at this
    exact absurd this (by simp)

theorem divide_of_scanHead {c : Char} {r : List Char}
    (h : (scanHead c r).2 = some TokenType.OP_DIVIDE) : c = '/' ∧ (scanHead c r).1 = 1 := by
  rcases scanHead_token h with ⟨hp, hl⟩ | ⟨-, ⟨one, hck⟩, hh, hl⟩ | ⟨-, ⟨two, hck⟩, hh, hl⟩ |
    ⟨-, -, hn, -, hl⟩ | ⟨-, -, -, -, hl, hk⟩
  · refine ⟨?_, hl⟩
    rcases punctKind_cases hp with h | h | h | h | h | h | h | h | h | h | h | h
    all_goals first
      | exact h.1
      | exact absurd h.2 (by decide)
  · exfalso
    rcases compoundKind_cases hck with h | h | h | h <;>
      exact absurd h.2.1 (by decide)
  · exfalso
    rcases compoundKind_cases hck with h | h | h | h <;>
      exact absurd h.2.2 (by simp)
  · exact absurd hn (by decide)
  · exfalso
    rcases keywordOrIdentifier_cases (c :: r.takeWhile isIdChar) with
      h | h | h | h | h | h | h | h | h <;>
      (rw [h.2] at hk; exact absurd hk (by decide))

theorem not_InComment_after {a : List Char} (b : List Char) (h : '/' ∉ a) :
    ¬ InComment (a ++ b) a.length := by
  rintro ⟨k, hk, h1, -, -⟩
  apply h
  rw [charAt_append_left a b k hk] at h1
  rw [← h1, charAt, List.getD_eq_getElem _ _ hk]
  exact List.getElem_mem _

/-- C20: in a source `a ++ "/" ++ b` where `a` contains no `/` and `b` does
not start with `/`, the tokens at the line and column of that `/` are exactly
one `OP_DIVIDE` token with lexeme `/`; and in every output each `OP_DIVIDE`
token has lexeme `/`, starts at a `/` of the source, and the character of the
source right after it is not `/`. -/
theorem slash_is_division (a b : List Char) (flag : Bool) (ha : '/' ∉ a)
    (hb : b.head? ≠ some '/') :
    (∃ r, tokenize (Lexer.new (a ++ '/' :: b) flag) = some r ∧
      r.tokens.filter (fun t => decide (t.line = lineAt (a ++ '/' :: b) a.length ∧
          t.column = colAt (a ++ '/' :: b) a.length)) =
        [⟨TokenType.OP_DIVIDE, ['/'], none, lineAt (a ++ '/' :: b) a.length,
          colAt (a ++ '/' :: b) a.length⟩]) ∧
    ∀ src : List Char, ∃ r, tokenize (Lexer.new src flag) = some r ∧
      ∀ t ∈ r.tokens, t.type = TokenType.OP_DIVIDE →
        t.value = ['/'] ∧
        ∃ o, StartsAt src t o ∧ charAt src o = '/' ∧ src[o + 1]? ≠ some '/' := by
  refine ⟨?_, ?_⟩
  · obtain ⟨r, h1, -, h3, -, -⟩ := tokenize_spec (Lexer.new (a ++ '/' :: b) flag)
    simp only [Lexer.new] at h3
    refine ⟨r, h1, ?_⟩
    have hi : a.length < (a ++ '/' :: b).length := by simp
    have hch : charAt (a ++ '/' :: b) a.length = '/' := by
      have := charAt_append_right a ('/' :: b) 0
      simpa [charAt] using this
    have hdr : (a ++ '/' :: b).drop (a.length + 1) = b := by
      rw [List.drop_append_eq_append_drop]
      simp
    have hitem := item_at_source hi (by rw [hch]; decide)
      (by rw [hch, hdr]; exact fun h => hb h.2) (not_InComment_after _ ha)
      (no_cover (by rw [hch]; decide) (by rw [hch]; decide) (by rw [hch]; decide))
    rw [hch, scanHead_punct _ (show punctKind '/' = some TokenType.OP_DIVIDE by decide)]
      at hitem
    have ht := tokens_at_item hitem
    rw [h3, List.filter_append, filter_eof_at _ _ hi, List.append_nil, ht]
    have hs : substr (a ++ '/' :: b) a.length 1 = ['/'] := by
      rw [substr, drop_eq_charAt_cons _ _ hi, hch]; rfl
    simp only [itemToken, Option.map_some', Option.toList_some, hs]
    rfl
  · intro src
    obtain ⟨r, h1, -, h3, -, -⟩ := tokenize_spec (Lexer.new src flag)
    simp only [Lexer.new] at h3
    refine ⟨r, h1, ?_⟩
    intro t ht hty
    rw [h3] at ht
    rcases mem_tokens_cases ht with ht | rfl
    · obtain ⟨o, hs, -, hd, hk, -, hv, -, -, -, -, hnc, -⟩ := token_source ht
      rw [hty] at hk
      obtain ⟨hc, hl⟩ := divide_of_scanHead hk
      rw [hl, hc] at hv
      refine ⟨by rw [hv]; rfl, o, hs, hc, ?_⟩
      have hnext : src[o + 1]? = (src.drop (o + 1)).head? := next_char hd 0
      rw [hnext]
      exact fun h => hnc ⟨hc, h⟩
    · exact absurd (show TokenType.EOF_TOKEN = TokenType.OP_DIVIDE from hty) (by decide)

/-- The hypotheses of `slash_is_division` hold of `a = "x "` and `b = " y"`:
the source `x / y` has one `OP_DIVIDE` token at line 1, column 3. -/
theorem slash_is_division_witness :
    '/' ∉ "x ".toList ∧ " y".toList.head? ≠ some '/' ∧
      ∃ r, tokenize (Lexer.new ("x ".toList ++ '/' :: " y".toList) false) = some r ∧
        r.tokens.filter (fun t => decide (t.line = lineAt ("x ".toList ++ '/' :: " y".toList) 2 ∧
            t.column = colAt ("x ".toList ++ '/' :: " y".toList) 2)) =
          [⟨TokenType.OP_DIVIDE, ['/'], none, lineAt ("x ".toList ++ '/' :: " y".toList) 2,
            colAt ("x ".toList ++ '/' :: " y".toList) 2⟩] :=
  ⟨by decide, by decide,
    (slash_is_division "x ".toList " y".toList false (by decide) (by decide)).1⟩

/-! ## The text of the diagnostics -/

/-- C15, amended: for an invalid character outside every line comment, exactly
one diagnostic is reported at its line and column, and its message is exactly
`Unexpected character '!' (expected '!=')` when the character is a `!` (not
followed by `=`), and exactly `Unexpected character '<c>'`, with the character
substituted, otherwise: the messages begin with a capital `U`. -/
theorem unexpected_character_message (src : List Char) (flag : Bool) (i : Nat)
    (hi : i < src.length) (hbad : isBadAt src i = true) (hnc : ¬ InComment src i) :
    ∃ r, tokenize (Lexer.new src flag) = some r ∧
      r.cerr.filter (fun d => decide (d.line = lineAt src i ∧ d.column = colAt src i)) =
        [⟨lineAt src i, colAt src i,
          if charAt src i = '!' then "Unexpected character '!' (expected '!=')".toList
          else "Unexpected character '".toList ++ [charAt src i] ++ "'".toList⟩] := by
  obtain ⟨r, h1, -, -, h4, -⟩ := tokenize_spec (Lexer.new src flag)
  simp only [Lexer.new, List.nil_append] at h4
  refine ⟨r, h1, ?_⟩
  obtain ⟨hb, hs, he, hd, hid, hsh⟩ := bad_facts hbad
  have hitem := item_at_source hi hb (fun h => hs h.1) hnc (no_cover he hd hid)
  rw [hsh] at hitem
  rw [h4, diags_at_item hitem]
  rfl

/-- The hypotheses of `unexpected_character_message` hold at offset 2 of the
source `a @`. -/
theorem unexpected_character_message_witness :
    ∃ r, tokenize (Lexer.new "a @".toList false) = some r ∧
      r.cerr.filter (fun d => decide (d.line = lineAt "a @".toList 2 ∧
          d.column = colAt "a @".toList 2)) =
        [⟨lineAt "a @".toList 2, colAt "a @".toList 2,
          if charAt "a @".toList 2 = '!' then "Unexpected character '!' (expected '!=')".toList
          else "Unexpected character '".toList ++ [charAt "a @".toList 2] ++ "'".toList⟩] :=
  unexpected_character_message "a @".toList false 2 (by decide) (by decide) (by decide)

/-- C15 as stated fails: the only diagnostic of the source `!` has the message
`Unexpected character '!' (expected '!=')` and the only diagnostic of the
source `@` has the message `Unexpected character '@'`; neither is the text
with a lower-case `u`. -/
theorem unexpected_character_message_not_lower_case :
    (tokenize (Lexer.new "!".toList false)).map (fun r => r.cerr) =
        some [⟨1, 1, "Unexpected character '!' (expected '!=')".toList⟩] ∧
      (tokenize (Lexer.new "@".toList false)).map (fun r => r.cerr) =
        some [⟨1, 1, "Unexpected character '@'".toList⟩] ∧
      (¬ ∃ r, tokenize (Lexer.new "!".toList false) = some r ∧
        ∃ d ∈ r.cerr, d.message = "unexpected character '!' (expected '!=')".toList) ∧
      ¬ ∃ r, tokenize (Lexer.new "@".toList false) = some r ∧
        ∃ d ∈ r.cerr, d.message = "unexpected character '@'".toList := by
  have hev1 : (tokenize (Lexer.new "!".toList false)).map (fun r => r.cerr) =
      some [⟨1, 1, "Unexpected character '!' (expected '!=')".toList⟩] := by decide
  have hev2 : (tokenize (Lexer.new "@".toList false)).map (fun r => r.cerr) =
      some [⟨1, 1, "Unexpected character '@'".toList⟩] := by decide
  refine ⟨hev1, hev2, ?_, ?_⟩
  · rintro ⟨r, hr, d, hd, hm⟩
    rw [hr] at hev1
    simp only [Option.map_some', Option.some.injEq] at hev1
    rw [hev1, List.mem_singleton] at hd
    subst hd
    revert hm
    decide
  · rintro ⟨r, hr, d, hd, hm⟩
    rw [hr] at hev2
    simp only [Option.map_some', Option.some.injEq] at hev2
    rw [hev2, List.mem_singleton] at hd
    subst hd
    revert hm
    decide

/-! ## Progress of the loops and the cursor invariant -/

theorem commentLen_drop_le (src : List Char) (i : Nat) (h : i ≤ src.length) :
    i + commentLen (src.drop i) ≤ src.length := by
  have := commentLen_le (src.drop i)
  rw [List.length_drop] at this
  omega

/-- One iteration of the comment-body loop: it exits with the state unchanged,
or it continues with the cursor moved by one. -/
theorem skipCommentBody_step (fuel : Nat) (s : Lexer) (h : CursorOK s) :
    skipCommentBody (fuel + 1) s = some s ∨
      ∃ s', Advances s s' ∧ CursorOK s' ∧ s'.start_lexeme_idx = s.start_lexeme_idx ∧
        skipCommentBody (fuel + 1) s = skipCommentBody fuel s' := by
  rw [skipCommentBody]
  by_cases hc : s.current_char_idx < s.source_code.length ∧
      charAt s.source_code s.current_char_idx ≠ '\n'
  · right
    rw [if_pos hc]
    refine ⟨{ s with current_char_idx := s.current_char_idx + 1, column := s.column + 1 },
      ⟨rfl, ?_, ?_⟩, ⟨?_, ?_⟩, rfl, rfl⟩
    · simp only; omega
    · simp only; omega
    · simp only; have := h.1; omega
    · simp only; omega
  · left
    rw [if_neg hc]

/-- One iteration of the loop of `skipWhitespaceAndComments`: it exits with
the state unchanged, or it continues with the cursor strictly further. -/
theorem skipLoop_step (fuel : Nat) (s : Lexer) (h : CursorOK s) :
    skipLoop (fuel + 1) s = some s ∨
      ∃ s', Advances s s' ∧ CursorOK s' ∧ s'.start_lexeme_idx = s.start_lexeme_idx ∧
        s'.tokens = s.tokens ∧ skipLoop (fuel + 1) s = skipLoop fuel s' := by
  rw [skipLoop]
  by_cases he : isAtEnd s = true
  · left; rw [if_pos he]
  · rw [if_neg he]
    have hlt : s.current_char_idx < s.source_code.length := by
      simpa [isAtEnd] using he
    simp only
    by_cases h1 : charAt s.source_code s.current_char_idx = ' ' ∨
        charAt s.source_code s.current_char_idx = '\r' ∨
        charAt s.source_code s.current_char_idx = '\t'
    · right
      rw [if_pos h1]
      refine ⟨{ s with current_char_idx := s.current_char_idx + 1, column := s.column + 1 },
        ⟨rfl, ?_, ?_⟩, ⟨?_, ?_⟩, rfl, rfl, rfl⟩
      · simp only; omega
      · simp only; omega
      · simp only; have := h.1; omega
      · simp only; omega
    · rw [if_neg h1]
      by_cases h2 : charAt s.source_code s.current_char_idx = '\n'
      · right
        rw [if_pos h2]
        refine ⟨{ s with
            current_char_idx := s.current_char_idx + 1, line := s.line + 1, column := 0 },
          ⟨rfl, ?_, ?_⟩, ⟨?_, ?_⟩, rfl, rfl, rfl⟩
        · simp only; omega
        · simp only; omega
        · simp only; have := h.1; omega
        · simp only; omega
      · rw [if_neg h2]
        by_cases h3 : charAt s.source_code s.current_char_idx = '/'
        · rw [if_pos h3]
          by_cases h4 : s.current_char_idx + 1 < s.source_code.length ∧
              charAt s.source_code (s.current_char_idx + 1) = '/'
          · right
            rw [if_pos h4]
            have hsp := skipCommentBody_spec (s.source_code.length + 1)
              { s with current_char_idx := s.current_char_idx + 2, column := s.column + 2 }
              (by simp only; omega) (by simp only; omega)
            rw [hsp, Option.some_bind]
            have hle := commentLen_drop_le s.source_code (s.current_char_idx + 2) (by omega)
            refine ⟨{ s with
                current_char_idx := s.current_char_idx + 2 +
                  commentLen (s.source_code.drop (s.current_char_idx + 2)),
                column := s.column + 2 +
                  commentLen (s.source_code.drop (s.current_char_idx + 2)) },
              ⟨rfl, ?_, ?_⟩, ⟨?_, ?_⟩, rfl, rfl, rfl⟩
            · simp only; omega
            · simp only; omega
            · simp only; have := h.1; omega
            · simp only; omega
          · left; rw [if_neg h4]
        · left; rw [if_neg h3]

/-- With enough fuel the loop of `skipWhitespaceAndComments` returns. -/
theorem skipLoop_total : ∀ (fuel : Nat) (s : Lexer), CursorOK s →
    s.source_code.length < s.current_char_idx + fuel →
    ∃ r, skipLoop fuel s = some r ∧ r.source_code = s.source_code ∧ CursorOK r ∧
      s.current_char_idx ≤ r.current_char_idx ∧ r.start_lexeme_idx = s.start_lexeme_idx ∧
      r.tokens = s.tokens := by
  intro fuel
  induction fuel with
  | zero => intro s h hf; have := h.2; omega
  | succ n ih =>
    intro s h hf
    rcases skipLoop_step n s h with h1 | ⟨s', ⟨ha1, ha2, ha3⟩, hc, hst, htk, heq⟩
    · exact ⟨s, h1, rfl, h, Nat.le_refl _, rfl, rfl⟩
    · obtain ⟨r, hr1, hr2, hr3, hr4, hr5, hr6⟩ := ih s' hc (by rw [ha1]; omega)
      exact ⟨r, by rw [heq, hr1], by rw [hr2, ha1], hr3, by omega, by rw [hr5, hst],
        by rw [hr6, htk]⟩

/-- Whatever the fuel, a result of the loop of `skipWhitespaceAndComments`
satisfies the cursor invariant. -/
theorem skipLoop_bounds : ∀ (fuel : Nat) (s r : Lexer), CursorOK s →
    skipLoop fuel s = some r →
    r.source_code = s.source_code ∧ CursorOK r ∧ s.current_char_idx ≤ r.current_char_idx ∧
      r.start_lexeme_idx = s.start_lexeme_idx := by
  intro fuel
  induction fuel with
  | zero => intro s r _ h; simp [skipLoop] at h
  | succ n ih =>
    intro s r h hr
    rcases skipLoop_step n s h with h1 | ⟨s', ⟨ha1, ha2, ha3⟩, hc, hst, -, heq⟩
    · rw [h1] at hr
      simp only [Option.some.injEq] at hr
      subst hr
      exact ⟨rfl, h, Nat.le_refl _, rfl⟩
    · rw [heq] at hr
      obtain ⟨hr2, hr3, hr4, hr5⟩ := ih s' r hc hr
      exact ⟨by rw [hr2, ha1], hr3, by omega, by rw [hr5, hst]⟩

theorem takeWhile_drop_le (p : Char → Bool) (src : List Char) (i : Nat) (h : i ≤ src.length) :
    i + ((src.drop i).takeWhile p).length ≤ src.length := by
  have := length_takeWhile_le p (src.drop i)
  rw [List.length_drop] at this
  omega

/-- The loop of `readNumber` moves the cursor only when it is before the end
of the source. -/
theorem isdigit_peek_lt (s : Lexer) (h : isdigit (peek s) = true) :
    s.current_char_idx < s.source_code.length := by
  by_contra hge
  rw [peek_of_ge s (by omega)] at h
  exact absurd h (by decide)

/-- The loop of `readIdentifierOrKeyword` moves the cursor only when it is
before the end of the source. -/
theorem isalnum_peek_lt (s : Lexer) (h : isalnum (peek s) = true ∨ peek s = '_') :
    s.current_char_idx < s.source_code.length := by
  by_contra hge
  rw [peek_of_ge s (by omega)] at h
  revert h
  decide

/-- The method `match` moves the cursor, by one, only when it is before the
end of the source. -/
theorem matchChar_lt (e : Char) (s : Lexer) :
    ((matchChar e s).1 = true → s.current_char_idx < s.source_code.length ∧
      (matchChar e s).2.current_char_idx = s.current_char_idx + 1) ∧
    ((matchChar e s).1 = false → (matchChar e s).2 = s) ∧
    (matchChar e s).2.source_code = s.source_code ∧
    (matchChar e s).2.start_lexeme_idx = s.start_lexeme_idx ∧
    s.current_char_idx ≤ (matchChar e s).2.current_char_idx ∧
    (s.current_char_idx ≤ s.source_code.length →
      (matchChar e s).2.current_char_idx ≤ s.source_code.length) := by
  unfold matchChar
  by_cases he : isAtEnd s = true
  · rw [if_pos he]
    simp
  · rw [if_neg he]
    have hlt : s.current_char_idx < s.source_code.length := by simpa [isAtEnd] using he
    by_cases hc : charAt s.source_code s.current_char_idx ≠ e
    · rw [if_pos hc]
      simp
    · rw [if_neg hc]
      simp only [true_implies, and_true, Bool.true_eq_false, false_implies, true_and]
      exact ⟨hlt, by omega, fun _ => by omega⟩

/-- One iteration of the loop of `readNumber`. -/
theorem readNumberLoop_step (fuel : Nat) (s : Lexer) (h : CursorOK s) :
    readNumberLoop (fuel + 1) s = some s ∨
      ∃ s', Advances s s' ∧ CursorOK s' ∧ s'.start_lexeme_idx = s.start_lexeme_idx ∧
        readNumberLoop (fuel + 1) s = readNumberLoop fuel s' := by
  rw [readNumberLoop]
  by_cases hd : isdigit (peek s) = true
  · right
    rw [if_pos hd]
    have hlt := isdigit_peek_lt s hd
    refine ⟨{ (advance s).2 with column := s.column + 1 }, ⟨rfl, ?_, ?_⟩, ⟨?_, ?_⟩, rfl, rfl⟩
    · simp only [advance]; omega
    · simp only [advance]; omega
    · simp only [advance]; have := h.1; omega
    · simp only [advance]; omega
  · left
    rw [if_neg hd]

/-- One iteration of the loop of `readIdentifierOrKeyword`. -/
theorem readIdentifierLoop_step (fuel : Nat) (s : Lexer) (h : CursorOK s) :
    readIdentifierLoop (fuel + 1) s = some s ∨
      ∃ s', Advances s s' ∧ CursorOK s' ∧ s'.start_lexeme_idx = s.start_lexeme_idx ∧
        readIdentifierLoop (fuel + 1) s = readIdentifierLoop fuel s' := by
  rw [readIdentifierLoop]
  by_cases hd : isalnum (peek s) = true ∨ peek s = '_'
  · right
    rw [if_pos hd]
    have hlt := isalnum_peek_lt s hd
    refine ⟨{ (advance s).2 with column := s.column + 1 }, ⟨rfl, ?_, ?_⟩, ⟨?_, ?_⟩, rfl, rfl⟩
    · simp only [advance]; omega
    · simp only [advance]; omega
    · simp only [advance]; have := h.1; omega
    · simp only [advance]; omega
  · left
    rw [if_neg hd]

theorem readNumber_bounds (s : Lexer) (h : CursorOK s) :
    ∃ r, readNumber s = some r ∧ r.source_code = s.source_code ∧
      r.start_lexeme_idx = s.start_lexeme_idx ∧ s.current_char_idx ≤ r.current_char_idx ∧
      r.current_char_idx ≤ s.source_code.length := by
  have hle := takeWhile_drop_le isdigit s.source_code s.current_char_idx h.2
  rw [readNumber, readNumberLoop_spec _ s h.2 (by omega)]
  simp only [Option.map_some']
  refine ⟨_, rfl, ?_⟩
  split <;> simp only [addToken, reportLexerError] <;> refine ⟨?_, ?_, ?_, ?_⟩ <;>
    first | trivial | omega

theorem readIdentifierOrKeyword_bounds (s : Lexer) (h : CursorOK s) :
    ∃ r, readIdentifierOrKeyword s = some r ∧ r.source_code = s.source_code ∧
      r.start_lexeme_idx = s.start_lexeme_idx ∧ s.current_char_idx ≤ r.current_char_idx ∧
      r.current_char_idx ≤ s.source_code.length := by
  have hle := takeWhile_drop_le isIdChar s.source_code s.current_char_idx h.2
  rw [readIdentifierOrKeyword, readIdentifierLoop_spec _ s h.2 (by omega)]
  simp only [Option.map_some']
  refine ⟨_, rfl, ?_⟩
  split <;> simp only [addToken] <;> refine ⟨?_, ?_, ?_, ?_⟩ <;>
    first | trivial | omega

/-- One call of `scanToken` before the end of the source returns, with the
cursor strictly further and within the source. -/
theorem scanToken_bounds (s : Lexer) (hlt : s.current_char_idx < s.source_code.length)
    (h : CursorOK s) :
    ∃ r, scanToken s = some r ∧ Advances s r ∧ CursorOK r ∧
      r.start_lexeme_idx = s.start_lexeme_idx := by
  have hs1 : CursorOK { (advance s).2 with column := s.column + 1 } := by
    refine ⟨?_, ?_⟩
    · simp only [advance]; have := h.1; omega
    · simp only [advance]; omega
  have key : ∀ r, r.source_code = s.source_code → r.start_lexeme_idx = s.start_lexeme_idx →
      s.current_char_idx + 1 ≤ r.current_char_idx →
      r.current_char_idx ≤ s.source_code.length →
      Advances s r ∧ CursorOK r ∧ r.start_lexeme_idx = s.start_lexeme_idx := by
    intro r h1 h2 h3 h4
    have := h.1
    exact ⟨⟨h1, by omega, by rw [h1]; exact h4⟩, ⟨by omega, by rw [h1]; exact h4⟩, h2⟩
  obtain ⟨-, -, m3, m4, m5, m6⟩ := matchChar_lt '=' { (advance s).2 with column := s.column + 1 }
  have m6' := m6 hs1.2
  simp only [advance] at m3 m4 m5 m6'
  rw [scanToken_eq]
  cases hpk : punctKind (advance s).1 with
  | some ty =>
    simp only
    exact ⟨_, rfl, key _ rfl rfl (by simp [addToken, advance]) (by simp [addToken, advance]; omega)⟩
  | none =>
    simp only
    cases hck : compoundKind (advance s).1 with
    | some p =>
      obtain ⟨two, one⟩ := p
      simp only
      by_cases hm : (matchChar '=' { (advance s).2 with column := s.column + 1 }).1 = true
      · rw [if_pos hm]
        exact ⟨_, rfl, key _ m3 m4 m5 m6'⟩
      · rw [if_neg hm]
        cases one with
        | some ty => exact ⟨_, rfl, key _ m3 m4 m5 m6'⟩
        | none => exact ⟨_, rfl, key _ m3 m4 m5 m6'⟩
    | none =>
      simp only
      by_cases hd : isdigit (advance s).1 = true
      · rw [if_pos hd]
        obtain ⟨r, hr, r1, r2, r3, r4⟩ := readNumber_bounds _ hs1
        exact ⟨r, hr, key r r1 r2 r3 r4⟩
      · rw [if_neg hd]
        by_cases ha : isalpha (advance s).1 = true ∨ (advance s).1 = '_'
        · rw [if_pos ha]
          obtain ⟨r, hr, r1, r2, r3, r4⟩ := readIdentifierOrKeyword_bounds _ hs1
          exact ⟨r, hr, key r r1 r2 r3 r4⟩
        · rw [if_neg ha]
          exact ⟨_, rfl, key _ rfl rfl (by simp [reportLexerError, advance])
            (by simp [reportLexerError, advance]; omega)⟩

theorem skipLoop_at_end (fuel : Nat) (s : Lexer) (h : isAtEnd s = true) :
    skipLoop (fuel + 1) s = some s := by
  rw [skipLoop, if_pos h]

/-- One iteration of the main loop of `tokenize`: it exits at the end of the
source, or it scans one item and continues with the cursor strictly
further. -/
theorem tokenizeLoop_step (fuel : Nat) (s : Lexer) (h : CursorOK s) :
    (∃ r, tokenizeLoop (fuel + 1) s = some r ∧ r.source_code = s.source_code ∧
      r.current_char_idx = r.source_code.length ∧ CursorOK r) ∨
    ∃ s1 s', skipWhitespaceAndComments s = some s1 ∧ CursorOK s1 ∧
      s1.current_char_idx < s1.source_code.length ∧
      scanToken { s1 with start_lexeme_idx := s1.current_char_idx,
                          current_token_start_column := s1.column + 1 } = some s' ∧
      s'.start_lexeme_idx = s1.current_char_idx ∧ Advances s s' ∧ CursorOK s' ∧
      tokenizeLoop (fuel + 1) s = tokenizeLoop fuel s' := by
  obtain ⟨s1, hs1, hsrc, hc1, hle, -, -⟩ :=
    skipLoop_total (s.source_code.length + 1) s h (by omega)
  have hsk : skipWhitespaceAndComments s = some s1 := hs1
  rw [tokenizeLoop, hsk, Option.some_bind]
  by_cases he : isAtEnd s1 = true
  · left
    rw [if_pos he]
    refine ⟨s1, rfl, hsrc, ?_, hc1⟩
    have : s1.source_code.length ≤ s1.current_char_idx := by simpa [isAtEnd] using he
    have := hc1.2
    omega
  · right
    rw [if_neg he]
    have hlt : s1.current_char_idx < s1.source_code.length := by simpa [isAtEnd] using he
    obtain ⟨s', hs', ⟨a1, a2, a3⟩, hc', hst⟩ := scanToken_bounds
      { s1 with start_lexeme_idx := s1.current_char_idx,
                current_token_start_column := s1.column + 1 } hlt ⟨Nat.le_refl _, hc1.2⟩
    refine ⟨s1, s', rfl, hc1, hlt, hs', hst, ⟨?_, ?_, a3⟩, hc', ?_⟩
    · rw [a1]; exact hsrc
    · simp only at a2; omega
    · rw [hs', Option.some_bind]

/-- With enough fuel the main loop of `tokenize` returns, at the end of the
source. -/
theorem tokenizeLoop_total : ∀ (fuel : Nat) (s : Lexer), CursorOK s →
    s.source_code.length < s.current_char_idx + fuel →
    ∃ r, tokenizeLoop fuel s = some r ∧ r.source_code = s.source_code ∧
      r.current_char_idx = r.source_code.length ∧ CursorOK r := by
  intro fuel
  induction fuel with
  | zero => intro s h hf; have := h.2; omega
  | succ n ih =>
    intro s h hf
    rcases tokenizeLoop_step n s h with h1 | ⟨s1, s', -, -, -, -, -, ⟨a1, a2, a3⟩, hc, heq⟩
    · exact h1
    · obtain ⟨r, hr1, hr2, hr3, hr4⟩ := ih s' hc (by rw [a1]; omega)
      exact ⟨r, by rw [heq, hr1], by rw [hr2, a1], hr3, hr4⟩

/-- The items of a source of invalid characters have no token. -/
theorem tokensOf_all_bad {src : List Char} (h : ∀ i, i < src.length → isBadAt src i = true) :
    tokensOf src (items src) = [] := by
  rw [List.eq_nil_iff_forall_not_mem]
  intro t ht
  obtain ⟨it, hit, ty, hk, -⟩ := mem_tokensOf ht
  obtain ⟨c, r, h1, -, h4, -⟩ := item_text hit
  obtain ⟨hlt, -, -⟩ := items_off_lt hit
  rw [drop_eq_charAt_cons src it.off hlt] at h1
  simp only [List.cons.injEq] at h1
  obtain ⟨hc, hr⟩ := h1
  subst hc hr
  rw [(bad_facts (h it.off hlt)).2.2.2.2.2, hk] at h4
  simp at h4

theorem cursorOK_new (src : List Char) (flag : Bool) : CursorOK (Lexer.new src flag) :=
  ⟨Nat.le_refl _, Nat.zero_le _⟩

/-- The scan of a freshly built `Lexer`: the main loop ends with the cursor at
the end of the source, and `tokenize` returns that state with the end-of-input
token appended. -/
theorem tokenize_new_cursor (src : List Char) (flag : Bool) :
    ∃ s1, tokenizeLoop (src.length + 1) (Lexer.new src flag) = some s1 ∧ CursorOK s1 ∧
      s1.source_code = src ∧ s1.current_char_idx = src.length ∧
      tokenize (Lexer.new src flag) = some { s1 with
        tokens := s1.tokens ++ [⟨TokenType.EOF_TOKEN, [], none, s1.line, s1.column + 1⟩] } := by
  obtain ⟨s1, h1, h2, h3, h4⟩ := tokenizeLoop_total (src.length + 1) (Lexer.new src flag)
    (cursorOK_new src flag) (by simp [Lexer.new])
  have h2' : s1.source_code = src := h2
  refine ⟨s1, h1, h4, h2', by rw [h3, h2'], ?_⟩
  have hu : tokenize (Lexer.new src flag) =
      (tokenizeLoop (src.length + 1) (Lexer.new src flag)).bind fun s1 =>
        (if s1.tokens ≠ [] ∨ 0 < s1.source_code.length then skipWhitespaceAndComments s1
         else some s1).map fun s2 =>
          { s2 with tokens := s2.tokens ++
              [⟨TokenType.EOF_TOKEN, [], none, s2.line, s2.column + 1⟩] } := rfl
  have hsk : skipWhitespaceAndComments s1 = some s1 :=
    skipLoop_at_end _ s1 (by simp [isAtEnd, h3])
  rw [hu, h1, Option.some_bind, hsk]
  simp

/-! ## Termination -/

/-- C16: `tokenize` returns on every state, hence on every source text.  Each
iteration of the skipper of white space and comments, of its inner comment
loop and of the main loop either exits or hands to the next iteration a state
whose cursor is strictly greater and at most the length of the source.  On a
source that consists only of invalid characters the scan returns too, with the
end-of-input token alone. -/
theorem tokenize_total (flag : Bool) :
    (∀ s : Lexer, ∃ r, tokenize s = some r) ∧
    (∀ src : List Char, CursorOK (Lexer.new src flag)) ∧
    (∀ (fuel : Nat) (s : Lexer), CursorOK s →
      skipLoop (fuel + 1) s = some s ∨
        ∃ s', Advances s s' ∧ CursorOK s' ∧ skipLoop (fuel + 1) s = skipLoop fuel s') ∧
    (∀ (fuel : Nat) (s : Lexer), CursorOK s →
      skipCommentBody (fuel + 1) s = some s ∨
        ∃ s', Advances s s' ∧ CursorOK s' ∧
          skipCommentBody (fuel + 1) s = skipCommentBody fuel s') ∧
    (∀ (fuel : Nat) (s : Lexer), CursorOK s →
      (∃ r, tokenizeLoop (fuel + 1) s = some r ∧
        r.current_char_idx = r.source_code.length) ∨
      ∃ s', Advances s s' ∧ CursorOK s' ∧
        tokenizeLoop (fuel + 1) s = tokenizeLoop fuel s') ∧
    (∀ src : List Char, ∃ s1, tokenizeLoop (src.length + 1) (Lexer.new src flag) = some s1 ∧
      s1.current_char_idx = src.length) ∧
    (∀ src : List Char, (∀ i, i < src.length → isBadAt src i = true) →
      ∃ r, tokenize (Lexer.new src flag) = some r ∧ r.tokens = [eofToken src]) := by
  refine ⟨?_, fun src => cursorOK_new src flag, ?_, ?_, ?_, ?_, ?_⟩
  · intro s
    obtain ⟨r, hr, -⟩ := tokenize_spec s
    exact ⟨r, hr⟩
  · intro fuel s h
    rcases skipLoop_step fuel s h with h1 | ⟨s', ha, hc, -, -, heq⟩
    · exact Or.inl h1
    · exact Or.inr ⟨s', ha, hc, heq⟩
  · intro fuel s h
    rcases skipCommentBody_step fuel s h with h1 | ⟨s', ha, hc, -, heq⟩
    · exact Or.inl h1
    · exact Or.inr ⟨s', ha, hc, heq⟩
  · intro fuel s h
    rcases tokenizeLoop_step fuel s h with ⟨r, h1, -, h3, -⟩ | ⟨s1, s', -, -, -, -, -, ha, hc, heq⟩
    · exact Or.inl ⟨r, h1, h3⟩
    · exact Or.inr ⟨s', ha, hc, heq⟩
  · intro src
    obtain ⟨s1, h1, -, -, h4, -⟩ := tokenize_new_cursor src flag
    exact ⟨s1, h1, h4⟩
  · intro src hbad
    obtain ⟨r, h1, -, h3, -, -⟩ := tokenize_spec (Lexer.new src flag)
    simp only [Lexer.new] at h3
    refine ⟨r, h1, ?_⟩
    rw [h3, tokensOf_all_bad hbad, List.nil_append]

/-! ## The cursor invariant -/

/-- C22: in the scan of a freshly built `Lexer`, lexeme-start offset ≤ current
offset ≤ source length holds of the initial state, of the state that every
iteration of every loop hands to the next one, of the state before and after
every call of `scanToken`, and of the final state.  The cursor is moved by
`scanToken` (its `advance`), by the loops of `readNumber` and of
`readIdentifierOrKeyword` and by `match` only when it is strictly before the
end, and the substring taken between the two offsets lies within the
source. -/
theorem cursor_invariant (src : List Char) (flag : Bool) :
    CursorOK (Lexer.new src flag) ∧
    (∃ s1 r, tokenizeLoop (src.length + 1) (Lexer.new src flag) = some s1 ∧ CursorOK s1 ∧
      tokenize (Lexer.new src flag) = some r ∧ CursorOK r ∧
      r.current_char_idx = src.length) ∧
    (∀ (fuel : Nat) (s : Lexer), CursorOK s →
      (∃ r, tokenizeLoop (fuel + 1) s = some r ∧ CursorOK r) ∨
      ∃ s1 s', skipWhitespaceAndComments s = some s1 ∧ CursorOK s1 ∧
        s1.current_char_idx < s1.source_code.length ∧
        scanToken { s1 with start_lexeme_idx := s1.current_char_idx,
                            current_token_start_column := s1.column + 1 } = some s' ∧
        s'.start_lexeme_idx = s1.current_char_idx ∧ CursorOK s' ∧
        tokenizeLoop (fuel + 1) s = tokenizeLoop fuel s') ∧
    (∀ (fuel : Nat) (s : Lexer), CursorOK s →
      skipLoop (fuel + 1) s = some s ∨
        ∃ s', CursorOK s' ∧ s'.source_code = s.source_code ∧
          skipLoop (fuel + 1) s = skipLoop fuel s') ∧
    (∀ (fuel : Nat) (s : Lexer), CursorOK s →
      skipCommentBody (fuel + 1) s = some s ∨
        ∃ s', CursorOK s' ∧ s'.source_code = s.source_code ∧
          skipCommentBody (fuel + 1) s = skipCommentBody fuel s') ∧
    (∀ (fuel : Nat) (s : Lexer), CursorOK s →
      readNumberLoop (fuel + 1) s = some s ∨
        ∃ s', CursorOK s' ∧ s'.source_code = s.source_code ∧
          s.current_char_idx < s.source_code.length ∧
          readNumberLoop (fuel + 1) s = readNumberLoop fuel s') ∧
    (∀ (fuel : Nat) (s : Lexer), CursorOK s →
      readIdentifierLoop (fuel + 1) s = some s ∨
        ∃ s', CursorOK s' ∧ s'.source_code = s.source_code ∧
          s.current_char_idx < s.source_code.length ∧
          readIdentifierLoop (fuel + 1) s = readIdentifierLoop fuel s') ∧
    (∀ (e : Char) (s : Lexer), CursorOK s →
      CursorOK (matchChar e s).2 ∧
        ((matchChar e s).1 = true → s.current_char_idx < s.source_code.length) ∧
        ((matchChar e s).1 = false → (matchChar e s).2 = s)) ∧
    (∀ s : Lexer, CursorOK s → s.current_char_idx < s.source_code.length →
      ∃ r, scanToken s = some r ∧ CursorOK r ∧ r.source_code = s.source_code ∧
        r.start_lexeme_idx = s.start_lexeme_idx) ∧
    (∀ s : Lexer, CursorOK s →
      s.start_lexeme_idx + (s.current_char_idx - s.start_lexeme_idx) ≤ s.source_code.length ∧
      (substr s.source_code s.start_lexeme_idx
        (s.current_char_idx - s.start_lexeme_idx)).length =
          s.current_char_idx - s.start_lexeme_idx) := by
  refine ⟨cursorOK_new src flag, ?_, ?_, ?_, ?_, ?_, ?_, ?_, ?_, ?_⟩
  · obtain ⟨s1, h1, h2, h3, h4, h5⟩ := tokenize_new_cursor src flag
    refine ⟨s1, _, h1, h2, h5, ?_, h4⟩
    exact h2
  · intro fuel s h
    rcases tokenizeLoop_step fuel s h with ⟨r, h1, -, -, h4⟩ |
      ⟨s1, s', b1, b2, b3, b4, b5, -, b7, b8⟩
    · exact Or.inl ⟨r, h1, h4⟩
    · exact Or.inr ⟨s1, s', b1, b2, b3, b4, b5, b7, b8⟩
  · intro fuel s h
    rcases skipLoop_step fuel s h with h1 | ⟨s', ha, hc, -, -, heq⟩
    · exact Or.inl h1
    · exact Or.inr ⟨s', hc, ha.1, heq⟩
  · intro fuel s h
    rcases skipCommentBody_step fuel s h with h1 | ⟨s', ha, hc, -, heq⟩
    · exact Or.inl h1
    · exact Or.inr ⟨s', hc, ha.1, heq⟩
  · intro fuel s h
    rcases readNumberLoop_step fuel s h with h1 | ⟨s', ha, hc, -, heq⟩
    · exact Or.inl h1
    · refine Or.inr ⟨s', hc, ha.1, ?_, heq⟩
      have := ha.2.1; have := ha.2.2; rw [ha.1] at this; omega
  · intro fuel s h
    rcases readIdentifierLoop_step fuel s h with h1 | ⟨s', ha, hc, -, heq⟩
    · exact Or.inl h1
    · refine Or.inr ⟨s', hc, ha.1, ?_, heq⟩
      have := ha.2.1; have := ha.2.2; rw [ha.1] at this; omega
  · intro e s h
    obtain ⟨m1, m2, m3, m4, m5, m6⟩ := matchChar_lt e s
    refine ⟨⟨?_, ?_⟩, fun hm => (m1 hm).1, m2⟩
    · rw [m4]; have := h.1; omega
    · rw [m3]; exact m6 h.2
  · intro s h hlt
    obtain ⟨r, hr, ha, hc, hst⟩ := scanToken_bounds s hlt h
    exact ⟨r, hr, hc, ha.1, hst⟩
  · intro s h
    obtain ⟨h1, h2⟩ := h
    refine ⟨by omega, ?_⟩
    rw [substr, List.length_take, List.length_drop]
    omega

/-! ## The diagnostics of numbers -/

/-- The two kinds of diagnostics of a scan. -/
theorem mem_diagsOf {src : List Char} {d : Diagnostic} (h : d ∈ diagsOf src (items src)) :
    (∃ it ∈ items src, it.kind = none ∧
      d = ⟨lineAt src it.off, colAt src it.off, unexpectedMessage (charAt src it.off)⟩) ∨
    (∃ it ∈ items src, it.kind = some TokenType.NUMBER ∧
      stoi (substr src it.off it.len) = StoiResult.out_of_range ∧
      d = ⟨lineAt src it.off, colAt src it.off,
        "Number literal '".toList ++ substr src it.off it.len ++ "' is too large.".toList⟩) := by
  simp only [diagsOf, List.mem_filterMap] at h
  obtain ⟨it, hit, hd⟩ := h
  cases hk : it.kind with
  | none =>
    left
    simp only [itemDiag, hk, Option.some.injEq] at hd
    exact ⟨it, hit, hk, hd.symm⟩
  | some ty =>
    right
    simp only [itemDiag, hk] at hd
    by_cases hty : ty = TokenType.NUMBER
    · subst hty
      rw [if_pos rfl] at hd
      obtain ⟨hne, hdig⟩ := number_item_text hit hk
      have hst := stoi_digits _ hne hdig
      by_cases hle : decimalValue (substr src it.off it.len) ≤ 2147483647
      · rw [if_pos hle] at hst
        simp [numberMessage, hst] at hd
      · rw [if_neg hle] at hst
        simp only [numberMessage, hst, Option.map_some', Option.some.injEq] at hd
        exact ⟨it, hit, hk, hst, hd.symm⟩
    · rw [if_neg hty] at hd
      simp at hd

/-- C21: no diagnostic of a scan is an `Invalid number literal` one.  The
lexeme of a `NUMBER` token, which is the text that `readNumber` hands to
`stoi`, is a non-empty string of decimal digits, on which `stoi` does not
answer `invalid_argument`; and every diagnostic is either an
unexpected-character one or the `is too large` one of a `NUMBER` token, at the
position of that token. -/
theorem no_invalid_number_literal (src : List Char) (flag : Bool) :
    ∃ r, tokenize (Lexer.new src flag) = some r ∧
      (∀ d ∈ r.cerr, isInvalidNumberLiteral d = false) ∧
      (∀ t ∈ r.tokens, t.type = TokenType.NUMBER →
        t.value ≠ [] ∧ (∀ c ∈ t.value, isdigit c = true) ∧
          stoi t.value ≠ StoiResult.invalid_argument) ∧
      (∀ d ∈ r.cerr, isUnexpectedCharacter d = true ∨
        ∃ t ∈ r.tokens, t.type = TokenType.NUMBER ∧
          d = ⟨t.line, t.column,
            "Number literal '".toList ++ t.value ++ "' is too large.".toList⟩) := by
  obtain ⟨r, h1, -, h3, h4, -⟩ := tokenize_spec (Lexer.new src flag)
  simp only [Lexer.new, List.nil_append] at h3 h4
  refine ⟨r, h1, ?_, ?_, ?_⟩
  · intro d hd
    rw [h4] at hd
    rcases mem_diagsOf hd with ⟨it, -, -, rfl⟩ | ⟨it, -, -, -, rfl⟩
    · by_cases hc : charAt src it.off = '!'
      · simp only [isInvalidNumberLiteral, unexpectedMessage, if_pos hc]
        rfl
      · simp only [isInvalidNumberLiteral, unexpectedMessage, if_neg hc]
        rfl
    · rfl
  · intro t ht hty
    rw [h3] at ht
    rcases mem_tokens_cases ht with ht | rfl
    · obtain ⟨it, hit, ty, hk, rfl⟩ := mem_tokensOf ht
      simp only at hty
      subst hty
      obtain ⟨hne, hdig⟩ := number_item_text hit hk
      refine ⟨hne, hdig, ?_⟩
      simp only
      rw [stoi_digits _ hne hdig]
      split_ifs <;> simp
    · exact absurd (show TokenType.EOF_TOKEN = TokenType.NUMBER from hty) (by decide)
  · intro d hd
    rw [h4] at hd
    rcases mem_diagsOf hd with ⟨it, -, -, rfl⟩ | ⟨it, hit, hk, -, rfl⟩
    · exact Or.inl (isUnexpectedCharacter_unexpectedMessage _ _ _)
    · right
      refine ⟨⟨TokenType.NUMBER, substr src it.off it.len,
        literalOf TokenType.NUMBER (substr src it.off it.len), lineAt src it.off,
        colAt src it.off⟩, ?_, rfl, rfl⟩
      rw [h3]
      apply List.mem_append_left
      simp only [tokensOf, List.mem_filterMap]
      exact ⟨it, hit, by simp [itemToken, hk]⟩

/-! ## The skip after the main loop -/

/-- C24: when the main loop of `tokenize` exits, the cursor is at the end of
the source and `skipWhitespaceAndComments` returns the state unchanged; hence
the variant of `tokenize` without the skip after the loop returns, on every
state, the same result as `tokenize`: the same tokens, with the same
end-of-input token. -/
theorem post_loop_skip_is_noop (src : List Char) (flag : Bool) :
    (∃ s1, tokenizeLoop (src.length + 1) (Lexer.new src flag) = some s1 ∧
      s1.current_char_idx = src.length ∧ skipWhitespaceAndComments s1 = some s1) ∧
    (∀ s : Lexer, tokenizeNoPostSkip s = tokenize s) ∧
    (∃ r, tokenizeNoPostSkip (Lexer.new src flag) = some r ∧
      tokenize (Lexer.new src flag) = some r ∧
      r.tokens = tokensOf src (items src) ++ [eofToken src]) := by
  have hall : ∀ s : Lexer, tokenizeNoPostSkip s = tokenize s := by
    intro s
    obtain ⟨s1, h1, h2, h3, -⟩ := tokenizeLoop_spec (s.source_code.length + 1)
      { s with tokens := [], current_char_idx := 0, line := 1, column := 0,
               current_token_start_column := 1 }
      (Nat.zero_le _) (by simp only; omega) ⟨(lineAt_zero _).symm, (col0_zero _).symm⟩
    have hskip : skipWhitespaceAndComments s1 = some s1 :=
      skipLoop_at_end _ s1 (by simp [isAtEnd, h3, h2])
    have hsome : (if s1.tokens ≠ [] ∨ 0 < s1.source_code.length then
        skipWhitespaceAndComments s1 else some s1) = some s1 := by
      split_ifs
      · exact hskip
      · rfl
    rw [tokenize, tokenizeNoPostSkip]
    simp only [h1, Option.bind_eq_bind, Option.some_bind, hsome, Option.map_some']
  refine ⟨?_, hall, ?_⟩
  · obtain ⟨s1, h1, -, h3, h4, -⟩ := tokenize_new_cursor src flag
    exact ⟨s1, h1, h4, skipLoop_at_end _ s1 (by simp [isAtEnd, h3, h4])⟩
  · obtain ⟨r, h1, -, h3, -, -⟩ := tokenize_spec (Lexer.new src flag)
    simp only [Lexer.new] at h3
    exact ⟨r, by rw [hall]; exact h1, h1, h3⟩

/-! ## The order of tokens -/

theorem tokensWithOffsets_fst (src : List Char) (its : List Item) :
    (tokensWithOffsets src its).map Prod.fst = tokensOf src its := by
  induction its with
  | nil => rfl
  | cons it its ih =>
    simp only [tokensWithOffsets, tokensOf, List.filterMap_cons] at ih ⊢
    cases h : itemToken src it with
    | none => simpa using ih
    | some t => simpa using ih

theorem zip_map_fst_snd {α β : Type} (l : List (α × β)) :
    (l.map Prod.fst).zip (l.map Prod.snd) = l := by
  induction l with
  | nil => rfl
  | cons x l ih => simp [ih]

theorem mem_tokensWithOffsets {src : List Char} {its : List Item} {x : Token × Nat}
    (h : x ∈ tokensWithOffsets src its) :
    ∃ it ∈ its, ∃ ty, it.kind = some ty ∧ x.2 = it.off ∧
      x.1 = ⟨ty, substr src it.off it.len, literalOf ty (substr src it.off it.len),
        lineAt src it.off, colAt src it.off⟩ := by
  simp only [tokensWithOffsets, List.mem_filterMap] at h
  obtain ⟨it, hit, hx⟩ := h
  refine ⟨it, hit, ?_⟩
  cases hk : it.kind with
  | none => simp [itemToken, hk] at hx
  | some ty =>
    simp only [itemToken, hk, Option.map_some', Option.some.injEq] at hx
    subst hx
    exact ⟨ty, rfl, rfl, rfl⟩

/-- A later offset has a later position. -/
theorem pos_lt_of_offset_lt (src : List Char) (i j : Nat) (hij : i < j)
    (hj : j ≤ src.length) :
    lineAt src i < lineAt src j ∨ (lineAt src i = lineAt src j ∧ colAt src i < colAt src j) := by
  obtain ⟨d, rfl⟩ := Nat.exists_eq_add_of_le (Nat.le_of_lt hij)
  have hm := lineAt_mono src i d hj
  rcases Nat.lt_or_eq_of_le hm with h | h
  · exact Or.inl h
  · right
    have hno := no_newline_of_lineAt_eq src i d hj h.symm
    have := (pos_add_of_no_newline src i d hj hno).2
    refine ⟨h, ?_⟩
    simp only [colAt_eq]
    omega

theorem length_le_of_pairwise_lt : ∀ (os : List Nat) (n : Nat), os.Pairwise (fun a b => a < b) →
    (∀ o ∈ os, o < n) → os.length ≤ n := by
  intro os n hp hb
  have hnd : os.Nodup := hp.imp (fun h => Nat.ne_of_lt h)
  have hsub : os.toFinset ⊆ Finset.range n := by
    intro o ho
    rw [List.mem_toFinset] at ho
    exact Finset.mem_range.mpr (hb o ho)
  have := Finset.card_le_card hsub
  rw [List.toFinset_card_of_nodup hnd, Finset.card_range] at this
  exact this

/-- C23: the tokens other than the end-of-input token are followed by the
end-of-input token alone; they start at strictly increasing offsets `os` of
the source, each has a non-empty lexeme that is the text of the source from
its offset, the range of each ends before the start of every later one, the
positions (line, column) of all the tokens, the end-of-input token included,
strictly increase in the lexicographic order, and there are at most as many
such tokens as characters in the source. -/
theorem tokens_in_source_order (src : List Char) (flag : Bool) :
    ∃ r, tokenize (Lexer.new src flag) = some r ∧
      r.tokens = properTokens r.tokens ++ [eofToken src] ∧
      (∃ os : List Nat,
        List.Forall₂ (fun t o => StartsAt src t o ∧ t.value ≠ [] ∧
          t.value = substr src o t.value.length ∧ o + t.value.length ≤ src.length)
          (properTokens r.tokens) os ∧
        List.Pairwise (fun a b : Token × Nat => a.2 + a.1.value.length ≤ b.2)
          ((properTokens r.tokens).zip os) ∧
        List.Pairwise (fun a b => a < b) os) ∧
      List.Pairwise posLt r.tokens ∧
      (properTokens r.tokens).length ≤ src.length := by
  obtain ⟨r, h1, -, h3, -, -⟩ := tokenize_spec (Lexer.new src flag)
  simp only [Lexer.new] at h3
  have hprop : properTokens r.tokens = tokensOf src (items src) := by
    rw [properTokens, h3]; exact filter_ne_eof src
  have hfacts : ∀ x ∈ tokensWithOffsets src (items src),
      StartsAt src x.1 x.2 ∧ x.1.value ≠ [] ∧ x.1.value = substr src x.2 x.1.value.length ∧
        x.2 + x.1.value.length ≤ src.length ∧
        ∃ it ∈ items src, it.off = x.2 ∧ it.len = x.1.value.length := by
    intro x hx
    obtain ⟨it, hit, ty, hk, ho, ht⟩ := mem_tokensWithOffsets hx
    obtain ⟨hlt, hle, hpos⟩ := items_off_lt hit
    have hlen : (substr src it.off it.len).length = it.len := by
      rw [substr, List.length_take, List.length_drop]; omega
    rw [ht, ho]
    simp only [hlen]
    refine ⟨⟨hlt, rfl, rfl⟩, ?_, trivial, hle, it, hit, rfl, rfl⟩
    intro he
    rw [he] at hlen
    simp at hlen
    omega
  have hpw : (tokensWithOffsets src (items src)).Pairwise
      (fun a b => a.2 + a.1.value.length ≤ b.2) := by
    have hp := lexFrom_pairwise 0 src
    have hp' : (items src).Pairwise (fun a b => a.off + a.len ≤ b.off) := hp
    have := List.Pairwise.filterMap (R := fun a b : Item => a.off + a.len ≤ b.off)
      (S := fun a b : Token × Nat => a.2 + a.1.value.length ≤ b.2)
      (fun it => (itemToken src it).map fun t => (t, it.off)) ?_ hp'
    · exact this
    · intro a a' haa' b hb b' hb'
      simp only [Option.mem_def, Option.map_eq_some'] at hb hb'
      obtain ⟨t, ht, rfl⟩ := hb
      obtain ⟨t', ht', rfl⟩ := hb'
      simp only
      cases hk : a.kind with
      | none => simp [itemToken, hk] at ht
      | some ty =>
        simp only [itemToken, hk, Option.map_some', Option.some.injEq] at ht
        subst ht
        simp only [substr, List.length_take, List.length_drop]
        omega
  have hlt : (tokensWithOffsets src (items src)).Pairwise (fun a b => a.2 < b.2) := by
    refine List.Pairwise.imp_of_mem ?_ hpw
    intro a b ha _ hab
    obtain ⟨-, hne, -, -⟩ := hfacts a ha
    have : 0 < a.1.value.length := List.length_pos.mpr hne
    omega
  refine ⟨r, h1, by rw [hprop]; exact h3, ⟨(tokensWithOffsets src (items src)).map Prod.snd, ?_, ?_, ?_⟩,
    ?_, ?_⟩
  · rw [hprop, ← tokensWithOffsets_fst, List.forall₂_map_left_iff, List.forall₂_map_right_iff,
      List.forall₂_same]
    intro x hx
    obtain ⟨f1, f2, f3, f4, -⟩ := hfacts x hx
    exact ⟨f1, f2, f3, f4⟩
  · rw [hprop, ← tokensWithOffsets_fst, zip_map_fst_snd]
    exact hpw
  · rw [List.pairwise_map]
    exact hlt
  · rw [h3, List.pairwise_append]
    refine ⟨?_, List.pairwise_singleton _ _, ?_⟩
    · rw [← tokensWithOffsets_fst, List.pairwise_map]
      refine List.Pairwise.imp_of_mem ?_ hlt
      intro a b ha hb hab
      obtain ⟨⟨-, a2, a3⟩, -⟩ := hfacts a ha
      obtain ⟨⟨b1, b2, b3⟩, -⟩ := hfacts b hb
      have := pos_lt_of_offset_lt src a.2 b.2 hab (Nat.le_of_lt b1)
      rw [posLt, a2, a3, b2, b3]
      exact this
    · intro a ha b hb
      rw [List.mem_singleton] at hb
      subst hb
      rw [← tokensWithOffsets_fst, List.mem_map] at ha
      obtain ⟨x, hx, rfl⟩ := ha
      obtain ⟨⟨a1, a2, a3⟩, -⟩ := hfacts x hx
      have := pos_lt_of_offset_lt src x.2 src.length a1 (Nat.le_refl _)
      rw [posLt, a2, a3]
      exact this
  · rw [hprop, ← tokensWithOffsets_fst, List.length_map]
    have hl := length_le_of_pairwise_lt ((tokensWithOffsets src (items src)).map Prod.snd)
      src.length (by rw [List.pairwise_map]; exact hlt) (by
        intro o ho
        rw [List.mem_map] at ho
        obtain ⟨x, hx, rfl⟩ := ho
        exact (hfacts x hx).1.1)
    rw [List.length_map] at hl
    exact hl

/-! ## Scanning the lexemes again -/

theorem takeWhile_takeWhile_self {α : Type} (p : α → Bool) (l : List α) :
    (l.takeWhile p).takeWhile p = l.takeWhile p := by
  rw [List.takeWhile_eq_self_iff]
  intro x hx
  exact List.mem_takeWhile_imp hx

/-- The item at the head of a text is also the item at the head of its own
lexeme. -/
theorem scanHead_take {c : Char} {r : List Char} {ty : TokenType}
    (h : (scanHead c r).2 = some ty) :
    scanHead c (r.take ((scanHead c r).1 - 1)) = scanHead c r := by
  rcases scanHead_token h with ⟨hp, hl⟩ | ⟨hp, ⟨one, hck⟩, hh, hl⟩ | ⟨hp, ⟨two, hck⟩, hh, hl⟩ |
    ⟨hp, hck, -, hd, hl⟩ | ⟨hp, hck, hd, ha, hl, -⟩
  · rw [scanHead_punct _ hp, scanHead_punct _ hp]
  · rw [hl]
    have ht : (r.take (2 - 1)).head? = some '=' := by
      cases r with
      | nil => simp at hh
      | cons a b => simpa using hh
    rw [scanHead_compound _ hp hck, scanHead_compound _ hp hck, if_pos ht, if_pos hh]
  · rw [hl]
    have ht : ¬ (r.take (1 - 1)).head? = some '=' := by simp
    rw [scanHead_compound _ hp hck, scanHead_compound _ hp hck, if_neg ht, if_neg hh]
  · rw [hl, Nat.add_sub_cancel_left, take_length_takeWhile, scanHead_other _ hp hck,
      scanHead_other _ hp hck, if_pos hd, if_pos hd, takeWhile_takeWhile_self]
  · have hd' : ¬ isdigit c = true := by simp [hd]
    rw [hl, Nat.add_sub_cancel_left, take_length_takeWhile, scanHead_other _ hp hck,
      scanHead_other _ hp hck, if_neg hd', if_neg hd', if_pos ha, if_pos ha,
      takeWhile_takeWhile_self]

/-- The lexeme of every token, scanned alone, is one token of the same
kind. -/
theorem token_selfScanning {src : List Char} {t : Token} (h : t ∈ tokensOf src (items src)) :
    SelfScanning t.value t.type ∧ t.literal_value = literalOf t.type t.value := by
  obtain ⟨o, -, -, -, hk, hlen, hv, -, hlit, -, hb, -, -⟩ := token_source h
  refine ⟨⟨charAt src o, _, hv, hb, ?_, ?_⟩, hlit⟩
  · rintro ⟨hc, hh⟩
    have hs := scanHead_punct (src.drop (o + 1))
      (show punctKind (charAt src o) = some TokenType.OP_DIVIDE by rw [hc]; decide)
    rw [hs] at hh
    simp at hh
  · rw [scanHead_take hk, hlen]
    exact Prod.ext rfl hk

theorem lex_word_sep {w : List Char} {ty : TokenType} (h : SelfScanning w ty) (off : Nat)
    (rest : List Char) :
    lexFrom off (w ++ ' ' :: rest) =
      ⟨off, w.length, some ty⟩ :: lexFrom (off + w.length + 1) rest := by
  obtain ⟨c, w', rfl, hb, hc, hs⟩ := h
  have hc' : ¬ (c = '/' ∧ (w' ++ ' ' :: rest).head? = some '/') := by
    rintro ⟨h1, h2⟩
    cases w' with
    | nil => simp at h2
    | cons x xs => exact hc ⟨h1, by simpa using h2⟩
  rw [List.cons_append, lexFrom_item _ _ _ hb hc', scanHead_append_sep _ _ _ _ isSep_space, hs]
  simp only [List.length_cons, Nat.add_sub_cancel, List.drop_left']
  rw [lexFrom_blank _ _ _ (by decide)]

theorem lex_word_end {w : List Char} {ty : TokenType} (h : SelfScanning w ty) (off : Nat) :
    lexFrom off w = [⟨off, w.length, some ty⟩] := by
  obtain ⟨c, w', rfl, hb, hc, hs⟩ := h
  rw [lexFrom_item _ _ _ hb hc, hs]
  simp only [List.length_cons, Nat.add_sub_cancel, List.drop_length, lexFrom_nil]

theorem joinLexemes_cons_cons (t u : Token) (ts : List Token) :
    joinLexemes (t :: u :: ts) = t.value ++ ' ' :: joinLexemes (u :: ts) := by
  simp [joinLexemes, List.intercalate, List.intersperse]

theorem joinLexemes_singleton (t : Token) : joinLexemes [t] = t.value := by
  simp [joinLexemes, List.intercalate, List.intersperse]

theorem tripleOf_itemToken (full pre w rest : List Char) (ty : TokenType) (t : Token)
    (hfull : full = pre ++ (w ++ rest)) (hty : t.type = ty) (hv : t.value = w)
    (hlit : t.literal_value = literalOf t.type t.value) :
    (itemToken full ⟨pre.length, w.length, some ty⟩).map tripleOf = some (tripleOf t) := by
  have hs : substr full pre.length w.length = w := by
    have := substr_append_right pre (w ++ rest) 0 w.length
    rw [Nat.add_zero] at this
    rw [hfull, this, substr, List.drop_zero, List.take_left']
    rfl
  simp only [itemToken, Option.map_some', hs, tripleOf, Option.some.injEq, Prod.mk.injEq]
  exact ⟨hty.symm, hv.symm, by rw [hlit, hty, hv]⟩

/-- Scanning lexemes joined by single spaces gives the lexemes back. -/
theorem lex_joinLexemes : ∀ (ts : List Token) (pre : List Char),
    (∀ t ∈ ts, SelfScanning t.value t.type ∧ t.literal_value = literalOf t.type t.value) →
    (tokensOf (pre ++ joinLexemes ts) (lexFrom pre.length (joinLexemes ts))).map tripleOf =
        ts.map tripleOf ∧
      ∀ it ∈ lexFrom pre.length (joinLexemes ts), it.kind ≠ none := by
  intro ts
  induction ts with
  | nil =>
    intro pre _
    have e : joinLexemes [] = [] := rfl
    rw [e, lexFrom_nil]
    simp [tokensOf]
  | cons t ts ih =>
    intro pre h
    obtain ⟨hself, hlit⟩ := h t (List.mem_cons_self _ _)
    cases ts with
    | nil =>
      rw [joinLexemes_singleton, lex_word_end hself]
      refine ⟨?_, ?_⟩
      · have := tripleOf_itemToken (pre ++ t.value) pre t.value [] t.type t
          (by simp) rfl rfl hlit
        cases hit : itemToken (pre ++ t.value) ⟨pre.length, t.value.length, some t.type⟩ with
        | none => rw [hit] at this; simp at this
        | some x =>
          rw [hit] at this
          simp only [Option.map_some', Option.some.injEq] at this
          simp [tokensOf, hit, this]
      · intro it hit
        rw [List.mem_singleton] at hit
        rw [hit]
        simp
    | cons u us =>
      rw [joinLexemes_cons_cons, lex_word_sep hself]
      have hih := ih (pre ++ t.value ++ [' ']) (fun x hx => h x (List.mem_cons_of_mem _ hx))
      have e1 : (pre ++ t.value ++ [' ']).length = pre.length + t.value.length + 1 := by
        simp [Nat.add_assoc]
      have e2 : pre ++ t.value ++ [' '] ++ joinLexemes (u :: us) =
          pre ++ (t.value ++ ' ' :: joinLexemes (u :: us)) := by simp
      rw [e1, e2] at hih
      obtain ⟨ih1, ih2⟩ := hih
      refine ⟨?_, ?_⟩
      · have := tripleOf_itemToken (pre ++ (t.value ++ ' ' :: joinLexemes (u :: us))) pre t.value
          (' ' :: joinLexemes (u :: us)) t.type t rfl rfl rfl hlit
        cases hit : itemToken (pre ++ (t.value ++ ' ' :: joinLexemes (u :: us)))
            ⟨pre.length, t.value.length, some t.type⟩ with
        | none => rw [hit] at this; simp at this
        | some x =>
          rw [hit] at this
          simp only [Option.map_some', Option.some.injEq] at this
          rw [tokensOf_cons, hit, List.map_append, ih1]
          simp [this]
      · intro it hit
        rcases List.mem_cons.mp hit with rfl | hit
        · simp
        · exact ih2 it hit

/-- C25: let `L` be the lexemes of the tokens of a source other than the
end-of-input token, joined by single spaces.  The scan of `L` returns; its
tokens other than the end-of-input token have the same sequence of kind,
lexeme and literal as those of the source; and it reports no
unexpected-character diagnostic. -/
theorem rescan_round_trip (src : List Char) (flag flag2 : Bool) :
    ∃ r, tokenize (Lexer.new src flag) = some r ∧
      ∃ r2, tokenize (Lexer.new (joinLexemes (properTokens r.tokens)) flag2) = some r2 ∧
        (properTokens r2.tokens).map tripleOf = (properTokens r.tokens).map tripleOf ∧
        r2.cerr.filter isUnexpectedCharacter = [] := by
  obtain ⟨r, h1, -, h3, -, -⟩ := tokenize_spec (Lexer.new src flag)
  simp only [Lexer.new] at h3
  have hprop : properTokens r.tokens = tokensOf src (items src) := by
    rw [properTokens, h3]; exact filter_ne_eof src
  refine ⟨r, h1, ?_⟩
  rw [hprop]
  obtain ⟨r2, g1, -, g3, g4, -⟩ :=
    tokenize_spec (Lexer.new (joinLexemes (tokensOf src (items src))) flag2)
  simp only [Lexer.new, List.nil_append] at g3 g4
  have hprop2 : properTokens r2.tokens = tokensOf (joinLexemes (tokensOf src (items src)))
      (items (joinLexemes (tokensOf src (items src)))) := by
    rw [properTokens, g3]; exact filter_ne_eof _
  obtain ⟨k1, k2⟩ := lex_joinLexemes (tokensOf src (items src)) []
    (fun t ht => token_selfScanning ht)
  simp only [List.nil_append, List.length_nil] at k1 k2
  refine ⟨r2, g1, by rw [hprop2]; exact k1, ?_⟩
  rw [List.filter_eq_nil_iff]
  intro d hd
  rw [g4] at hd
  rcases mem_diagsOf hd with ⟨it, hit, hk, -⟩ | ⟨it, -, -, -, rfl⟩
  · exact absurd hk (k2 it hit)
  · simp only [Bool.not_eq_true]
    rfl

end CMinus
